import Mathlib
set_option maxRecDepth 10000
set_option linter.unusedSectionVars false

/-!
# Verification of the `tim_sort` crate (`src/algorithms/sort/tim_sort/src/lib.rs`)

This file gives a shallow embedding of the Rust Timsort implementation in the
repository and proves properties of it.  A Rust mutable slice `&mut [T]` is
modelled as a `List α` that each function consumes and returns; `usize` indices
become `Nat`.  In-bounds slice reads `slice[i]` are modelled with `List.getD i
default` (every read proved or checked in bounds by the theorems below).
`<[T]>::partition_point` is a Rust standard-library binary search whose
documented contract, on a slice partitioned by the predicate (all `true`
elements before all `false` ones — the case at every call site in this crate),
returns the size of the leading `true` block; it is embedded by that contract
as the length of the maximal `true` prefix.  Each `while` loop is embedded as
structural recursion on an explicit fuel argument whose initial value at the
call site is proved sufficient (the fuel-exhaustion branch returns the state
the Rust loop would exit with, and the theorems establish that with the fuel
passed by the embedded callers the branch coincides with or is unreachable
from real executions).  The comparator `F: FnMut(&T, &T) -> Ordering` is
modelled as a pure function `α → α → Ordering`; a comparator that "behaves as
a strict weak ordering" is one satisfying `Batteries.TransCmp` (answers are
oriented and `≤`-transitive).
-/

namespace TimSortVerif

open Batteries (OrientedCmp TransCmp)

/-- `type Run = (usize, usize);` — a half-open range `[first, second)`. -/
abbrev Run := Nat × Nat

/-- Length `|r|` of a run, as computed by the Rust code: `r.1 - r.0`. -/
def runLen (r : Run) : Nat := r.2 - r.1

/-- Embeds `<[T]>::partition_point(pred)` by its standard-library contract:
on a slice partitioned by `pred` the binary search returns the number of
leading elements satisfying `pred`. -/
def partitionPoint (pred : α → Bool) (l : List α) : Nat :=
  (l.takeWhile pred).length

/-- The sub-slice `slice[a..b]` (half-open): `(l.drop a).take (b - a)`. -/
def listSeg (l : List α) (a b : Nat) : List α :=
  (l.drop a).take (b - a)

/-- Applying an in-place transformation `f` to the sub-slice `slice[a..b]`
of `slice`, leaving the rest unchanged. -/
def spliceSeg (l : List α) (a b : Nat) (f : List α → List α) : List α :=
  l.take a ++ f (listSeg l a b) ++ l.drop b

/-- `slice.rotate_right(1)`: the last element moves to the front. -/
def rotateRightOne (l : List α) : List α :=
  match l.getLast? with
  | none => l
  | some x => x :: l.dropLast

/-- One iteration of the loop of `binary_insertion_sort_by` (lib.rs:189-202):
find the insertion point of `slice[cur_pos]` in the sorted prefix
`slice[0..cur_pos]` by `partition_point`, then rotate
`slice[insertion_pos..=cur_pos]` right by one. -/
def binStep [Inhabited α] (cmp : α → α → Ordering) (isInc : Bool)
    (slice : List α) (curPos : Nat) : List α :=
  let target := slice.getD curPos default
  let insertionPos :=
    if isInc then partitionPoint (fun x => (cmp x target).isLE) (slice.take curPos)
    else partitionPoint (fun x => (cmp x target).isGT) (slice.take curPos)
  slice.take insertionPos ++
    rotateRightOne ((slice.drop insertionPos).take (curPos + 1 - insertionPos)) ++
    slice.drop (curPos + 1)

/-- `binary_insertion_sort_by` (lib.rs:189-202): insertion sort of the whole
given slice, one `binStep` for each `cur_pos in 1..len`. -/
def binaryInsertionSortBy [Inhabited α] (cmp : α → α → Ordering) (isInc : Bool)
    (slice : List α) : List α :=
  (List.range' 1 (slice.length - 1)).foldl (binStep cmp isInc) slice

/-- The run-extension loop of `get_sorted_run_from_slice` (lib.rs:167-175):
`while run_end_pos < size && compare(&slice[run_end_pos-1], &slice[run_end_pos])
.is_le()` (ascending) or `.is_gt()` (descending), increment `run_end_pos`.
Fuel is `size - run_end_pos`, which makes `fuel = 0` coincide exactly with the
loop condition `run_end_pos < size` failing. -/
def extendRun [Inhabited α] (cmp : α → α → Ordering) (isInc : Bool)
    (slice : List α) : Nat → Nat → Nat
  | pos, 0 => pos
  | pos, fuel + 1 =>
    if (if isInc then (cmp (slice.getD (pos - 1) default) (slice.getD pos default)).isLE
        else (cmp (slice.getD (pos - 1) default) (slice.getD pos default)).isGT) then
      extendRun cmp isInc slice (pos + 1) fuel
    else pos

/-- `get_sorted_run_from_slice` (lib.rs:140-183).  Returns the transformed
slice together with the end position of the detected run.  The early return
handles `run_start_pos == size - 1`; otherwise the orientation is decided by
the first two elements, the minimum run is sorted in place by binary insertion
sort, the run is extended while the orientation continues, and a descending
run is reversed. -/
def getSortedRunFromSlice [Inhabited α] (cmp : α → α → Ordering) (slice : List α)
    (runStartPos minRunSize : Nat) : List α × Nat :=
  let size := slice.length
  if runStartPos = size - 1 then (slice, size)
  else
    let isRunIncrease :=
      (cmp (slice.getD runStartPos default) (slice.getD (runStartPos + 1) default)).isLE
    let runEndPos := min (runStartPos + minRunSize) size
    let slice1 := spliceSeg slice runStartPos runEndPos (binaryInsertionSortBy cmp isRunIncrease)
    let runEndPos1 := extendRun cmp isRunIncrease slice1 runEndPos (size - runEndPos)
    let slice2 := if isRunIncrease then slice1
      else spliceSeg slice1 runStartPos runEndPos1 List.reverse
    (slice2, runEndPos1)

/-- The halving loop of `get_min_run_size` (lib.rs:127-130):
`while m > 64 { m >>= 1 }`.  Fuel decreases once per halving; any
`fuel ≥ m` is sufficient (proved below). -/
def halveTo64 : Nat → Nat → Nat
  | m, 0 => m
  | m, fuel + 1 => if 64 < m then halveTo64 (m / 2) fuel else m

/-- `get_min_run_size` (lib.rs:122-135). -/
def getMinRunSize (n : Nat) : Nat × Nat :=
  if n < 64 then (n, 1)
  else
    let minRunSize := max (halveTo64 (n - 1) (n - 1) + 1) 32
    (minRunSize, (n - 1) / minRunSize + 1)

/-- `is_run_stack_ok` (lib.rs:262-276).  The stack is modelled as a `List Run`
whose head is the top of the Rust `Vec` (`first = run_stack[size-1]`). -/
def isRunStackOk (runStack : List Run) : Bool :=
  match runStack with
  | first :: second :: third :: _ =>
    runLen first < runLen second && runLen first + runLen second < runLen third
  | _ => true

/-- `is_run_gt` (lib.rs:280-282): `|r1| > |r2|`. -/
def isRunGt (r1 r2 : Run) : Bool :=
  runLen r2 < runLen r1

/-- `update_min_gallop` (lib.rs:289-295). -/
def updateMinGallop (minGallop : Nat) (gallopCnt : Nat) : Nat :=
  if gallopCnt = 1 then minGallop + 1
  else if 1 < minGallop then minGallop - 1
  else minGallop

/-- The doubling loop of `galloping_count` (lib.rs:399-404), with
`stride = 2 ^ t` (the Rust code starts at `stride = 1` and doubles it, so
`cur_idx = start_idx + 2 ^ t` and `prev_idx` is the previously accepted
`cur_idx`).  Returns `(prev_idx, cur_idx)`.  Fuel `run_limit` is sufficient
because the loop runs at most `log₂ run_limit` times; the fuel-exhausted
branch returns the same pair the loop exit returns. -/
def gallopLoop [Inhabited α] (p : α → Bool) (slice : List α) (runLimit startIdx : Nat) :
    Nat → Nat → Nat → Nat × Nat
  | t, prevIdx, 0 => (prevIdx, startIdx + 2 ^ t)
  | t, prevIdx, fuel + 1 =>
    if startIdx + 2 ^ t < runLimit ∧ p (slice.getD (startIdx + 2 ^ t) default) = true then
      gallopLoop p slice runLimit startIdx (t + 1) (startIdx + 2 ^ t) fuel
    else (prevIdx, startIdx + 2 ^ t)

/-- `galloping_count` (lib.rs:386-410): doubling search followed by a
`partition_point` of `slice[prev_idx..cur_idx]`; returns `cur_idx - start_idx`. -/
def gallopingCount [Inhabited α] (slice : List α) (targetIdx startIdx runLimit : Nat)
    (pred : α → α → Bool) : Nat :=
  let target := slice.getD targetIdx default
  let pc := gallopLoop (fun x => pred x target) slice runLimit startIdx 0 startIdx runLimit
  let curIdx := min pc.2 runLimit
  let curIdx2 := partitionPoint (fun x => pred x target) (listSeg slice pc.1 curIdx) + pc.1
  curIdx2 - startIdx

/-- The merge loop of `merge_two_run` (lib.rs:317-367).  The state is the four
cursors `i`, `j`, `k`, the two streak counters, and `min_gallop`; `run1e` is
`run1.1` and `run2e` the (shrunk) `run2.1`.  The function returns the contents
written to `merge_buffer[k..run2.1]` — the loop only reads the slice and
writes the buffer.  Each iteration copies `copy_cnt` elements from the slice
(`copy_cnt ≥ 1` in every reachable state, proved below), so fuel
`run2e - k` is sufficient; the fuel-exhausted branch returns `[]`, which is
also what the loop exit `k ≥ run2.1` produces. -/
def mergeLoop [Inhabited α] (cmp : α → α → Ordering) (slice : List α)
    (run1e run2e : Nat) : Nat → Nat → Nat → Nat → Nat → Nat → Nat → List α
  | _, _, _, _, _, _, 0 => []
  | i, j, k, s1, s2, mg, fuel + 1 =>
    if k < run2e then
      if j = run2e then
        (slice.drop i).take (run1e - i) ++
          mergeLoop cmp slice run1e run2e (i + (run1e - i)) j (k + (run1e - i)) s1 0 mg fuel
      else if (cmp (slice.getD i default) (slice.getD j default)).isLE then
        if mg ≤ s1 then
          let c := gallopingCount slice j i run1e (fun r1 t => (cmp r1 t).isLE)
          (slice.drop i).take c ++
            mergeLoop cmp slice run1e run2e (i + c) j (k + c) s1 0 (updateMinGallop mg c) fuel
        else
          (slice.drop i).take 1 ++
            mergeLoop cmp slice run1e run2e (i + 1) j (k + 1) (s1 + 1) 0 mg fuel
      else
        if i = run1e then
          (slice.drop j).take (run2e - j) ++
            mergeLoop cmp slice run1e run2e i (j + (run2e - j)) (k + (run2e - j)) 0 s2 mg fuel
        else if mg ≤ s2 then
          let c := gallopingCount slice i j run2e (fun r2 t => (cmp r2 t).isLT)
          (slice.drop j).take c ++
            mergeLoop cmp slice run1e run2e i (j + c) (k + c) 0 s2 (updateMinGallop mg c) fuel
        else
          (slice.drop j).take 1 ++
            mergeLoop cmp slice run1e run2e i (j + 1) (k + 1) 0 (s2 + 1) mg fuel
    else []

/-- The two `partition_point` narrowing steps at the top of `merge_two_run`
(lib.rs:308-311): the new `run1.0` and the new `run2.1`. -/
def mergeShrink [Inhabited α] (cmp : α → α → Ordering) (slice : List α)
    (run1 run2 : Run) : Nat × Nat :=
  (partitionPoint (fun x => (cmp x (slice.getD run2.1 default)).isLE)
      (listSeg slice run1.1 run1.2) + run1.1,
   partitionPoint (fun x => (cmp x (slice.getD (run1.2 - 1) default)).isLT)
      (listSeg slice run2.1 run2.2) + run2.1)

/-- `merge_two_run` (lib.rs:299-377).  After the narrowing, the merge loop
fills `merge_buffer[run1.0..run2.1]`, and the single final
`copy_nonoverlapping` writes that range back over `slice[run1.0..run2.1]`. -/
def mergeTwoRun [Inhabited α] (cmp : α → α → Ordering) (slice : List α)
    (run1 run2 : Run) : List α :=
  let s := mergeShrink cmp slice run1 run2
  let merged := mergeLoop cmp slice run1.2 s.2 s.1 run2.1 s.1 0 0 3 (s.2 - s.1)
  slice.take s.1 ++ merged ++ slice.drop s.2

/-- `keep_run_stack_invariant` (lib.rs:223-258).  The stack is a `List Run`
with its head the top of the Rust `Vec`.  Each iteration pops three runs and
pushes two, so the stack length drops by one and fuel `stack.length` is
sufficient; the fuel-exhausted branch returns the current state, which for
`fuel = stack.length` coincides with the loop exit because a stack shorter
than 3 always satisfies `is_run_stack_ok`.  The `| _` match arm is
unreachable: `is_run_stack_ok = false` forces at least three entries. -/
def keepRunStackInvariant [Inhabited α] (cmp : α → α → Ordering) :
    Nat → List α → List Run → List α × List Run
  | 0, slice, runStack => (slice, runStack)
  | fuel + 1, slice, runStack =>
    if isRunStackOk runStack then (slice, runStack)
    else
      match runStack with
      | firstFromTop :: secondFromTop :: thirdFromTop :: rest =>
        if isRunGt thirdFromTop firstFromTop then
          keepRunStackInvariant cmp fuel
            (mergeTwoRun cmp slice secondFromTop firstFromTop)
            ((secondFromTop.1, firstFromTop.2) :: thirdFromTop :: rest)
        else
          keepRunStackInvariant cmp fuel
            (mergeTwoRun cmp slice thirdFromTop secondFromTop)
            (firstFromTop :: (thirdFromTop.1, secondFromTop.2) :: rest)
      | _ => (slice, runStack)

/-- The run-splitting loop of `tim_sort_by` (lib.rs:66-76): repeatedly call
`get_sorted_run_from_slice` and record the produced run, until
`run_start_pos = size`.  Runs are returned left to right.  Each run is
nonempty (its end is strictly beyond its start whenever `min_run_size ≥ 1`),
so fuel `size` is sufficient. -/
def collectRuns [Inhabited α] (cmp : α → α → Ordering) (size minRunSize : Nat) :
    Nat → List α → Nat → List α × List Run
  | 0, slice, _ => (slice, [])
  | fuel + 1, slice, pos =>
    if pos < size then
      let se := getSortedRunFromSlice cmp slice pos minRunSize
      let rec' := collectRuns cmp size minRunSize fuel se.1 se.2
      (rec'.1, (pos, se.2) :: rec'.2)
    else (slice, [])

/-- The body of the final merge loop of `tim_sort_by` (lib.rs:100-113),
with the stack split as top run `curRun` plus the runs below it: while runs
remain below, pop the top, merge it with the run below, and widen that run to
cover both. -/
def finalMergeGo [Inhabited α] (cmp : α → α → Ordering) :
    List α → Run → List Run → List α
  | slice, _, [] => slice
  | slice, curRun, lastRun :: rest =>
      finalMergeGo cmp (mergeTwoRun cmp slice lastRun curRun)
        (lastRun.1, curRun.2) rest

/-- The final merge loop of `tim_sort_by` (lib.rs:100-113): while more than
one run is on the stack, pop the top run, merge it with the new top, and widen
the new top to cover both. -/
def finalMergeLoop [Inhabited α] (cmp : α → α → Ordering) (slice : List α) :
    List Run → List α
  | [] => slice
  | curRun :: rest => finalMergeGo cmp slice curRun rest

/-- The run-stack building loop of `tim_sort_by` (lib.rs:89-97): push each
run, then restore the stack invariant. -/
def buildRunStack [Inhabited α] (cmp : α → α → Ordering)
    (state : List α × List Run) (runs : List Run) : List α × List Run :=
  runs.foldl
    (fun acc r => keepRunStackInvariant cmp (r :: acc.2).length acc.1 (r :: acc.2)) state

/-- `tim_sort_by` (lib.rs:56-114). -/
def timSortBy [Inhabited α] (cmp : α → α → Ordering) (slice : List α) : List α :=
  let size := slice.length
  let mr := getMinRunSize size
  let sr := collectRuns cmp size mr.1 size slice 0
  if sr.2.length = 1 then sr.1
  else
    let st := buildRunStack cmp (sr.1, []) sr.2
    finalMergeLoop cmp st.1 st.2

/-- `tim_sort` (lib.rs:29-31): `tim_sort_by(slice, T::cmp)`. -/
def timSort [Inhabited α] [Ord α] (slice : List α) : List α :=
  timSortBy compare slice

/-- The scratch-buffer allocation of `tim_sort_by` (lib.rs:79-86): if only one
run was produced the function returns before allocating; otherwise
`Vec::with_capacity(size)` is allocated.  Returns the allocated capacity, or
`none` when the early return skips the allocation. -/
def timSortScratchCapacity [Inhabited α] (cmp : α → α → Ordering) (slice : List α) :
    Option Nat :=
  let size := slice.length
  let mr := getMinRunSize size
  let sr := collectRuns cmp size mr.1 size slice 0
  if sr.2.length = 1 then none else some size

/-! ### Reference definitions used to state the specification -/

/-- The Boolean non-strict order induced by the comparator. -/
def leB (cmp : α → α → Ordering) (a b : α) : Bool :=
  (cmp a b).isLE

/-- The non-strict order induced by the comparator: `a` precedes-or-ties `b`. -/
def cmpLE (cmp : α → α → Ordering) (a b : α) : Prop :=
  leB cmp a b = true

instance (cmp : α → α → Ordering) : DecidableRel (cmpLE cmp) :=
  fun a b => inferInstanceAs (Decidable (leB cmp a b = true))

/-- `l` is non-decreasing with respect to the comparator. -/
def SortedCmp (cmp : α → α → Ordering) (l : List α) : Prop :=
  l.Pairwise (cmpLE cmp)

/-- The canonical stable sort with respect to the comparator: Mathlib's
insertion sort by `cmpLE`, which places each element after all earlier
elements that compare `≤` to it. -/
def refSort (cmp : α → α → Ordering) (l : List α) : List α :=
  List.insertionSort (cmpLE cmp) l

/-- Membership test for the comparator-equivalence class of `k`. -/
def eqvB (cmp : α → α → Ordering) (k : α) (x : α) : Bool :=
  decide (cmp x k = Ordering.eq)

/-- A deliberately inconsistent comparator on `Nat` (it is a pure function but
not a strict weak ordering: for instance `cmpBad 31 33 = .gt` while
`cmpBad 31 34 = .lt` and `cmpBad 33 34 = .lt`).  Used to exhibit that
`tim_sort_by` does not preserve the element multiset for arbitrary
comparators. -/
def cmpBad (a b : Nat) : Ordering :=
  if a < 33 ∧ b < 33 then compare a b
  else if 33 ≤ a ∧ 33 ≤ b then compare a b
  else if a < 33 then
    if b = 33 then (if a ≤ 30 then .lt else .gt)
    else if b = 34 then (if a = 31 ∨ a = 32 then .lt else compare a b)
    else compare a b
  else
    if b = 32 then (if a = 33 ∨ a = 34 then .lt else .gt)
    else compare a b

/-- A comparator on key-value pairs that compares only the key (a strict weak
ordering in which distinct pairs can compare `Equal`), making stability
observable. -/
def keyCmp (a b : Nat × Nat) : Ordering :=
  compare a.1 b.1

instance : TransCmp keyCmp where
  symm a b := @Batteries.OrientedCmp.symm _ compare _ a.1 b.1
  le_trans := fun {a b c} h1 h2 =>
    @Batteries.TransCmp.le_trans _ compare _ a.1 b.1 c.1 h1 h2

/-- Instrumented mirror of `mergeLoop` for the reachability statement of the
`i == run1.1` remainder branch (lib.rs:345-347): it performs exactly the same
state transitions but returns `false` as soon as an iteration starts with
`k < run2.1` and `j ≠ run2.1` but `i ≥ run1.1` — the situation in which the
loop would compare `slice[i]` outside `run1` and in which the remainder branch
becomes reachable.  It returns `true` if no such iteration occurs. -/
def mergeLoopRun1Ok [Inhabited α] (cmp : α → α → Ordering) (slice : List α)
    (run1e run2e : Nat) : Nat → Nat → Nat → Nat → Nat → Nat → Nat → Bool
  | _, _, _, _, _, _, 0 => true
  | i, j, k, s1, s2, mg, fuel + 1 =>
    if k < run2e then
      if j = run2e then
        mergeLoopRun1Ok cmp slice run1e run2e (i + (run1e - i)) j (k + (run1e - i)) s1 0 mg fuel
      else if i < run1e then
        if (cmp (slice.getD i default) (slice.getD j default)).isLE then
          if mg ≤ s1 then
            let c := gallopingCount slice j i run1e (fun r1 t => (cmp r1 t).isLE)
            mergeLoopRun1Ok cmp slice run1e run2e (i + c) j (k + c) s1 0 (updateMinGallop mg c) fuel
          else
            mergeLoopRun1Ok cmp slice run1e run2e (i + 1) j (k + 1) (s1 + 1) 0 mg fuel
        else
          if mg ≤ s2 then
            let c := gallopingCount slice i j run2e (fun r2 t => (cmp r2 t).isLT)
            mergeLoopRun1Ok cmp slice run1e run2e i (j + c) (k + c) 0 s2 (updateMinGallop mg c) fuel
          else
            mergeLoopRun1Ok cmp slice run1e run2e i (j + 1) (k + 1) 0 (s2 + 1) mg fuel
      else false
    else true

/-- The merge loop of `merge_two_run` started on the state `merge_two_run`
itself sets up after the narrowing of the two runs, checked by
`mergeLoopRun1Ok`. -/
def mergeTwoRunSafe [Inhabited α] (cmp : α → α → Ordering) (slice : List α)
    (run1 run2 : Run) : Bool :=
  let s := mergeShrink cmp slice run1 run2
  mergeLoopRun1Ok cmp slice run1.2 s.2 s.1 run2.1 s.1 0 0 3 (s.2 - s.1)

/-- `l` is non-increasing with respect to the comparator: the order maintained
by the descending phase of `binary_insertion_sort_by`. -/
def SortedCmpDesc (cmp : α → α → Ordering) (l : List α) : Prop :=
  l.Pairwise (fun a b => (cmp b a).isLE = true)

/-- The comparison predicate of one binary-insertion step (lib.rs:193-196):
the ascending direction inserts after ties (`is_le`), the descending one
before ties (`is_gt`). -/
def bpred (cmp : α → α → Ordering) (isInc : Bool) : α → α → Bool :=
  fun x y => if isInc then (cmp x y).isLE else (cmp x y).isGT

/-- The list-level effect of one binary-insertion step: insert `t` at the
partition point of `fun x => p x t` in `Q`. -/
def insBy (p : α → α → Bool) (Q : List α) (t : α) : List α :=
  Q.takeWhile (fun x => p x t) ++ t :: Q.dropWhile (fun x => p x t)

/-- List-level binary insertion sort: insert the elements of `rest` one by one
into the prefix `Q`. -/
def insFold (p : α → α → Bool) (Q rest : List α) : List α :=
  rest.foldl (insBy p) Q

/-- The run list produced by the run-splitting loop tiles `[pos, size)` with
nonempty adjacent runs, listed left to right. -/
def RunsCover (size : Nat) : Nat → List Run → Prop
  | pos, [] => pos = size
  | pos, r :: rest => r.1 = pos ∧ pos < r.2 ∧ r.2 ≤ size ∧ RunsCover size r.2 rest

/-- The run stack (head = top of the Rust `Vec`) tiles `[0, e)` with nonempty
adjacent runs, each run lying to the right of all runs below it. -/
def Covers : List Run → Nat → Prop
  | [], e => e = 0
  | r :: rest, e => r.2 = e ∧ r.1 < r.2 ∧ Covers rest r.1

/-- All run segments of the stack hold the stable sort of the corresponding
segment of the original sequence. -/
def SegsSorted (cmp : α → α → Ordering) (orig slice : List α)
    (stack : List Run) : Prop :=
  ∀ r ∈ stack, listSeg slice r.1 r.2 = refSort cmp (listSeg orig r.1 r.2)

/-! ### Panic modelling: `Except` variants of the pipeline

A panicking comparator is modelled as `pcmp : α → α → Option Ordering`
(`none` = panic).  Each variant returns `Except (List α) _` where an error
carries the slice contents at the moment of the panic: comparisons happen
only between whole-slice states (`partition_point` and the run-extension and
merge loops read but never write the slice; `rotate_right`, `reverse` and the
single final merge copy-back write but never compare), so the slice at a
panic is the slice at the entry of the innermost writing step.  Which probe
order a binary search uses only decides *which* comparison panics, never the
recorded slice. -/

/-- `pcmp` is the partial restriction of the total comparator `cmp`: wherever
`pcmp` answers, it answers as `cmp`. -/
def Agree (pcmp : α → α → Option Ordering) (cmp : α → α → Ordering) : Prop :=
  ∀ x y o, pcmp x y = some o → cmp x y = o

def partitionPointE (pred : α → Option Bool) : List α → Except Unit Nat
  | [] => .ok 0
  | x :: xs =>
    match pred x with
    | none => .error ()
    | some false => .ok 0
    | some true =>
      match partitionPointE pred xs with
      | .error e => .error e
      | .ok n => .ok (n + 1)

def binStepE [Inhabited α] (pcmp : α → α → Option Ordering) (isInc : Bool)
    (slice : List α) (curPos : Nat) : Except Unit (List α) :=
  let target := slice.getD curPos default
  let pp := if isInc then
      partitionPointE (fun x => (pcmp x target).map Ordering.isLE) (slice.take curPos)
    else
      partitionPointE (fun x => (pcmp x target).map Ordering.isGT) (slice.take curPos)
  match pp with
  | .error _ => .error ()
  | .ok insertionPos =>
    .ok (slice.take insertionPos ++
      rotateRightOne ((slice.drop insertionPos).take (curPos + 1 - insertionPos)) ++
      slice.drop (curPos + 1))

def binSortGoE [Inhabited α] (pcmp : α → α → Option Ordering) (isInc : Bool) :
    List Nat → List α → Except (List α) (List α)
  | [], slice => .ok slice
  | p :: ps, slice =>
    match binStepE pcmp isInc slice p with
    | .error _ => .error slice
    | .ok s2 => binSortGoE pcmp isInc ps s2

def binaryInsertionSortByE [Inhabited α] (pcmp : α → α → Option Ordering)
    (isInc : Bool) (slice : List α) : Except (List α) (List α) :=
  binSortGoE pcmp isInc (List.range' 1 (slice.length - 1)) slice

def extendRunE [Inhabited α] (pcmp : α → α → Option Ordering) (isInc : Bool)
    (slice : List α) : Nat → Nat → Except Unit Nat
  | pos, 0 => .ok pos
  | pos, fuel + 1 =>
    match pcmp (slice.getD (pos - 1) default) (slice.getD pos default) with
    | none => .error ()
    | some o =>
      if (if isInc then o.isLE else o.isGT) then extendRunE pcmp isInc slice (pos + 1) fuel
      else .ok pos

def getSortedRunFromSliceE [Inhabited α] (pcmp : α → α → Option Ordering)
    (slice : List α) (runStartPos minRunSize : Nat) :
    Except (List α) (List α × Nat) :=
  let size := slice.length
  if runStartPos = size - 1 then .ok (slice, size)
  else
    match pcmp (slice.getD runStartPos default) (slice.getD (runStartPos + 1) default) with
    | none => .error slice
    | some o =>
      let isRunIncrease := o.isLE
      let runEnd := min (runStartPos + minRunSize) size
      match binaryInsertionSortByE pcmp isRunIncrease (listSeg slice runStartPos runEnd) with
      | .error eseg => .error (slice.take runStartPos ++ eseg ++ slice.drop runEnd)
      | .ok sseg =>
        let slice1 := slice.take runStartPos ++ sseg ++ slice.drop runEnd
        match extendRunE pcmp isRunIncrease slice1 runEnd (size - runEnd) with
        | .error _ => .error slice1
        | .ok runEndPos1 =>
          .ok (if isRunIncrease then slice1
               else spliceSeg slice1 runStartPos runEndPos1 List.reverse, runEndPos1)

def collectRunsE [Inhabited α] (pcmp : α → α → Option Ordering)
    (size minRunSize : Nat) : Nat → List α → Nat → Except (List α) (List α × List Run)
  | 0, slice, _ => .ok (slice, [])
  | fuel + 1, slice, pos =>
    if pos < size then
      match getSortedRunFromSliceE pcmp slice pos minRunSize with
      | .error s => .error s
      | .ok se =>
        match collectRunsE pcmp size minRunSize fuel se.1 se.2 with
        | .error s => .error s
        | .ok r => .ok (r.1, (pos, se.2) :: r.2)
    else .ok (slice, [])

def gallopLoopE [Inhabited α] (p : α → Option Bool) (slice : List α)
    (runLimit startIdx : Nat) : Nat → Nat → Nat → Except Unit (Nat × Nat)
  | t, prevIdx, 0 => .ok (prevIdx, startIdx + 2 ^ t)
  | t, prevIdx, fuel + 1 =>
    if startIdx + 2 ^ t < runLimit then
      match p (slice.getD (startIdx + 2 ^ t) default) with
      | none => .error ()
      | some true =>
        gallopLoopE p slice runLimit startIdx (t + 1) (startIdx + 2 ^ t) fuel
      | some false => .ok (prevIdx, startIdx + 2 ^ t)
    else .ok (prevIdx, startIdx + 2 ^ t)

def gallopingCountE [Inhabited α] (slice : List α) (targetIdx startIdx runLimit : Nat)
    (predE : α → α → Option Bool) : Except Unit Nat :=
  let target := slice.getD targetIdx default
  match gallopLoopE (fun x => predE x target) slice runLimit startIdx 0 startIdx
      runLimit with
  | .error _ => .error ()
  | .ok pc =>
    let curIdx := min pc.2 runLimit
    match partitionPointE (fun x => predE x target) (listSeg slice pc.1 curIdx) with
    | .error _ => .error ()
    | .ok pp => .ok (pp + pc.1 - startIdx)

def mergeLoopE [Inhabited α] (pcmp : α → α → Option Ordering) (slice : List α)
    (run1e run2e : Nat) :
    Nat → Nat → Nat → Nat → Nat → Nat → Nat → Except Unit (List α)
  | _, _, _, _, _, _, 0 => .ok []
  | i, j, k, s1, s2, mg, fuel + 1 =>
    if k < run2e then
      if j = run2e then
        match mergeLoopE pcmp slice run1e run2e (i + (run1e - i)) j (k + (run1e - i))
            s1 0 mg fuel with
        | .error e => .error e
        | .ok rest => .ok ((slice.drop i).take (run1e - i) ++ rest)
      else
        match pcmp (slice.getD i default) (slice.getD j default) with
        | none => .error ()
        | some o =>
          if o.isLE then
            if mg ≤ s1 then
              match gallopingCountE slice j i run1e
                  (fun r1 t => (pcmp r1 t).map Ordering.isLE) with
              | .error _ => .error ()
              | .ok c =>
                match mergeLoopE pcmp slice run1e run2e (i + c) j (k + c) s1 0
                    (updateMinGallop mg c) fuel with
                | .error e => .error e
                | .ok rest => .ok ((slice.drop i).take c ++ rest)
            else
              match mergeLoopE pcmp slice run1e run2e (i + 1) j (k + 1) (s1 + 1) 0
                  mg fuel with
              | .error e => .error e
              | .ok rest => .ok ((slice.drop i).take 1 ++ rest)
          else
            if i = run1e then
              match mergeLoopE pcmp slice run1e run2e i (j + (run2e - j))
                  (k + (run2e - j)) 0 s2 mg fuel with
              | .error e => .error e
              | .ok rest => .ok ((slice.drop j).take (run2e - j) ++ rest)
            else if mg ≤ s2 then
              match gallopingCountE slice i j run2e
                  (fun r2 t => (pcmp r2 t).map Ordering.isLT) with
              | .error _ => .error ()
              | .ok c =>
                match mergeLoopE pcmp slice run1e run2e i (j + c) (k + c) 0 s2
                    (updateMinGallop mg c) fuel with
                | .error e => .error e
                | .ok rest => .ok ((slice.drop j).take c ++ rest)
            else
              match mergeLoopE pcmp slice run1e run2e i (j + 1) (k + 1) 0 (s2 + 1)
                  mg fuel with
              | .error e => .error e
              | .ok rest => .ok ((slice.drop j).take 1 ++ rest)
    else .ok []

def mergeShrinkE [Inhabited α] (pcmp : α → α → Option Ordering) (slice : List α)
    (run1 run2 : Run) : Except Unit (Nat × Nat) :=
  match partitionPointE (fun x => (pcmp x (slice.getD run2.1 default)).map Ordering.isLE)
      (listSeg slice run1.1 run1.2) with
  | .error _ => .error ()
  | .ok p1 =>
    match partitionPointE
        (fun x => (pcmp x (slice.getD (run1.2 - 1) default)).map Ordering.isLT)
        (listSeg slice run2.1 run2.2) with
    | .error _ => .error ()
    | .ok p2 => .ok (p1 + run1.1, p2 + run2.1)

/-- `merge_two_run` with a panicking comparator: the loop only fills the
scratch buffer, and the single final `copy_nonoverlapping` back into the slice
happens after all comparisons, so a panic anywhere inside leaves the slice
exactly as it was on entry. -/
def mergeTwoRunE [Inhabited α] (pcmp : α → α → Option Ordering) (slice : List α)
    (run1 run2 : Run) : Except (List α) (List α) :=
  match mergeShrinkE pcmp slice run1 run2 with
  | .error _ => .error slice
  | .ok s =>
    match mergeLoopE pcmp slice run1.2 s.2 s.1 run2.1 s.1 0 0 3 (s.2 - s.1) with
    | .error _ => .error slice
    | .ok merged => .ok (slice.take s.1 ++ merged ++ slice.drop s.2)

def keepRunStackInvariantE [Inhabited α] (pcmp : α → α → Option Ordering) :
    Nat → List α → List Run → Except (List α) (List α × List Run)
  | 0, slice, runStack => .ok (slice, runStack)
  | fuel + 1, slice, runStack =>
    if isRunStackOk runStack then .ok (slice, runStack)
    else
      match runStack with
      | firstFromTop :: secondFromTop :: thirdFromTop :: rest =>
        if isRunGt thirdFromTop firstFromTop then
          match mergeTwoRunE pcmp slice secondFromTop firstFromTop with
          | .error e => .error e
          | .ok slice2 =>
            keepRunStackInvariantE pcmp fuel slice2
              ((secondFromTop.1, firstFromTop.2) :: thirdFromTop :: rest)
        else
          match mergeTwoRunE pcmp slice thirdFromTop secondFromTop with
          | .error e => .error e
          | .ok slice2 =>
            keepRunStackInvariantE pcmp fuel slice2
              (firstFromTop :: (thirdFromTop.1, secondFromTop.2) :: rest)
      | _ => .ok (slice, runStack)

def buildRunStackE [Inhabited α] (pcmp : α → α → Option Ordering) :
    List Run → List α × List Run → Except (List α) (List α × List Run)
  | [], state => .ok state
  | r :: runs, state =>
    match keepRunStackInvariantE pcmp (r :: state.2).length state.1 (r :: state.2) with
    | .error e => .error e
    | .ok st2 => buildRunStackE pcmp runs st2

def finalMergeGoE [Inhabited α] (pcmp : α → α → Option Ordering) :
    List α → Run → List Run → Except (List α) (List α)
  | slice, _, [] => .ok slice
  | slice, curRun, lastRun :: rest =>
    match mergeTwoRunE pcmp slice lastRun curRun with
    | .error e => .error e
    | .ok slice2 => finalMergeGoE pcmp slice2 (lastRun.1, curRun.2) rest

def finalMergeLoopE [Inhabited α] (pcmp : α → α → Option Ordering) (slice : List α) :
    List Run → Except (List α) (List α)
  | [] => .ok slice
  | curRun :: rest => finalMergeGoE pcmp slice curRun rest

/-- `tim_sort_by` with a panicking comparator. -/
def timSortByE [Inhabited α] (pcmp : α → α → Option Ordering) (slice : List α) :
    Except (List α) (List α) :=
  let size := slice.length
  let mr := getMinRunSize size
  match collectRunsE pcmp size mr.1 size slice 0 with
  | .error e => .error e
  | .ok sr =>
    if sr.2.length = 1 then .ok sr.1
    else
      match buildRunStackE pcmp sr.2 (sr.1, []) with
      | .error e => .error e
      | .ok st => finalMergeLoopE pcmp st.1 st.2

/-- A comparator that agrees with `compare` on `Nat` but panics whenever
either argument is `7`. -/
def pcmpPanic7 (a b : Nat) : Option Ordering :=
  if a = 7 ∨ b = 7 then none else some (compare a b)

/-! ## Theorems -/

theorem partitionPoint_le_length (pred : α → Bool) (l : List α) :
    partitionPoint pred l ≤ l.length :=
  (l.takeWhile_sublist pred).length_le

theorem listSeg_length_le (l : List α) (a b : Nat) :
    (listSeg l a b).length ≤ b - a := by
  simp only [listSeg, List.length_take]
  exact Nat.min_le_left _ _

/-! ### C7: `get_min_run_size` -/

/-- The halving loop leaves `m ≤ 64` unchanged. -/
theorem halveTo64_of_le {m : Nat} (fuel : Nat) (h : m ≤ 64) : halveTo64 m fuel = m := by
  cases fuel with
  | zero => rfl
  | succ fuel => rw [halveTo64, if_neg (by omega)]

/-- With sufficient fuel, the halving loop maps any `m > 64` into `[32, 64]`. -/
theorem halveTo64_bounds : ∀ (fuel m : Nat), m ≤ fuel → 64 < m →
    32 ≤ halveTo64 m fuel ∧ halveTo64 m fuel ≤ 64
  | 0, _, hf, hm => absurd hm (by omega)
  | fuel + 1, m, hf, hm => by
    rw [halveTo64, if_pos hm]
    by_cases h2 : 64 < m / 2
    · exact halveTo64_bounds fuel (m / 2) (by omega) h2
    · rw [halveTo64_of_le fuel (by omega)]
      omega

/-- C7 (counterexample): the claim asserts `32 ≤ min_run_size ≤ 64` for all
`n ≥ 64`, but `get_min_run_size(65)` returns a `min_run_size` of `65`. -/
theorem getMinRunSize_claim_cex :
    64 ≤ 65 ∧ (getMinRunSize 65).1 = 65 ∧ ¬((getMinRunSize 65).1 ≤ 64) := by decide

/-- C7 (amended): `get_min_run_size(m) = (m, 1)` for `m < 64`; for `n ≥ 64`
the code halves `n - 1` until it is `≤ 64`, adds one and floors at 32, so
`33 ≤ min_run_size ≤ 65` (the upper bound 64 claimed by the spec is reached
and exceeded at `n = 65`), and `max_run_count = ceil(n / min_run_size)`; the
boundary values 31, 32, 64, 65 and the example 1088 evaluate as stated. -/
theorem getMinRunSize_spec (n m : Nat) (hn : 64 ≤ n) (hm : m < 64) :
    getMinRunSize m = (m, 1) ∧
    (getMinRunSize n).1 = max (halveTo64 (n - 1) (n - 1) + 1) 32 ∧
    33 ≤ (getMinRunSize n).1 ∧ (getMinRunSize n).1 ≤ 65 ∧
    (getMinRunSize n).2 = (n + (getMinRunSize n).1 - 1) / (getMinRunSize n).1 ∧
    getMinRunSize 31 = (31, 1) ∧ getMinRunSize 32 = (32, 1) ∧
    getMinRunSize 64 = (64, 1) ∧ getMinRunSize 65 = (65, 1) ∧
    getMinRunSize 1088 = (34, 32) := by
  have hsmall : getMinRunSize m = (m, 1) := by
    unfold getMinRunSize
    rw [if_pos hm]
  have hdef : getMinRunSize n =
      (max (halveTo64 (n - 1) (n - 1) + 1) 32,
       (n - 1) / max (halveTo64 (n - 1) (n - 1) + 1) 32 + 1) := by
    unfold getMinRunSize
    rw [if_neg (by omega)]
  have h1 : (getMinRunSize n).1 = max (halveTo64 (n - 1) (n - 1) + 1) 32 := by
    rw [hdef]
  have hbounds : 33 ≤ (getMinRunSize n).1 ∧ (getMinRunSize n).1 ≤ 65 := by
    rw [h1]
    by_cases h2 : 64 < n - 1
    · have := halveTo64_bounds (n - 1) (n - 1) (Nat.le_refl _) h2
      omega
    · rw [halveTo64_of_le (n - 1) (by omega)]
      omega
  have h2 : (getMinRunSize n).2 = (n + (getMinRunSize n).1 - 1) / (getMinRunSize n).1 := by
    have hpos : 0 < (getMinRunSize n).1 := by omega
    have hrw : n + (getMinRunSize n).1 - 1 = (n - 1) + (getMinRunSize n).1 := by omega
    rw [hrw, Nat.add_div_right _ hpos, h1, hdef]
  refine ⟨hsmall, h1, hbounds.1, hbounds.2, h2, ?_, ?_, ?_, ?_, ?_⟩ <;> decide

/-- C7 (witness): the amended statement instantiated at `n = 1088`, `m = 31`. -/
theorem getMinRunSize_spec_witness :
    getMinRunSize 31 = (31, 1) ∧
    (getMinRunSize 1088).1 = max (halveTo64 1087 1087 + 1) 32 ∧
    33 ≤ (getMinRunSize 1088).1 ∧ (getMinRunSize 1088).1 ≤ 65 ∧
    (getMinRunSize 1088).2 = (1088 + (getMinRunSize 1088).1 - 1) / (getMinRunSize 1088).1 ∧
    getMinRunSize 31 = (31, 1) ∧ getMinRunSize 32 = (32, 1) ∧
    getMinRunSize 64 = (64, 1) ∧ getMinRunSize 65 = (65, 1) ∧
    getMinRunSize 1088 = (34, 32) :=
  getMinRunSize_spec 1088 31 (by decide) (by decide)

/-! ### C8: run detection examples -/

/-- C8: run detection on `[2,3,-1,-5,0,4,11,15]` (ascending, `min_run_size`
5) returns end position 8 with the whole slice sorted, and on
`[3,2,-1,-5,0,4,11,15]` (descending, `min_run_size` 4) returns end position 4
with the run reversed in place and the tail untouched. -/
theorem getSortedRunFromSlice_examples :
    getSortedRunFromSlice (compare : Int → Int → Ordering) [2, 3, -1, -5, 0, 4, 11, 15] 0 5 =
      ([-5, -1, 0, 2, 3, 4, 11, 15], 8) ∧
    getSortedRunFromSlice (compare : Int → Int → Ordering) [3, 2, -1, -5, 0, 4, 11, 15] 0 4 =
      ([-5, -1, 2, 3, 0, 4, 11, 15], 4) := by decide

/-! ### C9: galloping count example -/

/-- C9: on `[7,1,2,3,4,5,6,7,7,8,8,9,10,8]`, galloping from index 1 with
limit 13 counts exactly 8 consecutive elements `≤` the target value 7 stored
at index 0. -/
theorem gallopingCount_example :
    gallopingCount ([7, 1, 2, 3, 4, 5, 6, 7, 7, 8, 8, 9, 10, 8] : List Int) 0 1 13
      (fun a b => (compare a b).isLE) = 8 := by decide

/-! ### C6: scratch buffer size -/

/-- C6 (counterexample): on a 66-element input with two runs, the sort does
allocate, and the allocation is `Vec::with_capacity(size)` with `size = 66`,
which exceeds `ceil(66 / 2) = 33`. -/
theorem timSortScratchCapacity_claim_cex :
    timSortScratchCapacity (compare : Nat → Nat → Ordering)
      ((List.range 33).map (fun k => k + 33) ++ List.range 33) = some 66 ∧
    ¬((66 : Nat) ≤ (66 + 1) / 2) := by decide

/-- C6 (amended): whenever the sort allocates a scratch buffer its capacity is
the full input length `n` (not `ceil(n/2)`; the merge copies the whole merged
span into the buffer, which can be the entire sequence), and the buffer
positions written by a merge lie in `[run1.0', run2.1')` whose upper end, the
narrowed `run2.1`, never exceeds the original `run2.1 ≤ n`. -/
theorem timSortScratchCapacity_spec [Inhabited α] (cmp : α → α → Ordering)
    (l : List α) (c : Nat) (h : timSortScratchCapacity cmp l = some c)
    (slice : List α) (r1 r2 : Run) (hr : r2.1 ≤ r2.2) :
    c = l.length ∧ (mergeShrink cmp slice r1 r2).2 ≤ r2.2 := by
  constructor
  · unfold timSortScratchCapacity at h
    simp only at h
    split at h
    · exact absurd h (by simp)
    · exact (Option.some.inj h).symm
  · have h1 := partitionPoint_le_length
      (fun x => (cmp x (slice.getD (r1.2 - 1) default)).isLT) (listSeg slice r2.1 r2.2)
    have h2 := listSeg_length_le slice r2.1 r2.2
    simp only [mergeShrink]
    omega

/-- C6 (witness): the amended statement instantiated on the concrete
66-element input and the final merge's runs. -/
theorem timSortScratchCapacity_spec_witness :
    66 = ((List.range 33).map (fun k => k + 33) ++ List.range 33).length ∧
    (mergeShrink (compare : Nat → Nat → Ordering)
      ((List.range 33).map (fun k => k + 33) ++ List.range 33) (0, 33) (33, 66)).2 ≤ 66 :=
  timSortScratchCapacity_spec compare _ 66 (by decide) _ (0, 33) (33, 66) (by decide)

/-! ### C5: the run-stack invariant -/

/-- Unfolding lemma for one iteration of `keep_run_stack_invariant`. -/
theorem keepRunStackInvariant_succ [Inhabited α] (cmp : α → α → Ordering)
    (fuel : Nat) (slice : List α) (runStack : List Run) :
    keepRunStackInvariant cmp (fuel + 1) slice runStack =
      (if isRunStackOk runStack then (slice, runStack)
      else
        match runStack with
        | firstFromTop :: secondFromTop :: thirdFromTop :: rest =>
          if isRunGt thirdFromTop firstFromTop then
            keepRunStackInvariant cmp fuel
              (mergeTwoRun cmp slice secondFromTop firstFromTop)
              ((secondFromTop.1, firstFromTop.2) :: thirdFromTop :: rest)
          else
            keepRunStackInvariant cmp fuel
              (mergeTwoRun cmp slice thirdFromTop secondFromTop)
              (firstFromTop :: (thirdFromTop.1, secondFromTop.2) :: rest)
        | _ => (slice, runStack)) := rfl

/-- One iteration of `keep_run_stack_invariant` on a stack of at least three
runs that violates the invariant. -/
theorem keepRunStackInvariant_cons3 [Inhabited α] (cmp : α → α → Ordering)
    (fuel : Nat) (slice : List α) (f s t : Run) (rest : List Run)
    (hok : ¬ isRunStackOk (f :: s :: t :: rest) = true) :
    keepRunStackInvariant cmp (fuel + 1) slice (f :: s :: t :: rest) =
      (if isRunGt t f then
        keepRunStackInvariant cmp fuel (mergeTwoRun cmp slice s f) ((s.1, f.2) :: t :: rest)
      else
        keepRunStackInvariant cmp fuel (mergeTwoRun cmp slice t s)
          (f :: (t.1, s.2) :: rest)) := by
  rw [keepRunStackInvariant_succ, if_neg hok]

/-- C5: `keep_run_stack_invariant` terminates (any fuel at least the stack
length suffices: every iteration shortens the stack by one) and its resulting
stack satisfies the size invariant on its top three entries; when fewer than
three entries remain the invariant holds vacuously (the `| _ => True` arm). -/
theorem keepRunStackInvariant_sizes [Inhabited α] (cmp : α → α → Ordering)
    (fuel : Nat) :
    ∀ (slice : List α) (stack : List Run), stack.length ≤ fuel →
      match (keepRunStackInvariant cmp fuel slice stack).2 with
      | f :: s :: t :: _ => runLen f < runLen s ∧ runLen f + runLen s < runLen t
      | _ => True := by
  induction fuel with
  | zero =>
    intro slice stack h
    have hnil : stack = [] := by
      cases stack with
      | nil => rfl
      | cons a l => simp at h
    subst hnil
    exact trivial
  | succ fuel ih =>
    intro slice stack h
    by_cases hok : isRunStackOk stack = true
    · rw [keepRunStackInvariant_succ, if_pos hok]
      rcases stack with _ | ⟨f, _ | ⟨s, _ | ⟨t, rest⟩⟩⟩
      · exact trivial
      · exact trivial
      · exact trivial
      · simp only [isRunStackOk, Bool.and_eq_true, decide_eq_true_eq] at hok
        exact hok
    · rcases stack with _ | ⟨f, _ | ⟨s, _ | ⟨t, rest⟩⟩⟩
      · exact absurd rfl hok
      · exact absurd rfl hok
      · exact absurd rfl hok
      · rw [keepRunStackInvariant_cons3 cmp fuel slice f s t rest hok]
        simp only [List.length_cons] at h
        by_cases hgt : isRunGt t f = true
        · rw [if_pos hgt]
          exact ih _ _ (by simp only [List.length_cons]; omega)
        · rw [if_neg hgt]
          exact ih _ _ (by simp only [List.length_cons]; omega)

/-- C5 (witness): a concrete stack of three runs violating the invariant,
with fuel equal to the stack length. -/
theorem keepRunStackInvariant_sizes_witness :
    ([((6 : Nat), (8 : Nat)), (3, 6), (0, 3)] : List Run).length ≤ 3 ∧
    (match (keepRunStackInvariant (compare : Nat → Nat → Ordering) 3
        (List.range 8) [(6, 8), (3, 6), (0, 3)]).2 with
      | f :: s :: t :: _ => runLen f < runLen s ∧ runLen f + runLen s < runLen t
      | _ => True) :=
  ⟨by decide, keepRunStackInvariant_sizes compare 3 (List.range 8)
    [(6, 8), (3, 6), (0, 3)] (by decide)⟩

/-! ### Comparator lemmas under `TransCmp` -/

theorem isLE_iff_ne_gt {o : Ordering} : o.isLE = true ↔ o ≠ .gt := by
  cases o <;> simp [Ordering.isLE]

section CmpLemmas

variable {cmp : α → α → Ordering} [TransCmp cmp]

theorem leB_eq_gt {a b : α} (h : leB cmp a b = false) : cmp a b = .gt := by
  unfold leB at h
  cases hab : cmp a b <;> rw [hab] at h <;> simp [Ordering.isLE] at h ⊢

theorem leB_total {a b : α} (h : leB cmp a b = false) : leB cmp b a = true := by
  have hgt := leB_eq_gt h
  have hlt : cmp b a = .lt := Batteries.OrientedCmp.cmp_eq_gt.mp hgt
  simp [leB, hlt, Ordering.isLE]

theorem leB_lt_of_not {a b : α} (h : leB cmp a b = false) : cmp b a = .lt :=
  Batteries.OrientedCmp.cmp_eq_gt.mp (leB_eq_gt h)

theorem leB_of_lt {a b : α} (h : cmp a b = .lt) : leB cmp a b = true := by
  simp [leB, h, Ordering.isLE]

theorem leB_of_eq {a b : α} (h : cmp a b = .eq) : leB cmp a b = true := by
  simp [leB, h, Ordering.isLE]

theorem leB_false_of_gt {a b : α} (h : cmp a b = .gt) : leB cmp a b = false := by
  simp [leB, h, Ordering.isLE]

theorem leB_trans {a b c : α} (h1 : leB cmp a b = true) (h2 : leB cmp b c = true) :
    leB cmp a c = true := by
  unfold leB at h1 h2 ⊢
  rw [isLE_iff_ne_gt] at h1 h2 ⊢
  exact Batteries.TransCmp.le_trans h1 h2

theorem leB_refl (a : α) : leB cmp a a = true :=
  leB_of_eq Batteries.OrientedCmp.cmp_refl

theorem leB_lt_trans {a b c : α} (h1 : leB cmp a b = true) (h2 : cmp b c = .lt) :
    cmp a c = .lt := by
  unfold leB at h1
  rw [isLE_iff_ne_gt] at h1
  exact Batteries.TransCmp.le_lt_trans h1 h2

theorem cmpLE_isTotal : IsTotal α (cmpLE cmp) := by
  constructor
  intro a b
  by_cases h : leB cmp a b = true
  · exact Or.inl h
  · exact Or.inr (leB_total (Bool.not_eq_true _ ▸ h))

theorem cmpLE_isTrans : IsTrans α (cmpLE cmp) :=
  ⟨fun _ _ _ => leB_trans⟩

theorem leB_or_total (a b : α) : (leB cmp a b || leB cmp b a) = true := by
  cases h : leB cmp a b with
  | true => rw [Bool.true_or]
  | false => rw [leB_total h, Bool.or_true]

theorem cmp_eq_of_leB_leB {a b : α} (h1 : leB cmp a b = true) (h2 : leB cmp b a = true) :
    cmp a b = .eq := by
  unfold leB at h1 h2
  cases hab : cmp a b with
  | lt =>
    have : cmp b a = .gt := Batteries.OrientedCmp.cmp_eq_gt.mpr hab
    rw [this] at h2
    simp [Ordering.isLE] at h2
  | eq => rfl
  | gt =>
    rw [hab] at h1
    simp [Ordering.isLE] at h1

/-- Two elements of the same comparator-equivalence class compare `eq`. -/
theorem eqvB_iff {cmp : α → α → Ordering} {k x : α} :
    eqvB cmp k x = true ↔ cmp x k = .eq := by
  simp [eqvB]

theorem eqv_cmp_eq {k a b : α} (ha : eqvB cmp k a = true) (hb : eqvB cmp k b = true) :
    cmp a b = .eq := by
  have ha' : cmp a k = .eq := eqvB_iff.mp ha
  have hb' : cmp b k = .eq := eqvB_iff.mp hb
  calc cmp a b = cmp a k := Batteries.TransCmp.cmp_congr_right hb'
    _ = .eq := ha'

theorem eqvB_self (a : α) : eqvB cmp a a = true :=
  eqvB_iff.mpr Batteries.OrientedCmp.cmp_refl

end CmpLemmas

/-! ### `listSeg` helpers -/

theorem listSeg_nil {l : List α} {a b : Nat} (h : b ≤ a) : listSeg l a b = [] := by
  simp [listSeg, Nat.sub_eq_zero_of_le h]

theorem listSeg_length {l : List α} {a b : Nat} (hb : b ≤ l.length) (hab : a ≤ b) :
    (listSeg l a b).length = b - a := by
  simp only [listSeg, List.length_take, List.length_drop]
  omega

theorem listSeg_getElem [Inhabited α] {l : List α} {a b n : Nat}
    (hn : n < (listSeg l a b).length) :
    (listSeg l a b).get ⟨n, hn⟩ = l.getD (a + n) default := by
  have hlen : n < l.length - a := by
    have := hn
    simp only [listSeg, List.length_take, List.length_drop] at this
    omega
  have hna : a + n < l.length := by omega
  rw [List.getD_eq_getElem l default hna]
  show (listSeg l a b)[n] = l[a + n]
  simp only [listSeg]
  rw [List.getElem_take, List.getElem_drop]

theorem listSeg_drop {l : List α} {a b : Nat} (c : Nat) :
    (listSeg l a b).drop c = listSeg l (a + c) b := by
  simp only [listSeg, List.drop_take, List.drop_drop]
  congr 1
  omega

theorem listSeg_cons [Inhabited α] {l : List α} {a b : Nat} (hab : a < b)
    (ha : a < l.length) :
    listSeg l a b = l.getD a default :: listSeg l (a + 1) b := by
  have hdrop : l.drop a = l[a] :: l.drop (a + 1) := List.drop_eq_getElem_cons ha
  have hba : b - a = (b - (a + 1)) + 1 := by omega
  simp only [listSeg]
  rw [List.getD_eq_getElem l default ha, hdrop, hba, List.take_succ_cons]

theorem sortedCmp_suffix {cmp : α → α → Ordering} {l : List α} {a b : Nat} (c : Nat)
    (h : SortedCmp cmp (listSeg l a b)) : SortedCmp cmp (listSeg l (a + c) b) := by
  rw [← listSeg_drop]
  exact List.Pairwise.sublist (List.drop_sublist _ _) h

/-! ### The reference stable sort and its properties -/

section RefSort

variable {cmp : α → α → Ordering} [TransCmp cmp]

theorem refSort_perm (l : List α) : (refSort cmp l).Perm l :=
  List.perm_insertionSort (cmpLE cmp) l

theorem refSort_sorted (l : List α) : SortedCmp cmp (refSort cmp l) := by
  haveI := @cmpLE_isTotal _ cmp _
  haveI := @cmpLE_isTrans _ cmp _
  exact List.sorted_insertionSort (cmpLE cmp) l

theorem filter_orderedInsert (k a : α) (l : List α) :
    (List.orderedInsert (cmpLE cmp) a l).filter (eqvB cmp k) =
      if eqvB cmp k a = true then a :: l.filter (eqvB cmp k)
      else l.filter (eqvB cmp k) := by
  induction l with
  | nil =>
    rw [List.orderedInsert_nil, List.filter_cons, List.filter_nil]
  | cons b l ih =>
    rw [List.orderedInsert]
    by_cases hab : cmpLE cmp a b
    · by_cases hka : eqvB cmp k a = true <;>
        simp [hab, hka, List.filter_cons]
    · by_cases hka : eqvB cmp k a = true
      · have hkb : eqvB cmp k b = false := by
          cases hb : eqvB cmp k b with
          | false => rfl
          | true => exact absurd (leB_of_eq (eqv_cmp_eq hka hb)) hab
        simp [hab, hka, hkb, ih, List.filter_cons]
      · simp [hab, hka, ih, List.filter_cons]

theorem filter_refSort (k : α) (l : List α) :
    (refSort cmp l).filter (eqvB cmp k) = l.filter (eqvB cmp k) := by
  induction l with
  | nil => rfl
  | cons a l ih =>
    show (List.orderedInsert (cmpLE cmp) a (List.insertionSort (cmpLE cmp) l)).filter _ = _
    rw [filter_orderedInsert, List.filter_cons]
    by_cases h : eqvB cmp k a = true
    · rw [if_pos h, if_pos h]
      exact congrArg _ ih
    · rw [if_neg h, if_neg h]
      exact ih

/-- Two sorted lists with identical comparator-equivalence-class subsequences
are equal.  This is the uniqueness of the stable sorted rearrangement. -/
theorem eq_of_sorted_of_classes {l₁ l₂ : List α}
    (h₁ : SortedCmp cmp l₁) (h₂ : SortedCmp cmp l₂)
    (hf : ∀ k, l₁.filter (eqvB cmp k) = l₂.filter (eqvB cmp k)) : l₁ = l₂ := by
  induction l₁ generalizing l₂ with
  | nil =>
    cases l₂ with
    | nil => rfl
    | cons b t₂ =>
      have hb := hf b
      rw [List.filter_nil, List.filter_cons, if_pos (eqvB_self b)] at hb
      exact absurd hb (by simp)
  | cons a t₁ ih =>
    cases l₂ with
    | nil =>
      have ha := hf a
      rw [List.filter_nil, List.filter_cons, if_pos (eqvB_self a)] at ha
      exact absurd ha (by simp)
    | cons b t₂ =>
      have hfa := hf a
      rw [List.filter_cons, if_pos (eqvB_self a)] at hfa
      have hxmem : ∃ x ∈ b :: t₂, eqvB cmp a x = true := by
        have hne : (b :: t₂).filter (eqvB cmp a) ≠ [] := by
          rw [← hfa]
          simp
        rcases hflt : (b :: t₂).filter (eqvB cmp a) with _ | ⟨x, xs⟩
        · exact absurd hflt hne
        · have hx : x ∈ (b :: t₂).filter (eqvB cmp a) := by rw [hflt]; exact List.mem_cons_self x xs
          obtain ⟨hxm, hxp⟩ := List.mem_filter.mp hx
          exact ⟨x, hxm, hxp⟩
      obtain ⟨x, hxm, hxeq⟩ := hxmem
      have hba : leB cmp b a = true := by
        rcases List.mem_cons.mp hxm with rfl | hxt
        · exact leB_of_eq (eqvB_iff.mp hxeq)
        · have hbx : leB cmp b x = true := List.rel_of_pairwise_cons h₂ hxt
          have hcongr : cmp b x = cmp b a := Batteries.TransCmp.cmp_congr_right (eqvB_iff.mp hxeq)
          unfold leB at hbx ⊢
          rw [← hcongr]
          exact hbx
      have hymem : ∃ y ∈ a :: t₁, eqvB cmp b y = true := by
        have hfb := hf b
        rw [List.filter_cons (x := b), if_pos (eqvB_self b)] at hfb
        have hne : (a :: t₁).filter (eqvB cmp b) ≠ [] := by
          rw [hfb]
          simp
        rcases hflt : (a :: t₁).filter (eqvB cmp b) with _ | ⟨y, ys⟩
        · exact absurd hflt hne
        · have hy : y ∈ (a :: t₁).filter (eqvB cmp b) := by rw [hflt]; exact List.mem_cons_self y ys
          obtain ⟨hym, hyp⟩ := List.mem_filter.mp hy
          exact ⟨y, hym, hyp⟩
      obtain ⟨y, hym, hyeq⟩ := hymem
      have hab : leB cmp a b = true := by
        rcases List.mem_cons.mp hym with rfl | hyt
        · exact leB_of_eq (eqvB_iff.mp hyeq)
        · have hay : leB cmp a y = true := List.rel_of_pairwise_cons h₁ hyt
          have hcongr : cmp a y = cmp a b := Batteries.TransCmp.cmp_congr_right (eqvB_iff.mp hyeq)
          unfold leB at hay ⊢
          rw [← hcongr]
          exact hay
      have heq : cmp a b = .eq := cmp_eq_of_leB_leB hab hba
      have heqba : eqvB cmp a b = true :=
        eqvB_iff.mpr (Batteries.OrientedCmp.cmp_eq_eq_symm.mp heq)
      rw [List.filter_cons, if_pos heqba] at hfa
      injection hfa with hab' htails
      subst hab'
      have htail : ∀ k, t₁.filter (eqvB cmp k) = t₂.filter (eqvB cmp k) := by
        intro k
        have hk := hf k
        rw [List.filter_cons, List.filter_cons] at hk
        by_cases hka : eqvB cmp k a = true
        · rw [if_pos hka, if_pos hka] at hk
          injection hk
        · rw [if_neg hka, if_neg hka] at hk
          exact hk
      rw [ih h₁.of_cons h₂.of_cons htail]

end RefSort

/-! ### `List.merge` decomposition lemmas -/

theorem merge_append_left_of_le {le : α → α → Bool} {y : α} {Y : List α} :
    ∀ {P X : List α}, (∀ p ∈ P, le p y = true) →
      (P ++ X).merge (y :: Y) le = P ++ X.merge (y :: Y) le
  | [], _, _ => by simp
  | p :: P, X, h => by
    rw [List.cons_append, List.cons_merge_cons, if_pos (h p (List.mem_cons_self p P)),
      merge_append_left_of_le (fun q hq => h q (List.mem_cons_of_mem _ hq)), List.cons_append]

theorem merge_append_right_of_not_le {le : α → α → Bool} {x : α} {X : List α} :
    ∀ {Q Y : List α}, (∀ q ∈ Q, le x q = false) →
      (x :: X).merge (Q ++ Y) le = Q ++ (x :: X).merge Y le
  | [], _, _ => by simp
  | q :: Q, Y, h => by
    rw [List.cons_append, List.cons_merge_cons,
      if_neg (by rw [h q (List.mem_cons_self q Q)]; exact Bool.false_ne_true),
      merge_append_right_of_not_le (fun r hr => h r (List.mem_cons_of_mem _ hr)),
      List.cons_append]

/-- Merging two sorted lists concatenates their equivalence-class
subsequences: the merge is stable. -/
theorem filter_merge {cmp : α → α → Ordering} [TransCmp cmp] (k : α) :
    ∀ (A B : List α), SortedCmp cmp A → SortedCmp cmp B →
      (A.merge B (leB cmp)).filter (eqvB cmp k) =
        A.filter (eqvB cmp k) ++ B.filter (eqvB cmp k)
  | [], B, _, _ => by simp
  | a :: A, [], _, _ => by simp
  | a :: A, b :: B, hA, hB => by
    rw [List.cons_merge_cons]
    by_cases hab : leB cmp a b = true
    · rw [if_pos hab, List.filter_cons,
        filter_merge k A (b :: B) hA.of_cons hB]
      by_cases hka : eqvB cmp k a = true <;>
        simp [hka, List.filter_cons]
    · rw [if_neg hab, List.filter_cons,
        filter_merge k (a :: A) B hA hB.of_cons]
      by_cases hkb : eqvB cmp k b = true
      · have hnone : (a :: A).filter (eqvB cmp k) = [] := by
          rw [List.filter_eq_nil_iff]
          intro x hx hkx
          have hxb : cmp x b = .eq := eqv_cmp_eq hkx hkb
          have hax : leB cmp a x = true := by
            rcases List.mem_cons.mp hx with rfl | hxt
            · exact leB_refl x
            · exact List.rel_of_pairwise_cons hA hxt
          have hcongr : cmp a x = cmp a b := Batteries.TransCmp.cmp_congr_right hxb
          unfold leB at hax
          rw [hcongr] at hax
          exact absurd hax hab
        simp [hkb, hnone, List.filter_cons]
      · simp [hkb, List.filter_cons]
  termination_by A B => A.length + B.length

/-- Merging the stable sorts of two lists gives the stable sort of their
concatenation. -/
theorem merge_refSort {cmp : α → α → Ordering} [TransCmp cmp] (A B : List α) :
    (refSort cmp A).merge (refSort cmp B) (leB cmp) = refSort cmp (A ++ B) := by
  refine @eq_of_sorted_of_classes _ cmp _ _ _ ?_ ?_ ?_
  · exact @List.sorted_merge _ (leB cmp) (fun _ _ _ h1 h2 => leB_trans h1 h2)
      (fun a b => leB_or_total a b) _ _ (refSort_sorted A) (refSort_sorted B)
  · exact refSort_sorted (A ++ B)
  · intro k
    rw [filter_merge k _ _ (refSort_sorted A) (refSort_sorted B),
      filter_refSort, filter_refSort, filter_refSort, ← List.filter_append]

/-! ### `takeWhile` position lemmas -/

theorem isLT_iff {o : Ordering} : o.isLT = true ↔ o = .lt := by
  cases o <;> simp [Ordering.isLT]

theorem take_length_takeWhile (q : α → Bool) :
    ∀ (l : List α), l.take (l.takeWhile q).length = l.takeWhile q
  | [] => rfl
  | a :: l => by
    rw [List.takeWhile_cons]
    cases hq : q a with
    | false => simp
    | true => simp [List.take_succ_cons, take_length_takeWhile q l]

theorem drop_length_takeWhile (q : α → Bool) :
    ∀ (l : List α), l.drop (l.takeWhile q).length = l.dropWhile q
  | [] => rfl
  | a :: l => by
    rw [List.takeWhile_cons, List.dropWhile_cons]
    cases hq : q a with
    | false => simp
    | true => simp [drop_length_takeWhile q l]

theorem length_takeWhile_of_char (q : α → Bool) :
    ∀ (seg : List α) (c : Nat),
      (∀ n (hn : n < seg.length), (q (seg.get ⟨n, hn⟩) = true ↔ n < c)) →
      (seg.takeWhile q).length = min c seg.length
  | [], c, _ => by simp
  | a :: seg, c, h => by
    have h0 := h 0 (by simp)
    simp only [List.get] at h0
    cases hc : c with
    | zero =>
      have hqa : q a = false := by
        cases hq : q a with
        | false => rfl
        | true => subst hc; exact absurd (h0.mp hq) (by omega)
      rw [List.takeWhile_cons, hqa]
      simp
    | succ c' =>
      have hqa : q a = true := h0.mpr (by omega)
      rw [List.takeWhile_cons, hqa]
      simp only [if_true, List.length_cons]
      rw [length_takeWhile_of_char q seg c' (fun n hn => by
        have := h (n + 1) (by simpa using Nat.succ_lt_succ hn)
        simp only [List.get] at this
        rw [this, hc]
        omega)]
      omega

theorem q_getD_length_takeWhile [Inhabited α] (q : α → Bool) :
    ∀ (l : List α), (l.takeWhile q).length < l.length →
      q (l.getD (l.takeWhile q).length default) = false
  | [], h => absurd h (by simp)
  | a :: l, h => by
    cases hq : q a with
    | false =>
      have hTW : (a :: l).takeWhile q = [] := by rw [List.takeWhile_cons, hq]; rfl
      rw [hTW]
      exact hq
    | true =>
      have hTW : (a :: l).takeWhile q = a :: l.takeWhile q := by
        rw [List.takeWhile_cons, hq]; rfl
      rw [hTW]
      simp only [List.length_cons, List.getD_cons_succ]
      apply q_getD_length_takeWhile q l
      rw [hTW] at h
      simpa using h

theorem getD_mem_of_lt [Inhabited α] {l : List α} {n : Nat} (h : n < l.length) :
    l.getD n default ∈ l := by
  rw [List.getD_eq_getElem l default h]
  exact List.getElem_mem h

/-- A downward-closed predicate on a sorted segment holds exactly below the
boundary `a + (takeWhile q).length`. -/
theorem takeWhile_boundary_char [Inhabited α] {cmp : α → α → Ordering} [TransCmp cmp]
    (slice : List α) (a b : Nat) (hb : b ≤ slice.length)
    (hs : SortedCmp cmp (listSeg slice a b)) (q : α → Bool)
    (hmono : ∀ x y, leB cmp x y = true → q y = true → q x = true) :
    ∀ idx, a ≤ idx → idx < b →
      (q (slice.getD idx default) = true ↔
        idx < a + ((listSeg slice a b).takeWhile q).length) := by
  intro idx ha hib
  have hlenseg : (listSeg slice a b).length = b - a := listSeg_length hb (by omega)
  have hLle : ((listSeg slice a b).takeWhile q).length ≤ (listSeg slice a b).length :=
    ((listSeg slice a b).takeWhile_sublist q).length_le
  have hn : idx - a < (listSeg slice a b).length := by omega
  have hget : (listSeg slice a b).getD (idx - a) default = slice.getD idx default := by
    have h3 := listSeg_getElem (l := slice) (a := a) (b := b) hn
    rw [show a + (idx - a) = idx from by omega] at h3
    rw [List.getD_eq_getElem _ default hn]
    exact h3
  constructor
  · intro hq
    by_contra hge
    have hLlt : ((listSeg slice a b).takeWhile q).length < (listSeg slice a b).length := by
      omega
    have hfalse : q ((listSeg slice a b).getD ((listSeg slice a b).takeWhile q).length default)
        = false := q_getD_length_takeWhile q _ hLlt
    have hle : leB cmp ((listSeg slice a b).getD ((listSeg slice a b).takeWhile q).length default)
        ((listSeg slice a b).getD (idx - a) default) = true := by
      rcases Nat.lt_or_ge ((listSeg slice a b).takeWhile q).length (idx - a) with hlt | hge2
      · have hpw := List.pairwise_iff_getElem.mp hs
          ((listSeg slice a b).takeWhile q).length (idx - a) (by omega) (by omega) hlt
        rw [List.getD_eq_getElem _ default hLlt, List.getD_eq_getElem _ default hn]
        exact hpw
      · have heqn : ((listSeg slice a b).takeWhile q).length = idx - a := by omega
        rw [heqn]
        exact leB_refl _
    have hcontra : q ((listSeg slice a b).getD ((listSeg slice a b).takeWhile q).length default)
        = true := hmono _ _ hle (by rw [hget]; exact hq)
    rw [hcontra] at hfalse
    exact absurd hfalse (by simp)
  · intro hlt
    have hnL : idx - a < ((listSeg slice a b).takeWhile q).length := by omega
    have hpref : ((listSeg slice a b).takeWhile q).getD (idx - a) default =
        (listSeg slice a b).getD (idx - a) default := by
      conv_lhs => rw [← take_length_takeWhile q (listSeg slice a b)]
      have htlen : idx - a <
          ((listSeg slice a b).take ((listSeg slice a b).takeWhile q).length).length := by
        simp only [List.length_take]
        omega
      rw [List.getD_eq_getElem _ default htlen, List.getD_eq_getElem _ default hn]
      exact List.getElem_take _
    have hmem : (listSeg slice a b).getD (idx - a) default ∈ (listSeg slice a b).takeWhile q := by
      rw [← hpref]
      exact getD_mem_of_lt hnL
    have := List.mem_takeWhile_imp hmem
    rw [hget] at this
    exact this

/-! ### Correctness of `galloping_count` -/

/-- Invariant analysis of the doubling loop: started anywhere below the
true-block boundary `m`, it returns a `prev_idx` still below `m` and a
`cur_idx` whose clamp to `run_limit` is at or beyond `m`. -/
theorem gallopLoop_spec [Inhabited α] (p : α → Bool) (slice : List α)
    (runLimit startIdx m : Nat)
    (hchar : ∀ idx, startIdx ≤ idx → idx < runLimit →
      (p (slice.getD idx default) = true ↔ idx < m)) (hm : m ≤ runLimit) :
    ∀ (fuel t prevIdx : Nat), runLimit ≤ fuel + t → startIdx ≤ prevIdx → prevIdx ≤ m →
      startIdx ≤ (gallopLoop p slice runLimit startIdx t prevIdx fuel).1 ∧
      (gallopLoop p slice runLimit startIdx t prevIdx fuel).1 ≤ m ∧
      m ≤ min (gallopLoop p slice runLimit startIdx t prevIdx fuel).2 runLimit
  | 0, t, prevIdx, hf, hp1, hp2 => by
    rw [gallopLoop]
    refine ⟨hp1, hp2, ?_⟩
    have h2t := Nat.lt_two_pow t
    omega
  | fuel + 1, t, prevIdx, hf, hp1, hp2 => by
    rw [gallopLoop]
    by_cases hcond : startIdx + 2 ^ t < runLimit ∧
        p (slice.getD (startIdx + 2 ^ t) default) = true
    · rw [if_pos hcond]
      exact gallopLoop_spec p slice runLimit startIdx m hchar hm fuel (t + 1)
        (startIdx + 2 ^ t) (by omega) (Nat.le_add_right startIdx (2 ^ t))
        (Nat.le_of_lt ((hchar _ (Nat.le_add_right startIdx (2 ^ t)) hcond.1).mp hcond.2))
    · rw [if_neg hcond]
      refine ⟨hp1, hp2, ?_⟩
      by_cases hlt : startIdx + 2 ^ t < runLimit
      · have hpf : ¬ p (slice.getD (startIdx + 2 ^ t) default) = true :=
          fun hp => hcond ⟨hlt, hp⟩
        have hnm : ¬ (startIdx + 2 ^ t < m) :=
          fun hlt' => hpf ((hchar _ (Nat.le_add_right startIdx (2 ^ t)) hlt).mpr hlt')
        omega
      · omega

/-- `galloping_count` returns exactly the size of the maximal block of
positions from `start_idx` on which the predicate (tested against the target
element) holds, provided that block is an initial segment — the situation at
every call site, where the searched run is sorted. -/
theorem gallopingCount_spec [Inhabited α] (slice : List α)
    (targetIdx startIdx runLimit : Nat) (pred : α → α → Bool) (m : Nat)
    (h1 : startIdx ≤ m) (h2 : m ≤ runLimit) (hlen : runLimit ≤ slice.length)
    (hchar : ∀ idx, startIdx ≤ idx → idx < runLimit →
      (pred (slice.getD idx default) (slice.getD targetIdx default) = true ↔ idx < m)) :
    gallopingCount slice targetIdx startIdx runLimit pred = m - startIdx := by
  obtain ⟨hg1, hg2, hg3⟩ :=
    gallopLoop_spec (fun x => pred x (slice.getD targetIdx default)) slice runLimit startIdx m
      hchar h2 runLimit 0 startIdx (by omega) (Nat.le_refl _) h1
  unfold gallopingCount
  simp only
  set pr := (gallopLoop (fun x => pred x (slice.getD targetIdx default))
      slice runLimit startIdx 0 startIdx runLimit).1 with hpr
  set cu := (gallopLoop (fun x => pred x (slice.getD targetIdx default))
      slice runLimit startIdx 0 startIdx runLimit).2 with hcu
  have hminle : min cu runLimit ≤ slice.length := by omega
  have hseglen : (listSeg slice pr (min cu runLimit)).length = min cu runLimit - pr :=
    listSeg_length hminle (by omega)
  have hchar' : ∀ n (hn : n < (listSeg slice pr (min cu runLimit)).length),
      ((fun x => pred x (slice.getD targetIdx default))
          ((listSeg slice pr (min cu runLimit)).get ⟨n, hn⟩) = true ↔ n < m - pr) := by
    intro n hn
    rw [listSeg_getElem hn]
    have hin : pr + n < min cu runLimit := by omega
    have := hchar (pr + n) (by omega) (by omega)
    rw [this]
    omega
  have hTW := length_takeWhile_of_char (fun x => pred x (slice.getD targetIdx default))
    (listSeg slice pr (min cu runLimit)) (m - pr) hchar'
  unfold partitionPoint
  rw [hTW, hseglen]
  omega

/-! ### The merge loop computes `List.merge` -/

/-- The merge loop of `merge_two_run`, started from any reachable state,
produces exactly the standard two-way stable merge of the two remaining
sorted sub-runs `slice[i..run1.1]` and `slice[j..run2.1]`.  The hypotheses
are the loop invariants: cursors in range, `k` tracking total progress
(adjacent runs), fuel at least the remaining output, run 1 not exhausted
while run 2 is not (the claim C10 invariant), both rests sorted, and every
remaining run-2 element strictly below the last run-1 element (established by
the narrowing step).  Streak counters and `min_gallop` are arbitrary: they
choose between one-at-a-time and galloping paths but never change the output. -/
theorem mergeLoop_eq_merge [Inhabited α] (cmp : α → α → Ordering) [TransCmp cmp]
    (slice : List α) (r1e r2e : Nat) (hlen : r2e ≤ slice.length)
    (hcross : ∀ yi, r1e ≤ yi → yi < r2e →
      cmp (slice.getD yi default) (slice.getD (r1e - 1) default) = .lt) :
    ∀ (fuel i j k s1 s2 mg : Nat),
      i ≤ r1e → r1e ≤ j → j ≤ r2e → k + r1e = i + j → r2e - k ≤ fuel →
      (j < r2e → i < r1e) →
      SortedCmp cmp (listSeg slice i r1e) → SortedCmp cmp (listSeg slice j r2e) →
      mergeLoop cmp slice r1e r2e i j k s1 s2 mg fuel =
        (listSeg slice i r1e).merge (listSeg slice j r2e) (leB cmp)
  | 0, i, j, k, s1, s2, mg, hi, hj1, hj2, hk, hfuel, _, _, _ => by
    have hieq : i = r1e := by omega
    have hjeq : j = r2e := by omega
    rw [mergeLoop, hieq, hjeq, listSeg_nil (Nat.le_refl r1e), listSeg_nil (Nat.le_refl r2e),
      List.nil_merge]
  | fuel + 1, i, j, k, s1, s2, mg, hi, hj1, hj2, hk, hfuel, hc10, hX, hY => by
    rw [mergeLoop]
    by_cases hk2 : k < r2e
    swap
    · rw [if_neg hk2]
      have hieq : i = r1e := by omega
      have hjeq : j = r2e := by omega
      rw [hieq, hjeq, listSeg_nil (Nat.le_refl r1e), listSeg_nil (Nat.le_refl r2e),
        List.nil_merge]
    rw [if_pos hk2]
    by_cases hj : j = r2e
    · -- run 2 exhausted: bulk-copy the rest of run 1
      rw [if_pos hj]
      have hi1 : i < r1e := by omega
      have hrec := mergeLoop_eq_merge cmp slice r1e r2e hlen hcross fuel
        (i + (r1e - i)) j (k + (r1e - i)) s1 0 mg (by omega) hj1 hj2 (by omega)
        (by omega) (by omega)
        (by rw [show i + (r1e - i) = r1e from by omega, listSeg_nil (Nat.le_refl r1e)]
            exact List.Pairwise.nil) hY
      rw [hrec]
      show listSeg slice i r1e ++ _ = _
      rw [show i + (r1e - i) = r1e from by omega, listSeg_nil (Nat.le_refl r1e),
        List.nil_merge, hj, listSeg_nil (Nat.le_refl r2e), List.merge_right,
        List.append_nil]
    · -- both runs live
      rw [if_neg hj]
      have hjlt : j < r2e := by omega
      have hi1 : i < r1e := hc10 hjlt
      have hilen : i < slice.length := by omega
      have hjlen : j < slice.length := by omega
      have hXc : listSeg slice i r1e = slice.getD i default :: listSeg slice (i + 1) r1e :=
        listSeg_cons hi1 hilen
      have hYc : listSeg slice j r2e = slice.getD j default :: listSeg slice (j + 1) r2e :=
        listSeg_cons hjlt hjlen
      have hr1pos : 1 ≤ r1e := by omega
      -- the last element of run 1 beats every remaining run-2 element
      have hlast : cmp (slice.getD j default) (slice.getD (r1e - 1) default) = .lt :=
        hcross j hj1 hjlt
      by_cases hle : (cmp (slice.getD i default) (slice.getD j default)).isLE = true
      · rw [if_pos hle]
        -- left side wins
        have hq0 : (fun x => (cmp x (slice.getD j default)).isLE) (slice.getD i default)
            = true := hle
        have hchar := takeWhile_boundary_char slice i r1e (by omega) hX
          (fun x => (cmp x (slice.getD j default)).isLE)
          (fun x y hxy hqy => leB_trans hxy hqy)
        set L := ((listSeg slice i r1e).takeWhile
          (fun x => (cmp x (slice.getD j default)).isLE)).length with hL
        have hLlen : L ≤ r1e - i := by
          have := ((listSeg slice i r1e).takeWhile_sublist
            (fun x => (cmp x (slice.getD j default)).isLE)).length_le
          rw [listSeg_length (by omega) (by omega)] at this
          omega
        have hL1 : 1 ≤ L := by
          have := (hchar i (Nat.le_refl i) hi1).mp hq0
          omega
        have hLlt : i + L < r1e := by
          have hql : (cmp (slice.getD (r1e - 1) default) (slice.getD j default)).isLE
              = false := by
            have : cmp (slice.getD (r1e - 1) default) (slice.getD j default) = .gt :=
              Batteries.OrientedCmp.cmp_eq_gt.mpr hlast
            rw [this]
            rfl
          have hb : (cmp (slice.getD (r1e - 1) default) (slice.getD j default)).isLE
              = true ↔ r1e - 1 < i + L := hchar (r1e - 1) (by omega) (by omega)
          rw [hql] at hb
          have hge : ¬ (r1e - 1 < i + L) := fun hh => absurd (hb.mpr hh) (by simp)
          omega
        have hmono : ∀ x y, leB cmp x y = true →
            (fun x => (cmp x (slice.getD j default)).isLE) y = true →
            (fun x => (cmp x (slice.getD j default)).isLE) x = true :=
          fun x y hxy hqy => leB_trans hxy hqy
        -- split X into its ≤-prefix and the rest
        have hsplit : listSeg slice i r1e =
            (listSeg slice i r1e).takeWhile
              (fun x => (cmp x (slice.getD j default)).isLE) ++
            (listSeg slice i r1e).dropWhile
              (fun x => (cmp x (slice.getD j default)).isLE) :=
          (List.takeWhile_append_dropWhile _ _).symm
        have hdropL : (listSeg slice i r1e).dropWhile
            (fun x => (cmp x (slice.getD j default)).isLE) = listSeg slice (i + L) r1e := by
          rw [← listSeg_drop]
          conv_rhs => rw [hsplit]
          rw [hL, List.drop_left]
        have hmergesplit : (listSeg slice i r1e).merge (listSeg slice j r2e) (leB cmp) =
            (listSeg slice i r1e).takeWhile
              (fun x => (cmp x (slice.getD j default)).isLE) ++
            (listSeg slice (i + L) r1e).merge (listSeg slice j r2e) (leB cmp) := by
          conv_lhs => rw [hsplit, hYc]
          rw [@merge_append_left_of_le α (leB cmp) (slice.getD j default)
            (listSeg slice (j + 1) r2e)
            ((listSeg slice i r1e).takeWhile (fun x => (cmp x (slice.getD j default)).isLE))
            ((listSeg slice i r1e).dropWhile (fun x => (cmp x (slice.getD j default)).isLE))
            (fun p hp => by
              have h2 := List.mem_takeWhile_imp hp
              exact h2), ← hYc, hdropL]
        by_cases hgal : mg ≤ s1
        · rw [if_pos hgal]
          dsimp only
          have hcnt : gallopingCount slice j i r1e
              (fun r1 t => (cmp r1 t).isLE) = (i + L) - i :=
            gallopingCount_spec slice j i r1e _ (i + L) (by omega) (by omega) (by omega)
              (fun idx h1 h2 => hchar idx h1 h2)
          have hcnt' : gallopingCount slice j i r1e
              (fun r1 t => (cmp r1 t).isLE) = L := by omega
          rw [hcnt']
          have htake : (slice.drop i).take L = (listSeg slice i r1e).takeWhile
              (fun x => (cmp x (slice.getD j default)).isLE) := by
            have h1 : (listSeg slice i r1e).take L = (slice.drop i).take L := by
              rw [listSeg, List.take_take, show min L (r1e - i) = L from by omega]
            rw [← h1, hL, take_length_takeWhile]
          have hrec := mergeLoop_eq_merge cmp slice r1e r2e hlen hcross fuel
            (i + L) j (k + L) s1 0 (updateMinGallop mg L) (by omega) hj1 hj2 (by omega)
            (by omega) (fun _ => by omega) (sortedCmp_suffix L hX) hY
          rw [hrec, htake, hmergesplit]
        · rw [if_neg hgal]
          have hi2 : i + 1 < r1e := by
            rcases Nat.lt_or_ge (i + 1) r1e with h | h
            · exact h
            · exfalso
              have : i = r1e - 1 := by omega
              subst this
              have : cmp (slice.getD (r1e - 1) default) (slice.getD j default) = .gt :=
                Batteries.OrientedCmp.cmp_eq_gt.mpr hlast
              rw [this] at hle
              exact absurd hle (by simp [Ordering.isLE])
          have htake1 : (slice.drop i).take 1 = [slice.getD i default] := by
            have : (slice.drop i).take 1 = listSeg slice i (i + 1) := by
              rw [listSeg, Nat.add_sub_cancel_left]
            rw [this, listSeg_cons (by omega) hilen, listSeg_nil (Nat.le_refl (i + 1))]
          have hrec := mergeLoop_eq_merge cmp slice r1e r2e hlen hcross fuel
            (i + 1) j (k + 1) (s1 + 1) 0 mg (by omega) hj1 hj2 (by omega)
            (by omega) (fun _ => hi2) (sortedCmp_suffix 1 hX) hY
          rw [hrec, htake1, hXc, hYc, List.cons_merge_cons,
            if_pos (show leB cmp (slice.getD i default) (slice.getD j default) = true
              from hle), ← hYc]
          rfl
      · rw [if_neg hle, if_neg (show ¬ i = r1e from by omega)]
        -- right side wins
        have hlef : (cmp (slice.getD i default) (slice.getD j default)).isLE = false := by
          rw [← Bool.not_eq_true]
          exact hle
        have hylt : cmp (slice.getD j default) (slice.getD i default) = .lt :=
          leB_lt_of_not hlef
        have hq0 : (fun y => (cmp y (slice.getD i default)).isLT) (slice.getD j default)
            = true := by
          show (cmp (slice.getD j default) (slice.getD i default)).isLT = true
          rw [hylt]
          rfl
        have hchar := takeWhile_boundary_char slice j r2e hlen hY
          (fun y => (cmp y (slice.getD i default)).isLT)
          (fun x y hxy hqy => by
            show (cmp x (slice.getD i default)).isLT = true
            rw [isLT_iff] at hqy ⊢
            exact leB_lt_trans hxy hqy)
        set L := ((listSeg slice j r2e).takeWhile
          (fun y => (cmp y (slice.getD i default)).isLT)).length with hL
        have hLlen : L ≤ r2e - j := by
          have := ((listSeg slice j r2e).takeWhile_sublist
            (fun y => (cmp y (slice.getD i default)).isLT)).length_le
          rw [listSeg_length hlen (by omega)] at this
          omega
        have hL1 : 1 ≤ L := by
          have := (hchar j (Nat.le_refl j) hjlt).mp hq0
          omega
        have hsplit : listSeg slice j r2e =
            (listSeg slice j r2e).takeWhile
              (fun y => (cmp y (slice.getD i default)).isLT) ++
            (listSeg slice j r2e).dropWhile
              (fun y => (cmp y (slice.getD i default)).isLT) :=
          (List.takeWhile_append_dropWhile _ _).symm
        have hdropL : (listSeg slice j r2e).dropWhile
            (fun y => (cmp y (slice.getD i default)).isLT) = listSeg slice (j + L) r2e := by
          rw [← listSeg_drop]
          conv_rhs => rw [hsplit]
          rw [hL, List.drop_left]
        have hmergesplit : (listSeg slice i r1e).merge (listSeg slice j r2e) (leB cmp) =
            (listSeg slice j r2e).takeWhile
              (fun y => (cmp y (slice.getD i default)).isLT) ++
            (listSeg slice i r1e).merge (listSeg slice (j + L) r2e) (leB cmp) := by
          conv_lhs => rw [hsplit, hXc]
          rw [@merge_append_right_of_not_le α (leB cmp) (slice.getD i default)
            (listSeg slice (i + 1) r1e)
            ((listSeg slice j r2e).takeWhile (fun y => (cmp y (slice.getD i default)).isLT))
            ((listSeg slice j r2e).dropWhile (fun y => (cmp y (slice.getD i default)).isLT))
            (fun q hq => by
              have hqlt := List.mem_takeWhile_imp hq
              rw [isLT_iff] at hqlt
              exact leB_false_of_gt (Batteries.OrientedCmp.cmp_eq_gt.mpr hqlt)),
            ← hXc, hdropL]
        by_cases hgal : mg ≤ s2
        · rw [if_pos hgal]
          dsimp only
          have hcnt : gallopingCount slice i j r2e
              (fun r2 t => (cmp r2 t).isLT) = (j + L) - j :=
            gallopingCount_spec slice i j r2e _ (j + L) (by omega) (by omega) hlen
              (fun idx h1 h2 => hchar idx h1 h2)
          have hcnt' : gallopingCount slice i j r2e
              (fun r2 t => (cmp r2 t).isLT) = L := by omega
          rw [hcnt']
          have htake : (slice.drop j).take L = (listSeg slice j r2e).takeWhile
              (fun y => (cmp y (slice.getD i default)).isLT) := by
            have h1 : (listSeg slice j r2e).take L = (slice.drop j).take L := by
              rw [listSeg, List.take_take, show min L (r2e - j) = L from by omega]
            rw [← h1, hL, take_length_takeWhile]
          have hrec := mergeLoop_eq_merge cmp slice r1e r2e hlen hcross fuel
            i (j + L) (k + L) 0 s2 (updateMinGallop mg L) hi (by omega) (by omega)
            (by omega) (by omega) (fun _ => hi1) hX (sortedCmp_suffix L hY)
          rw [hrec, htake, hmergesplit]
        · rw [if_neg hgal]
          have htake1 : (slice.drop j).take 1 = [slice.getD j default] := by
            have : (slice.drop j).take 1 = listSeg slice j (j + 1) := by
              rw [listSeg, Nat.add_sub_cancel_left]
            rw [this, listSeg_cons (by omega) hjlen, listSeg_nil (Nat.le_refl (j + 1))]
          have hrec := mergeLoop_eq_merge cmp slice r1e r2e hlen hcross fuel
            i (j + 1) (k + 1) 0 (s2 + 1) mg hi (by omega) (by omega)
            (by omega) (by omega) (fun _ => hi1) hX (sortedCmp_suffix 1 hY)
          have hle' : ¬ leB cmp (slice.getD i default) (slice.getD j default) = true := hle
          rw [hrec, htake1, hXc, hYc, List.cons_merge_cons, if_neg hle', ← hXc]
          rfl

/-! ### `merge_two_run` computes the stable merge of its two runs -/

theorem merge_append_of_le {le : α → α → Bool} :
    ∀ (X Bmid post : List α), (∀ x ∈ X, ∀ pb ∈ post, le x pb = true) →
      X.merge (Bmid ++ post) le = X.merge Bmid le ++ post
  | [], Bmid, post, _ => by simp
  | x :: X, [], post, h => by
    rw [List.nil_append, List.merge_right,
      List.merge_of_le (fun p q hp hq => h p hp q hq)]
  | x :: X, bm :: Bmid, post, h => by
    rw [List.cons_append, List.cons_merge_cons, List.cons_merge_cons]
    by_cases hle : le x bm = true
    · rw [if_pos hle, if_pos hle, ← List.cons_append,
        merge_append_of_le X (bm :: Bmid) post (fun y hy => h y (List.mem_cons_of_mem _ hy)),
        List.cons_append]
    · rw [if_neg hle, if_neg hle, merge_append_of_le (x :: X) Bmid post h, List.cons_append]
  termination_by X Bmid _ _ => X.length + Bmid.length

theorem listSeg_take_eq {l : List α} {a b e : Nat} (he : e ≤ b) :
    listSeg l a e = (listSeg l a b).take (e - a) := by
  simp only [listSeg, List.take_take]
  congr 1
  omega

theorem sortedCmp_prefix {cmp : α → α → Ordering} {l : List α} {a b : Nat} (e : Nat)
    (he : e ≤ b) (h : SortedCmp cmp (listSeg l a b)) : SortedCmp cmp (listSeg l a e) := by
  rw [listSeg_take_eq he]
  exact List.Pairwise.sublist (List.take_sublist _ _) h

theorem take_split (l : List α) (a m : Nat) (ham : a ≤ m) :
    l.take m = l.take a ++ listSeg l a m := by
  conv_lhs => rw [show m = a + (m - a) from by omega, List.take_add]
  rfl

theorem drop_split (l : List α) (m c : Nat) (hmc : m ≤ c) :
    l.drop m = listSeg l m c ++ l.drop c := by
  conv_lhs => rw [← List.take_append_drop (c - m) (l.drop m)]
  rw [List.drop_drop, show m + (c - m) = c from by omega]
  rfl

/-- Every member of a sorted nonempty segment `slice[s..e]` compares `≤` to
the element at position `e - 1`. -/
theorem sorted_seg_le_last [Inhabited α] {cmp : α → α → Ordering} [TransCmp cmp]
    {slice : List α} {s e : Nat} (he : e ≤ slice.length)
    (hs : SortedCmp cmp (listSeg slice s e)) {x : α} (hx : x ∈ listSeg slice s e) :
    leB cmp x (slice.getD (e - 1) default) = true := by
  obtain ⟨n, hn, hxe⟩ := List.getElem_of_mem hx
  have hns : s + n < e := by
    have := hn
    simp only [listSeg, List.length_take, List.length_drop] at this
    omega
  have hgx : (listSeg slice s e)[n] = slice.getD (s + n) default :=
    listSeg_getElem hn
  rcases Nat.lt_or_ge (s + n) (e - 1) with hlt | hge
  · have hlast_idx : e - 1 - s < (listSeg slice s e).length := by
      simp only [listSeg, List.length_take, List.length_drop]
      omega
    have hglast : (listSeg slice s e)[e - 1 - s] = slice.getD (s + (e - 1 - s)) default :=
      listSeg_getElem hlast_idx
    have hpw := List.pairwise_iff_getElem.mp hs n (e - 1 - s) hn hlast_idx (by omega)
    rw [hxe, hglast, show s + (e - 1 - s) = e - 1 from by omega] at hpw
    exact hpw
  · have hidx : s + n = e - 1 := by omega
    rw [← hxe, hgx, hidx]
    exact leB_refl _

/-- `merge_two_run` on two adjacent sorted runs `[a, b)` and `[b, c)` replaces
`slice[a..c]` with the stable merge of the two runs and leaves the rest of the
slice unchanged.  The narrowing, the galloping and the adaptive state do not
affect the result. -/
theorem mergeTwoRun_spec [Inhabited α] (cmp : α → α → Ordering) [TransCmp cmp]
    (slice : List α) (a b c : Nat) (hab : a < b) (hbc : b < c) (hc : c ≤ slice.length)
    (h1 : SortedCmp cmp (listSeg slice a b)) (h2 : SortedCmp cmp (listSeg slice b c)) :
    mergeTwoRun cmp slice (a, b) (b, c) =
      slice.take a ++ (listSeg slice a b).merge (listSeg slice b c) (leB cmp) ++
        slice.drop c := by
  have hblen : b ≤ slice.length := by omega
  have hchar1 := takeWhile_boundary_char slice a b hblen h1
    (fun x => (cmp x (slice.getD b default)).isLE)
    (fun x y hxy hqy => leB_trans hxy hqy)
  have hchar2 := takeWhile_boundary_char slice b c hc h2
    (fun y => (cmp y (slice.getD (b - 1) default)).isLT)
    (fun x y hxy hqy => by
      show (cmp x (slice.getD (b - 1) default)).isLT = true
      rw [isLT_iff] at hqy ⊢
      exact leB_lt_trans hxy hqy)
  have hL1le : ((listSeg slice a b).takeWhile
      (fun x => (cmp x (slice.getD b default)).isLE)).length ≤ b - a := by
    have := ((listSeg slice a b).takeWhile_sublist
      (fun x => (cmp x (slice.getD b default)).isLE)).length_le
    rw [listSeg_length hblen (by omega)] at this
    omega
  have hL2le : ((listSeg slice b c).takeWhile
      (fun y => (cmp y (slice.getD (b - 1) default)).isLT)).length ≤ c - b := by
    have := ((listSeg slice b c).takeWhile_sublist
      (fun y => (cmp y (slice.getD (b - 1) default)).isLT)).length_le
    rw [listSeg_length hc (by omega)] at this
    omega
  have hm1 : (mergeShrink cmp slice (a, b) (b, c)).1 =
      a + ((listSeg slice a b).takeWhile
        (fun x => (cmp x (slice.getD b default)).isLE)).length := by
    show partitionPoint _ _ + a = _
    unfold partitionPoint
    dsimp only
    omega
  have hm2 : (mergeShrink cmp slice (a, b) (b, c)).2 =
      b + ((listSeg slice b c).takeWhile
        (fun y => (cmp y (slice.getD (b - 1) default)).isLT)).length := by
    show partitionPoint _ _ + b = _
    unfold partitionPoint
    dsimp only
    omega
  obtain ⟨m1, hm1v⟩ : ∃ m1, a + ((listSeg slice a b).takeWhile
      (fun x => (cmp x (slice.getD b default)).isLE)).length = m1 := ⟨_, rfl⟩
  obtain ⟨m2, hm2v⟩ : ∃ m2, b + ((listSeg slice b c).takeWhile
      (fun y => (cmp y (slice.getD (b - 1) default)).isLT)).length = m2 := ⟨_, rfl⟩
  rw [hm1v] at hm1
  rw [hm2v] at hm2
  have hm1b : a ≤ m1 ∧ m1 ≤ b := by omega
  have hm2b : b ≤ m2 ∧ m2 ≤ c := by omega
  rw [hm1v] at hchar1
  rw [hm2v] at hchar2
  have hcross : ∀ yi, b ≤ yi → yi < m2 →
      cmp (slice.getD yi default) (slice.getD (b - 1) default) = .lt := by
    intro yi hy1 hy2
    have := (hchar2 yi hy1 (by omega)).mpr (by omega)
    rw [isLT_iff] at this
    exact this
  have hC10 : b < m2 → m1 < b := by
    intro hm2lt
    by_contra hge
    have hq1 : (cmp (slice.getD (b - 1) default) (slice.getD b default)).isLE = true :=
      (hchar1 (b - 1) (by omega) (by omega)).mpr (by omega)
    have hq2 : cmp (slice.getD b default) (slice.getD (b - 1) default) = .lt :=
      hcross b (Nat.le_refl b) hm2lt
    have hgt : cmp (slice.getD (b - 1) default) (slice.getD b default) = .gt :=
      Batteries.OrientedCmp.cmp_eq_gt.mpr hq2
    rw [hgt] at hq1
    exact absurd hq1 (by simp [Ordering.isLE])
  have hsortX : SortedCmp cmp (listSeg slice m1 b) := by
    have := sortedCmp_suffix (m1 - a) h1
    rw [show a + (m1 - a) = m1 from by omega] at this
    exact this
  have hsortY : SortedCmp cmp (listSeg slice b m2) := sortedCmp_prefix m2 (by omega) h2
  have hloop := mergeLoop_eq_merge cmp slice b (mergeShrink cmp slice (a, b) (b, c)).2
    (by omega) (by rw [hm2]; exact fun yi h1' h2' => hcross yi h1' (by omega))
    ((mergeShrink cmp slice (a, b) (b, c)).2 - (mergeShrink cmp slice (a, b) (b, c)).1)
    (mergeShrink cmp slice (a, b) (b, c)).1 b (mergeShrink cmp slice (a, b) (b, c)).1
    0 0 3 (by omega) (Nat.le_refl b) (by omega) (by omega) (by omega)
    (by rw [hm1, hm2]; exact hC10)
    (by rw [hm1]; exact hsortX) (by rw [hm2]; exact hsortY)
  show slice.take (mergeShrink cmp slice (a, b) (b, c)).1 ++
      mergeLoop cmp slice b (mergeShrink cmp slice (a, b) (b, c)).2
        (mergeShrink cmp slice (a, b) (b, c)).1 b (mergeShrink cmp slice (a, b) (b, c)).1
        0 0 3 ((mergeShrink cmp slice (a, b) (b, c)).2 -
          (mergeShrink cmp slice (a, b) (b, c)).1) ++
      slice.drop (mergeShrink cmp slice (a, b) (b, c)).2 = _
  rw [hloop, hm1, hm2]
  have hA1 : listSeg slice a m1 = (listSeg slice a b).takeWhile
      (fun x => (cmp x (slice.getD b default)).isLE) := by
    rw [listSeg_take_eq (b := b) (by omega), show m1 - a = ((listSeg slice a b).takeWhile
      (fun x => (cmp x (slice.getD b default)).isLE)).length from by omega,
      take_length_takeWhile]
  have hA2 : listSeg slice m1 b = (listSeg slice a b).dropWhile
      (fun x => (cmp x (slice.getD b default)).isLE) := by
    rw [show m1 = a + ((listSeg slice a b).takeWhile
      (fun x => (cmp x (slice.getD b default)).isLE)).length from by omega, ← listSeg_drop,
      drop_length_takeWhile]
  have hB1 : listSeg slice b m2 = (listSeg slice b c).takeWhile
      (fun y => (cmp y (slice.getD (b - 1) default)).isLT) := by
    rw [listSeg_take_eq (b := c) (by omega), show m2 - b = ((listSeg slice b c).takeWhile
      (fun y => (cmp y (slice.getD (b - 1) default)).isLT)).length from by omega,
      take_length_takeWhile]
  have hB2 : listSeg slice m2 c = (listSeg slice b c).dropWhile
      (fun y => (cmp y (slice.getD (b - 1) default)).isLT) := by
    rw [show m2 = b + ((listSeg slice b c).takeWhile
      (fun y => (cmp y (slice.getD (b - 1) default)).isLT)).length from by omega,
      ← listSeg_drop, drop_length_takeWhile]
  have hcrossle : ∀ x ∈ listSeg slice m1 b, ∀ pb ∈ listSeg slice m2 c,
      leB cmp x pb = true := by
    intro x hx pb hpb
    have hxle : leB cmp x (slice.getD (b - 1) default) = true := by
      have hsub : listSeg slice m1 b = (listSeg slice a b).drop (m1 - a) := by
        rw [listSeg_drop, show a + (m1 - a) = m1 from by omega]
      have hx' : x ∈ listSeg slice a b := by
        rw [hsub] at hx
        exact (List.drop_sublist _ _).mem hx
      exact sorted_seg_le_last hblen h1 hx'
    have hpble : leB cmp (slice.getD (b - 1) default) pb = true := by
      obtain ⟨n, hn, hpbe⟩ := List.getElem_of_mem hpb
      have hns : m2 + n < c := by
        have := hn
        simp only [listSeg, List.length_take, List.length_drop] at this
        omega
      have hgpb : (listSeg slice m2 c)[n] = slice.getD (m2 + n) default :=
        listSeg_getElem hn
      have hq : (cmp (slice.getD (m2 + n) default)
          (slice.getD (b - 1) default)).isLT = false := by
        cases hqv : (cmp (slice.getD (m2 + n) default)
            (slice.getD (b - 1) default)).isLT with
        | false => rfl
        | true =>
          have := (hchar2 (m2 + n) (by omega) hns).mp hqv
          omega
      rw [← hpbe, hgpb]
      rw [leB, isLE_iff_ne_gt]
      intro hgt
      have : cmp (slice.getD (m2 + n) default) (slice.getD (b - 1) default) = .lt :=
        Batteries.OrientedCmp.cmp_eq_gt.mp hgt
      rw [this] at hq
      exact absurd hq (by simp [Ordering.isLT])
    exact leB_trans hxle hpble
  have hmerge : (listSeg slice a b).merge (listSeg slice b c) (leB cmp) =
      listSeg slice a m1 ++
        ((listSeg slice m1 b).merge (listSeg slice b m2) (leB cmp) ++ listSeg slice m2 c) := by
    have hsplitA : listSeg slice a b = listSeg slice a m1 ++ listSeg slice m1 b := by
      rw [hA1, hA2, List.takeWhile_append_dropWhile]
    have hsplitB : listSeg slice b c = listSeg slice b m2 ++ listSeg slice m2 c := by
      rw [hB1, hB2, List.takeWhile_append_dropWhile]
    have hBcons : listSeg slice b m2 ++ listSeg slice m2 c =
        slice.getD b default :: listSeg slice (b + 1) c := by
      rw [← hsplitB]
      exact listSeg_cons hbc (by omega)
    conv_lhs => rw [hsplitA, hsplitB, hBcons]
    rw [@merge_append_left_of_le α (leB cmp) (slice.getD b default)
      (listSeg slice (b + 1) c) (listSeg slice a m1) (listSeg slice m1 b)
      (fun p hp => by
        rw [hA1] at hp
        have hq := List.mem_takeWhile_imp hp
        exact hq), ← hBcons]
    rw [merge_append_of_le (listSeg slice m1 b) (listSeg slice b m2) (listSeg slice m2 c)
      hcrossle]
  rw [hmerge, take_split slice a m1 (by omega), drop_split slice m2 c (by omega)]
  simp [List.append_assoc]

/-! ### Segment bookkeeping for in-place updates -/

theorem listSeg_via_take (l : List α) (a b : Nat) :
    listSeg l a b = (l.take b).drop a := by
  rw [List.drop_take]
  rfl

theorem listSeg_append {l : List α} {a b c : Nat} (hab : a ≤ b) (hbc : b ≤ c) :
    listSeg l a b ++ listSeg l b c = listSeg l a c := by
  simp only [listSeg]
  rw [show c - a = (b - a) + (c - b) from by omega, List.take_add, List.drop_drop,
    show a + (b - a) = b from by omega]

theorem listSeg_eq_of_take_eq {l l' : List α} {a b t : Nat} (h : l.take t = l'.take t)
    (hbt : b ≤ t) : listSeg l a b = listSeg l' a b := by
  have hl : l.take b = (l.take t).take b := by
    rw [List.take_take, Nat.min_eq_left hbt]
  have hl' : l'.take b = (l'.take t).take b := by
    rw [List.take_take, Nat.min_eq_left hbt]
  rw [listSeg_via_take, listSeg_via_take, hl, hl', h]

theorem listSeg_eq_of_drop_eq {l l' : List α} {a b d : Nat} (h : l.drop d = l'.drop d)
    (hda : d ≤ a) : listSeg l a b = listSeg l' a b := by
  have hl : l.drop a = (l.drop d).drop (a - d) := by
    rw [List.drop_drop]
    congr 1
    omega
  have hl' : l'.drop a = (l'.drop d).drop (a - d) := by
    rw [List.drop_drop]
    congr 1
    omega
  simp only [listSeg]
  rw [hl, hl', h]

theorem drop_eq_of_drop_eq {l l' : List α} {d e : Nat} (h : l.drop d = l'.drop d)
    (hde : d ≤ e) : l.drop e = l'.drop e := by
  have h1 : l.drop e = (l.drop d).drop (e - d) := by
    rw [List.drop_drop]
    congr 1
    omega
  have h2 : l'.drop e = (l'.drop d).drop (e - d) := by
    rw [List.drop_drop]
    congr 1
    omega
  rw [h1, h2, h]

theorem update_length {slice M : List α} {a c : Nat} (hac : a ≤ c)
    (hc : c ≤ slice.length) (hM : M.length = c - a) :
    (slice.take a ++ M ++ slice.drop c).length = slice.length := by
  simp only [List.length_append, List.length_take, List.length_drop]
  omega

theorem update_take {slice M : List α} {a c : Nat} (hac : a ≤ c)
    (hc : c ≤ slice.length) :
    (slice.take a ++ M ++ slice.drop c).take a = slice.take a := by
  rw [List.append_assoc, List.take_left' (by simp; omega)]

theorem update_drop {slice M : List α} {a c : Nat} (hac : a ≤ c)
    (hc : c ≤ slice.length) (hM : M.length = c - a) :
    (slice.take a ++ M ++ slice.drop c).drop c = slice.drop c := by
  rw [List.drop_left' (by simp [hM]; omega)]

theorem update_seg {slice M : List α} {a c : Nat} (hac : a ≤ c)
    (hc : c ≤ slice.length) (hM : M.length = c - a) :
    listSeg (slice.take a ++ M ++ slice.drop c) a c = M := by
  simp only [listSeg]
  rw [List.append_assoc, List.drop_left' (by simp; omega), List.take_left' hM]

theorem update_seg_left {slice M : List α} {a c s e : Nat} (hac : a ≤ c)
    (hc : c ≤ slice.length) (hea : e ≤ a) :
    listSeg (slice.take a ++ M ++ slice.drop c) s e = listSeg slice s e := by
  exact listSeg_eq_of_take_eq (update_take hac hc) hea

theorem update_seg_right {slice M : List α} {a c s e : Nat} (hac : a ≤ c)
    (hc : c ≤ slice.length) (hM : M.length = c - a) (hcs : c ≤ s) :
    listSeg (slice.take a ++ M ++ slice.drop c) s e = listSeg slice s e := by
  exact listSeg_eq_of_drop_eq (update_drop hac hc hM) hcs

/-! ### Binary insertion sort, list level -/

theorem rotateRightOne_concat (l : List α) (x : α) :
    rotateRightOne (l ++ [x]) = x :: l := by
  simp [rotateRightOne, List.getLast?_concat, List.dropLast_concat]

theorem insBy_length (p : α → α → Bool) (Q : List α) (t : α) :
    (insBy p Q t).length = Q.length + 1 := by
  have h := congrArg List.length (List.takeWhile_append_dropWhile (fun x => p x t) Q)
  simp only [List.length_append] at h
  simp only [insBy, List.length_append, List.length_cons]
  omega

theorem binStep_core [Inhabited α] (Q : List α) (t : α) (rest : List α) (p : α → Bool) :
    (Q ++ t :: rest).take (partitionPoint p Q) ++
      rotateRightOne (((Q ++ t :: rest).drop (partitionPoint p Q)).take
        (Q.length + 1 - partitionPoint p Q)) ++
      (Q ++ t :: rest).drop (Q.length + 1) =
      (Q.takeWhile p ++ t :: Q.dropWhile p) ++ rest := by
  have hipl : partitionPoint p Q ≤ Q.length := partitionPoint_le_length p Q
  unfold partitionPoint at *
  rw [List.take_append_of_le_length hipl, take_length_takeWhile,
    List.drop_append_of_le_length hipl, List.take_append_eq_append_take,
    List.take_of_length_le (by simp; omega),
    show Q.length + 1 - (Q.takeWhile p).length - (Q.drop (Q.takeWhile p).length).length = 1
      from by simp; omega,
    show (t :: rest).take 1 = [t] from rfl, rotateRightOne_concat,
    drop_length_takeWhile,
    show Q ++ t :: rest = (Q ++ [t]) ++ rest from by simp,
    List.drop_left' (by simp)]

theorem binStep_insBy [Inhabited α] (cmp : α → α → Ordering) (isInc : Bool)
    (Q : List α) (t : α) (rest : List α) :
    binStep cmp isInc (Q ++ t :: rest) Q.length =
      insBy (bpred cmp isInc) Q t ++ rest := by
  have hget : (Q ++ t :: rest).getD Q.length default = t := by
    rw [List.getD_eq_getElem?_getD, List.getElem?_append_right (Nat.le_refl _),
      Nat.sub_self]
    simp
  have htake : (Q ++ t :: rest).take Q.length = Q := List.take_left' rfl
  simp only [binStep]
  rw [hget, htake]
  cases isInc with
  | true =>
    rw [if_pos rfl]
    exact binStep_core Q t rest (fun x => (cmp x t).isLE)
  | false =>
    rw [if_neg Bool.false_ne_true]
    exact binStep_core Q t rest (fun x => (cmp x t).isGT)

theorem foldl_binStep [Inhabited α] (cmp : α → α → Ordering) (isInc : Bool) :
    ∀ (rest Q : List α),
      (List.range' Q.length rest.length).foldl (binStep cmp isInc) (Q ++ rest) =
        insFold (bpred cmp isInc) Q rest
  | [], Q => by simp [insFold]
  | t :: rest, Q => by
    rw [List.length_cons, List.range'_succ, List.foldl_cons, binStep_insBy,
      show Q.length + 1 = (insBy (bpred cmp isInc) Q t).length from (insBy_length ..).symm,
      foldl_binStep cmp isInc rest (insBy (bpred cmp isInc) Q t)]
    rfl

theorem binaryInsertionSortBy_eq [Inhabited α] (cmp : α → α → Ordering) (isInc : Bool)
    (q : α) (rest : List α) :
    binaryInsertionSortBy cmp isInc (q :: rest) = insFold (bpred cmp isInc) [q] rest := by
  have h := foldl_binStep cmp isInc rest [q]
  simpa [binaryInsertionSortBy] using h

theorem binaryInsertionSortBy_nil [Inhabited α] (cmp : α → α → Ordering) (isInc : Bool) :
    binaryInsertionSortBy cmp isInc ([] : List α) = [] := rfl

theorem insFold_length (p : α → α → Bool) :
    ∀ (rest Q : List α), (insFold p Q rest).length = Q.length + rest.length
  | [], Q => by simp [insFold]
  | t :: rest, Q => by
    show (insFold p (insBy p Q t) rest).length = _
    rw [insFold_length p rest (insBy p Q t), insBy_length]
    simp
    omega

theorem binaryInsertionSortBy_length [Inhabited α] (cmp : α → α → Ordering)
    (isInc : Bool) (l : List α) :
    (binaryInsertionSortBy cmp isInc l).length = l.length := by
  cases l with
  | nil => rfl
  | cons q rest =>
    rw [binaryInsertionSortBy_eq, insFold_length]
    simp
    omega

/-! ### Binary-insertion invariants -/

theorem isGT_iff {o : Ordering} : o.isGT = true ↔ o = .gt := by
  cases o <;> simp [Ordering.isGT]

theorem lt_leB_trans {cmp : α → α → Ordering} [TransCmp cmp] {a b c : α}
    (h1 : cmp a b = .lt) (h2 : leB cmp b c = true) : cmp a c = .lt := by
  unfold leB at h2
  rw [isLE_iff_ne_gt] at h2
  exact Batteries.TransCmp.lt_le_trans h1 h2

theorem dropWhile_false_of_pairwise {R : α → α → Prop} {p : α → Bool}
    (hdc : ∀ x y, R x y → p y = true → p x = true) :
    ∀ (Q : List α), Q.Pairwise R → ∀ y ∈ Q.dropWhile p, p y = false := by
  intro Q
  induction Q with
  | nil => intro _ y hy; simp at hy
  | cons q Q ih =>
    intro hQ y hy
    rw [List.dropWhile_cons] at hy
    by_cases hq : p q = true
    · rw [if_pos hq] at hy
      exact ih hQ.tail y hy
    · rw [if_neg hq] at hy
      rcases List.mem_cons.mp hy with rfl | hy2
      · exact Bool.eq_false_iff.mpr hq
      · by_cases hpy : p y = true
        · exact absurd (hdc q y ((List.pairwise_cons.mp hQ).1 y hy2) hpy) hq
        · exact Bool.eq_false_iff.mpr hpy

theorem insBy_pairwise {R : α → α → Prop} {p : α → Bool} {Q : List α} {t : α}
    (hQ : Q.Pairwise R)
    (hA : ∀ x ∈ Q.takeWhile p, R x t)
    (hB : ∀ y ∈ Q.dropWhile p, R t y) :
    (Q.takeWhile p ++ t :: Q.dropWhile p).Pairwise R := by
  rw [List.pairwise_append]
  refine ⟨hQ.sublist (List.takeWhile_sublist p), ?_, ?_⟩
  · rw [List.pairwise_cons]
    exact ⟨hB, hQ.sublist (List.dropWhile_sublist p)⟩
  · intro x hx y hy
    rcases List.mem_cons.mp hy with rfl | hy2
    · exact hA x hx
    · have hsplit : (Q.takeWhile p ++ Q.dropWhile p).Pairwise R := by
        rw [List.takeWhile_append_dropWhile]
        exact hQ
      exact (List.pairwise_append.mp hsplit).2.2 x hx y hy2

theorem insBy_asc_sorted {cmp : α → α → Ordering} [TransCmp cmp] {Q : List α} {t : α}
    (hQ : SortedCmp cmp Q) : SortedCmp cmp (insBy (bpred cmp true) Q t) := by
  apply insBy_pairwise hQ
  · intro x hx
    have h2 := List.mem_takeWhile_imp hx
    exact h2
  · intro y hy
    have hy2 : bpred cmp true y t = false :=
      dropWhile_false_of_pairwise
        (fun x y (hxy : cmpLE cmp x y) hyt => leB_trans hxy hyt) Q hQ y hy
    exact leB_total hy2

theorem insBy_desc_sorted {cmp : α → α → Ordering} [TransCmp cmp] {Q : List α} {t : α}
    (hQ : SortedCmpDesc cmp Q) : SortedCmpDesc cmp (insBy (bpred cmp false) Q t) := by
  apply insBy_pairwise hQ
  · intro x hx
    have hx0 := List.mem_takeWhile_imp hx
    have hx2 : (cmp x t).isGT = true := hx0
    have hgt : cmp x t = .gt := isGT_iff.mp hx2
    show (cmp t x).isLE = true
    rw [Batteries.OrientedCmp.cmp_eq_gt.mp hgt]
    rfl
  · intro y hy
    have hy2 : bpred cmp false y t = false :=
      dropWhile_false_of_pairwise
        (fun x y (hxy : (cmp y x).isLE = true) hyt => by
          show (cmp x t).isGT = true
          have hyt2 : cmp y t = .gt := isGT_iff.mp hyt
          have hty : cmp t y = .lt := Batteries.OrientedCmp.cmp_eq_gt.mp hyt2
          have := lt_leB_trans hty hxy
          rw [isGT_iff]
          exact Batteries.OrientedCmp.cmp_eq_gt.mpr this) Q hQ y hy
    show (cmp y t).isLE = true
    have : (cmp y t).isGT = false := hy2
    cases h : cmp y t <;> rw [h] at this <;> simp [Ordering.isGT] at this <;> rfl

theorem filter_insBy_asc {cmp : α → α → Ordering} [TransCmp cmp] {Q : List α} {t : α}
    (hQ : SortedCmp cmp Q) (k : α) :
    (insBy (bpred cmp true) Q t).filter (eqvB cmp k) =
      (Q ++ [t]).filter (eqvB cmp k) := by
  have hfalse : ∀ y ∈ Q.dropWhile (fun x => bpred cmp true x t),
      bpred cmp true y t = false :=
    dropWhile_false_of_pairwise
      (fun x y (hxy : cmpLE cmp x y) hyt => leB_trans hxy hyt) Q hQ
  have hQsplit : Q.filter (eqvB cmp k) =
      (Q.takeWhile (fun x => bpred cmp true x t)).filter (eqvB cmp k) ++
      (Q.dropWhile (fun x => bpred cmp true x t)).filter (eqvB cmp k) := by
    conv_lhs => rw [← List.takeWhile_append_dropWhile (fun x => bpred cmp true x t) Q]
    rw [List.filter_append]
  rw [insBy, List.filter_append, List.filter_append, List.filter_cons, List.filter_cons,
    List.filter_nil, hQsplit]
  by_cases ht : eqvB cmp k t = true
  · have hdw : (Q.dropWhile (fun x => bpred cmp true x t)).filter (eqvB cmp k) = [] := by
      rw [List.filter_eq_nil_iff]
      intro y hy hky
      have heq : cmp y t = .eq := eqv_cmp_eq hky ht
      have : bpred cmp true y t = true := leB_of_eq heq
      rw [hfalse y hy] at this
      exact absurd this (by simp)
    rw [if_pos ht, if_pos ht, hdw]
    simp
  · rw [if_neg ht, if_neg ht]
    simp

theorem filter_insBy_desc {cmp : α → α → Ordering} [TransCmp cmp] (Q : List α) (t k : α) :
    (insBy (bpred cmp false) Q t).filter (eqvB cmp k) =
      (t :: Q).filter (eqvB cmp k) := by
  have hQsplit : Q.filter (eqvB cmp k) =
      (Q.takeWhile (fun x => bpred cmp false x t)).filter (eqvB cmp k) ++
      (Q.dropWhile (fun x => bpred cmp false x t)).filter (eqvB cmp k) := by
    conv_lhs => rw [← List.takeWhile_append_dropWhile (fun x => bpred cmp false x t) Q]
    rw [List.filter_append]
  rw [insBy, List.filter_append, List.filter_cons, List.filter_cons, hQsplit]
  by_cases ht : eqvB cmp k t = true
  · have htw : (Q.takeWhile (fun x => bpred cmp false x t)).filter (eqvB cmp k) = [] := by
      rw [List.filter_eq_nil_iff]
      intro x hx hkx
      have hp0 := List.mem_takeWhile_imp hx
      have hp : bpred cmp false x t = true := hp0
      have hgt : cmp x t = .gt := isGT_iff.mp hp
      rw [eqv_cmp_eq hkx ht] at hgt
      exact absurd hgt (by simp)
    rw [if_pos ht, if_pos ht, htw]
    simp
  · rw [if_neg ht, if_neg ht]

theorem insFold_asc_sorted {cmp : α → α → Ordering} [TransCmp cmp] :
    ∀ (rest Q : List α), SortedCmp cmp Q →
      SortedCmp cmp (insFold (bpred cmp true) Q rest)
  | [], _, hQ => hQ
  | t :: rest, Q, hQ =>
    insFold_asc_sorted rest (insBy (bpred cmp true) Q t) (insBy_asc_sorted hQ)

theorem insFold_desc_sorted {cmp : α → α → Ordering} [TransCmp cmp] :
    ∀ (rest Q : List α), SortedCmpDesc cmp Q →
      SortedCmpDesc cmp (insFold (bpred cmp false) Q rest)
  | [], _, hQ => hQ
  | t :: rest, Q, hQ =>
    insFold_desc_sorted rest (insBy (bpred cmp false) Q t) (insBy_desc_sorted hQ)

theorem insFold_asc_filter {cmp : α → α → Ordering} [TransCmp cmp] (k : α) :
    ∀ (rest Q : List α), SortedCmp cmp Q →
      (insFold (bpred cmp true) Q rest).filter (eqvB cmp k) =
        (Q ++ rest).filter (eqvB cmp k)
  | [], Q, _ => by simp [insFold]
  | t :: rest, Q, hQ => by
    show (insFold _ (insBy _ Q t) rest).filter _ = _
    rw [insFold_asc_filter k rest (insBy (bpred cmp true) Q t) (insBy_asc_sorted hQ),
      List.filter_append, filter_insBy_asc hQ k, ← List.filter_append, List.append_assoc]
    rfl

theorem insFold_desc_filter {cmp : α → α → Ordering} [TransCmp cmp] (k : α) :
    ∀ (rest Q : List α),
      (insFold (bpred cmp false) Q rest).filter (eqvB cmp k) =
        (rest.reverse ++ Q).filter (eqvB cmp k)
  | [], Q => by simp [insFold]
  | t :: rest, Q => by
    show (insFold _ (insBy _ Q t) rest).filter _ = _
    rw [insFold_desc_filter k rest (insBy (bpred cmp false) Q t), List.filter_append,
      filter_insBy_desc Q t k, List.reverse_cons, List.append_assoc, List.filter_append]
    rfl

/-- Ascending binary insertion sort is exactly the reference stable sort. -/
theorem binaryInsertionSortBy_asc [Inhabited α] {cmp : α → α → Ordering} [TransCmp cmp]
    (l : List α) : binaryInsertionSortBy cmp true l = refSort cmp l := by
  cases l with
  | nil => rfl
  | cons q rest =>
    rw [binaryInsertionSortBy_eq]
    refine eq_of_sorted_of_classes
      (insFold_asc_sorted rest [q] (List.pairwise_singleton _ q)) (refSort_sorted _) ?_
    intro k
    rw [insFold_asc_filter k rest [q] (List.pairwise_singleton _ q), filter_refSort]
    rfl

/-- Descending binary insertion sort yields a non-increasing sequence. -/
theorem binaryInsertionSortBy_desc_sorted [Inhabited α] {cmp : α → α → Ordering}
    [TransCmp cmp] (l : List α) :
    SortedCmpDesc cmp (binaryInsertionSortBy cmp false l) := by
  cases l with
  | nil => exact List.Pairwise.nil
  | cons q rest =>
    rw [binaryInsertionSortBy_eq]
    exact insFold_desc_sorted rest [q] (List.pairwise_singleton _ q)

/-- Descending binary insertion sort reverses every comparator-equivalence
class: ties end up in reverse input order, which the final run reversal
restores. -/
theorem binaryInsertionSortBy_desc_filter [Inhabited α] {cmp : α → α → Ordering}
    [TransCmp cmp] (l : List α) (k : α) :
    (binaryInsertionSortBy cmp false l).filter (eqvB cmp k) =
      (l.filter (eqvB cmp k)).reverse := by
  cases l with
  | nil => rfl
  | cons q rest =>
    rw [binaryInsertionSortBy_eq, insFold_desc_filter, List.filter_append,
      List.filter_reverse]
    by_cases hq : eqvB cmp k q = true <;> simp [List.filter_cons, hq]

/-! ### Run extension -/

theorem extendRun_ge [Inhabited α] (cmp : α → α → Ordering) (isInc : Bool)
    (slice : List α) : ∀ (fuel pos : Nat), pos ≤ extendRun cmp isInc slice pos fuel
  | 0, pos => Nat.le_refl pos
  | fuel + 1, pos => by
    unfold extendRun
    split <;> split <;>
      first
        | exact Nat.le_trans (Nat.le_succ pos) (extendRun_ge cmp isInc slice fuel (pos + 1))
        | exact Nat.le_refl pos

theorem extendRun_le [Inhabited α] (cmp : α → α → Ordering) (isInc : Bool)
    (slice : List α) : ∀ (fuel pos : Nat), extendRun cmp isInc slice pos fuel ≤ pos + fuel
  | 0, pos => Nat.le_refl pos
  | fuel + 1, pos => by
    unfold extendRun
    split <;> split <;>
      first
        | (have h9 := extendRun_le cmp isInc slice fuel (pos + 1)
           omega)
        | omega

theorem extendRun_cond [Inhabited α] (cmp : α → α → Ordering) (isInc : Bool)
    (slice : List α) : ∀ (fuel pos idx : Nat), pos ≤ idx →
      idx < extendRun cmp isInc slice pos fuel →
      (if isInc then (cmp (slice.getD (idx - 1) default) (slice.getD idx default)).isLE
       else (cmp (slice.getD (idx - 1) default) (slice.getD idx default)).isGT) = true := by
  intro fuel
  induction fuel with
  | zero =>
    intro pos idx h1 h2
    unfold extendRun at h2
    omega
  | succ fuel ih =>
    intro pos idx h1 h2
    unfold extendRun at h2
    by_cases hc : (if isInc
        then (cmp (slice.getD (pos - 1) default) (slice.getD pos default)).isLE
        else (cmp (slice.getD (pos - 1) default) (slice.getD pos default)).isGT) = true
    · rw [if_pos hc] at h2
      rcases Nat.eq_or_lt_of_le h1 with heq | hlt
      · subst heq
        exact hc
      · exact ih (pos + 1) idx hlt h2
    · rw [if_neg hc] at h2
      omega

/-! ### Chains of adjacent comparisons -/

theorem leB_chain_of_adjacent [Inhabited α] {cmp : α → α → Ordering} [TransCmp cmp]
    {slice : List α} {a b : Nat}
    (h : ∀ i, a < i → i < b →
      leB cmp (slice.getD (i - 1) default) (slice.getD i default) = true) :
    ∀ i j, a ≤ i → i < j → j < b →
      leB cmp (slice.getD i default) (slice.getD j default) = true := by
  have key : ∀ (d i : Nat), a ≤ i → i + d + 1 < b →
      leB cmp (slice.getD i default) (slice.getD (i + d + 1) default) = true := by
    intro d
    induction d with
    | zero =>
      intro i hai hib
      have hh := h (i + 1) (by omega) (by omega)
      rw [show i + 1 - 1 = i from by omega] at hh
      exact hh
    | succ d ih =>
      intro i hai hib
      have h1 := ih i hai (by omega)
      have h2 := h (i + d + 2) (by omega) (by omega)
      rw [show i + d + 2 - 1 = i + d + 1 from by omega] at h2
      have h3 := leB_trans h1 h2
      rw [show i + (d + 1) + 1 = i + d + 2 from by omega]
      exact h3
  intro i j hai hij hjb
  have hk := key (j - i - 1) i hai (by omega)
  rw [show i + (j - i - 1) + 1 = j from by omega] at hk
  exact hk

theorem gt_chain_of_adjacent [Inhabited α] {cmp : α → α → Ordering} [TransCmp cmp]
    {slice : List α} {a b : Nat}
    (h : ∀ i, a < i → i < b →
      cmp (slice.getD (i - 1) default) (slice.getD i default) = .gt) :
    ∀ i j, a ≤ i → i < j → j < b →
      cmp (slice.getD i default) (slice.getD j default) = .gt := by
  have key : ∀ (d i : Nat), a ≤ i → i + d + 1 < b →
      cmp (slice.getD i default) (slice.getD (i + d + 1) default) = .gt := by
    intro d
    induction d with
    | zero =>
      intro i hai hib
      have hh := h (i + 1) (by omega) (by omega)
      rw [show i + 1 - 1 = i from by omega] at hh
      exact hh
    | succ d ih =>
      intro i hai hib
      have h1 := ih i hai (by omega)
      have h2 := h (i + d + 2) (by omega) (by omega)
      rw [show i + d + 2 - 1 = i + d + 1 from by omega] at h2
      have h3 := Batteries.TransCmp.gt_trans h1 h2
      rw [show i + (d + 1) + 1 = i + d + 2 from by omega]
      exact h3
  intro i j hai hij hjb
  have hk := key (j - i - 1) i hai (by omega)
  rw [show i + (j - i - 1) + 1 = j from by omega] at hk
  exact hk

theorem sortedCmp_of_adjacent [Inhabited α] {cmp : α → α → Ordering} [TransCmp cmp]
    {slice : List α} {a b : Nat} (hb : b ≤ slice.length)
    (h : ∀ i, a < i → i < b →
      leB cmp (slice.getD (i - 1) default) (slice.getD i default) = true) :
    SortedCmp cmp (listSeg slice a b) := by
  rw [SortedCmp, List.pairwise_iff_getElem]
  intro n1 n2 hn1 hn2 hlt
  have hl2 : n2 < b - a := by
    have := hn2
    simp only [listSeg, List.length_take, List.length_drop] at this
    omega
  have g1 : (listSeg slice a b)[n1] = slice.getD (a + n1) default := listSeg_getElem hn1
  have g2 : (listSeg slice a b)[n2] = slice.getD (a + n2) default := listSeg_getElem hn2
  rw [g1, g2]
  exact leB_chain_of_adjacent h (a + n1) (a + n2) (by omega) (by omega) (by omega)

theorem adjacent_of_sortedCmp [Inhabited α] {cmp : α → α → Ordering}
    {slice : List α} {a b : Nat} (hb : b ≤ slice.length)
    (hs : SortedCmp cmp (listSeg slice a b)) :
    ∀ i, a < i → i < b →
      leB cmp (slice.getD (i - 1) default) (slice.getD i default) = true := by
  intro i h1 h2
  have hlen : (listSeg slice a b).length = b - a := listSeg_length hb (by omega)
  have hn1 : i - 1 - a < (listSeg slice a b).length := by omega
  have hn2 : i - a < (listSeg slice a b).length := by omega
  have g1 : (listSeg slice a b)[i - 1 - a] = slice.getD (a + (i - 1 - a)) default :=
    listSeg_getElem hn1
  have g2 : (listSeg slice a b)[i - a] = slice.getD (a + (i - a)) default :=
    listSeg_getElem hn2
  have hp := List.pairwise_iff_getElem.mp hs (i - 1 - a) (i - a) hn1 hn2 (by omega)
  rw [g1, g2, show a + (i - 1 - a) = i - 1 from by omega,
    show a + (i - a) = i from by omega] at hp
  exact hp

/-- Every member of a non-increasing nonempty segment `slice[s..e]` compares
`≥` to the element at position `e - 1`. -/
theorem desc_seg_ge_last [Inhabited α] {cmp : α → α → Ordering} [TransCmp cmp]
    {slice : List α} {s e : Nat} (he : e ≤ slice.length)
    (hs : SortedCmpDesc cmp (listSeg slice s e)) {x : α} (hx : x ∈ listSeg slice s e) :
    leB cmp (slice.getD (e - 1) default) x = true := by
  obtain ⟨n, hn, hxe⟩ := List.getElem_of_mem hx
  have hns : s + n < e := by
    have := hn
    simp only [listSeg, List.length_take, List.length_drop] at this
    omega
  have hgx : (listSeg slice s e)[n] = slice.getD (s + n) default :=
    listSeg_getElem hn
  rcases Nat.lt_or_ge (s + n) (e - 1) with hlt | hge
  · have hlast_idx : e - 1 - s < (listSeg slice s e).length := by
      simp only [listSeg, List.length_take, List.length_drop]
      omega
    have hglast : (listSeg slice s e)[e - 1 - s] = slice.getD (s + (e - 1 - s)) default :=
      listSeg_getElem hlast_idx
    have hpw := List.pairwise_iff_getElem.mp hs n (e - 1 - s) hn hlast_idx (by omega)
    rw [hxe, hglast, show s + (e - 1 - s) = e - 1 from by omega] at hpw
    exact hpw
  · have hidx : s + n = e - 1 := by omega
    rw [← hxe, hgx, hidx]
    exact leB_refl _

/-- A pairwise strictly descending list meets each comparator-equivalence
class at most once, so filtering it by a class is reversal-invariant. -/
theorem filter_eqv_reverse_of_pairwise_gt {cmp : α → α → Ordering} [TransCmp cmp]
    {l : List α} (hgt : l.Pairwise (fun x y => cmp x y = .gt)) (k : α) :
    (l.filter (eqvB cmp k)).reverse = l.filter (eqvB cmp k) := by
  match hf : l.filter (eqvB cmp k) with
  | [] => rfl
  | [a] => rfl
  | a :: b :: t =>
    exfalso
    have hpf : (l.filter (eqvB cmp k)).Pairwise (fun x y => cmp x y = .gt) :=
      hgt.filter _
    rw [hf] at hpf
    have hab : cmp a b = .gt := (List.pairwise_cons.mp hpf).1 b (by simp)
    have hma : a ∈ l.filter (eqvB cmp k) := by rw [hf]; simp
    have hmb : b ∈ l.filter (eqvB cmp k) := by rw [hf]; simp
    have ha : eqvB cmp k a = true := (List.mem_filter.mp hma).2
    have hb2 : eqvB cmp k b = true := (List.mem_filter.mp hmb).2
    rw [eqv_cmp_eq ha hb2] at hab
    exact absurd hab (by simp)

/-! ### Structural permutation facts for the pipeline -/

theorem rotateRightOne_perm (l : List α) : (rotateRightOne l).Perm l := by
  rcases List.eq_nil_or_concat l with rfl | ⟨l2, x, rfl⟩
  · exact List.Perm.refl _
  · rw [List.concat_eq_append, rotateRightOne_concat]
    exact (List.perm_append_singleton x l2).symm

theorem update_perm {slice M : List α} {a c : Nat} (hac : a ≤ c)
    (hM : M.Perm (listSeg slice a c)) :
    (slice.take a ++ M ++ slice.drop c).Perm slice := by
  conv_rhs => rw [← List.take_append_drop c slice, take_split slice a c hac]
  exact (hM.append_left _).append_right _

theorem binStep_perm [Inhabited α] (cmp : α → α → Ordering) (isInc : Bool)
    (slice : List α) (curPos : Nat) : (binStep cmp isInc slice curPos).Perm slice := by
  have hip : ∀ n, n ≤ curPos →
      (slice.take n ++ rotateRightOne ((slice.drop n).take (curPos + 1 - n)) ++
        slice.drop (curPos + 1)).Perm slice := by
    intro n hn
    refine update_perm (by omega) ?_
    show (rotateRightOne (listSeg slice n (curPos + 1))).Perm (listSeg slice n (curPos + 1))
    exact rotateRightOne_perm _
  unfold binStep
  dsimp only
  split
  · refine hip _ ?_
    have := partitionPoint_le_length (fun x =>
      (cmp x (slice.getD curPos default)).isLE) (slice.take curPos)
    rw [List.length_take] at this
    omega
  · refine hip _ ?_
    have := partitionPoint_le_length (fun x =>
      (cmp x (slice.getD curPos default)).isGT) (slice.take curPos)
    rw [List.length_take] at this
    omega

theorem foldl_binStep_perm [Inhabited α] (cmp : α → α → Ordering) (isInc : Bool) :
    ∀ (ps : List Nat) (slice : List α),
      (ps.foldl (binStep cmp isInc) slice).Perm slice
  | [], _ => List.Perm.refl _
  | p :: ps, slice =>
    (foldl_binStep_perm cmp isInc ps (binStep cmp isInc slice p)).trans
      (binStep_perm cmp isInc slice p)

theorem binaryInsertionSortBy_perm [Inhabited α] (cmp : α → α → Ordering)
    (isInc : Bool) (l : List α) : (binaryInsertionSortBy cmp isInc l).Perm l :=
  foldl_binStep_perm cmp isInc _ l

theorem getSortedRunFromSlice_perm [Inhabited α] (cmp : α → α → Ordering)
    (slice : List α) (pos minRunSize : Nat) (hpos : pos ≤ slice.length) :
    (getSortedRunFromSlice cmp slice pos minRunSize).1.Perm slice := by
  unfold getSortedRunFromSlice
  dsimp only
  split
  · exact List.Perm.refl _
  · have hperm1 : (spliceSeg slice pos (min (pos + minRunSize) slice.length)
        (binaryInsertionSortBy cmp
          ((cmp (slice.getD pos default) (slice.getD (pos + 1) default)).isLE))).Perm
        slice :=
      update_perm (by omega) (binaryInsertionSortBy_perm _ _ _)
    split
    · exact hperm1
    · refine (update_perm ?_ ?_).trans hperm1
      · have := extendRun_ge cmp
          ((cmp (slice.getD pos default) (slice.getD (pos + 1) default)).isLE)
          (spliceSeg slice pos (min (pos + minRunSize) slice.length)
            (binaryInsertionSortBy cmp
              ((cmp (slice.getD pos default) (slice.getD (pos + 1) default)).isLE)))
          (slice.length - min (pos + minRunSize) slice.length)
          (min (pos + minRunSize) slice.length)
        omega
      · exact (List.reverse_perm _)

theorem collectRuns_perm [Inhabited α] (cmp : α → α → Ordering) (size minRunSize : Nat) :
    ∀ (fuel : Nat) (slice : List α) (pos : Nat), slice.length = size →
      (collectRuns cmp size minRunSize fuel slice pos).1.Perm slice
  | 0, _, _, _ => List.Perm.refl _
  | fuel + 1, slice, pos, hsz => by
    simp only [collectRuns]
    split
    · have hse : (getSortedRunFromSlice cmp slice pos minRunSize).1.Perm slice :=
        getSortedRunFromSlice_perm cmp slice pos minRunSize (by omega)
      have hrec := collectRuns_perm cmp size minRunSize fuel
        (getSortedRunFromSlice cmp slice pos minRunSize).1
        (getSortedRunFromSlice cmp slice pos minRunSize).2
        (by rw [hse.length_eq, hsz])
      exact hrec.trans hse
    · exact List.Perm.refl _

/-! ### Run detection -/

theorem getSortedRun_asc [Inhabited α] (cmp : α → α → Ordering) [TransCmp cmp]
    (slice : List α) (pos runEnd : Nat) (hpr : pos < runEnd) (hre : runEnd ≤ slice.length)
    (slice1 : List α) (e : Nat)
    (hs1 : slice1 = spliceSeg slice pos runEnd (binaryInsertionSortBy cmp true))
    (he : e = extendRun cmp true slice1 runEnd (slice.length - runEnd)) :
    runEnd ≤ e ∧ e ≤ slice.length ∧ slice1.length = slice.length ∧
      slice1.take pos = slice.take pos ∧ slice1.drop e = slice.drop e ∧
      listSeg slice1 pos e = refSort cmp (listSeg slice pos e) := by
  have hMlen : (binaryInsertionSortBy cmp true (listSeg slice pos runEnd)).length
      = runEnd - pos := by
    rw [binaryInsertionSortBy_length, listSeg_length hre (by omega)]
  have hlen1 : slice1.length = slice.length := by
    rw [hs1]
    exact update_length (by omega) hre hMlen
  have htake1 : slice1.take pos = slice.take pos := by
    rw [hs1]
    exact update_take (by omega) hre
  have hdrop1 : slice1.drop runEnd = slice.drop runEnd := by
    rw [hs1]
    exact update_drop (by omega) hre hMlen
  have hseg1 : listSeg slice1 pos runEnd =
      refSort cmp (listSeg slice pos runEnd) := by
    rw [hs1]
    rw [show spliceSeg slice pos runEnd (binaryInsertionSortBy cmp true) =
        slice.take pos ++ binaryInsertionSortBy cmp true (listSeg slice pos runEnd) ++
          slice.drop runEnd from rfl]
    rw [update_seg (by omega) hre hMlen]
    exact binaryInsertionSortBy_asc _
  have hege : runEnd ≤ e := he ▸ extendRun_ge cmp true slice1 (slice.length - runEnd) runEnd
  have hele : e ≤ slice.length := by
    have := he ▸ extendRun_le cmp true slice1 (slice.length - runEnd) runEnd
    omega
  have hdrop1e : slice1.drop e = slice.drop e := drop_eq_of_drop_eq hdrop1 hege
  have hconds : ∀ idx, runEnd ≤ idx → idx < e →
      leB cmp (slice1.getD (idx - 1) default) (slice1.getD idx default) = true := by
    intro idx h1 h2
    have hc := extendRun_cond cmp true slice1 (slice.length - runEnd) runEnd idx h1
      (by rw [← he]; exact h2)
    rw [if_pos rfl] at hc
    exact hc
  have hadj : ∀ i, pos < i → i < e →
      leB cmp (slice1.getD (i - 1) default) (slice1.getD i default) = true := by
    intro i h1 h2
    rcases Nat.lt_or_ge i runEnd with hir | hir
    · exact adjacent_of_sortedCmp (by omega) (hseg1 ▸ refSort_sorted _) i h1 hir
    · exact hconds i hir h2
  have hsorted : SortedCmp cmp (listSeg slice1 pos e) :=
    sortedCmp_of_adjacent (by omega) hadj
  have hsegext : listSeg slice1 runEnd e = listSeg slice runEnd e :=
    listSeg_eq_of_drop_eq hdrop1 (Nat.le_refl _)
  have hfilter : ∀ k, (listSeg slice1 pos e).filter (eqvB cmp k) =
      (listSeg slice pos e).filter (eqvB cmp k) := by
    intro k
    rw [← listSeg_append (l := slice1) (Nat.le_of_lt hpr) hege,
      ← listSeg_append (l := slice) (Nat.le_of_lt hpr) hege,
      List.filter_append, List.filter_append, hseg1, filter_refSort, hsegext]
  refine ⟨hege, hele, hlen1, htake1, hdrop1e, ?_⟩
  refine eq_of_sorted_of_classes hsorted (refSort_sorted _) ?_
  intro k
  rw [hfilter k, filter_refSort]

theorem getSortedRun_desc [Inhabited α] (cmp : α → α → Ordering) [TransCmp cmp]
    (slice : List α) (pos runEnd : Nat) (hpr : pos < runEnd) (hre : runEnd ≤ slice.length)
    (slice1 : List α) (e : Nat) (slice2 : List α)
    (hs1 : slice1 = spliceSeg slice pos runEnd (binaryInsertionSortBy cmp false))
    (he : e = extendRun cmp false slice1 runEnd (slice.length - runEnd))
    (hs2 : slice2 = spliceSeg slice1 pos e List.reverse) :
    runEnd ≤ e ∧ e ≤ slice.length ∧ slice2.length = slice.length ∧
      slice2.take pos = slice.take pos ∧ slice2.drop e = slice.drop e ∧
      listSeg slice2 pos e = refSort cmp (listSeg slice pos e) := by
  have hMlen : (binaryInsertionSortBy cmp false (listSeg slice pos runEnd)).length
      = runEnd - pos := by
    rw [binaryInsertionSortBy_length, listSeg_length hre (by omega)]
  have hlen1 : slice1.length = slice.length := by
    rw [hs1]
    exact update_length (by omega) hre hMlen
  have htake1 : slice1.take pos = slice.take pos := by
    rw [hs1]
    exact update_take (by omega) hre
  have hdrop1 : slice1.drop runEnd = slice.drop runEnd := by
    rw [hs1]
    exact update_drop (by omega) hre hMlen
  have hseg1 : listSeg slice1 pos runEnd =
      binaryInsertionSortBy cmp false (listSeg slice pos runEnd) := by
    rw [hs1]
    rw [show spliceSeg slice pos runEnd (binaryInsertionSortBy cmp false) =
        slice.take pos ++ binaryInsertionSortBy cmp false (listSeg slice pos runEnd) ++
          slice.drop runEnd from rfl]
    exact update_seg (by omega) hre hMlen
  have hege : runEnd ≤ e := he ▸ extendRun_ge cmp false slice1 (slice.length - runEnd) runEnd
  have hele : e ≤ slice.length := by
    have := he ▸ extendRun_le cmp false slice1 (slice.length - runEnd) runEnd
    omega
  have hdrop1e : slice1.drop e = slice.drop e := drop_eq_of_drop_eq hdrop1 hege
  have hconds : ∀ idx, runEnd ≤ idx → idx < e →
      cmp (slice1.getD (idx - 1) default) (slice1.getD idx default) = .gt := by
    intro idx h1 h2
    have hc := extendRun_cond cmp false slice1 (slice.length - runEnd) runEnd idx h1
      (by rw [← he]; exact h2)
    rw [if_neg Bool.false_ne_true] at hc
    exact isGT_iff.mp hc
  have hgt2 : ∀ i j, runEnd - 1 ≤ i → i < j → j < e →
      cmp (slice1.getD i default) (slice1.getD j default) = .gt :=
    gt_chain_of_adjacent (fun i h1 h2 => hconds i (by omega) h2)
  have hsegext : listSeg slice1 runEnd e = listSeg slice runEnd e :=
    listSeg_eq_of_drop_eq hdrop1 (Nat.le_refl _)
  have hD1desc : SortedCmpDesc cmp (listSeg slice1 pos runEnd) := by
    rw [hseg1]
    exact binaryInsertionSortBy_desc_sorted _
  have hD1filter : ∀ k, (listSeg slice1 pos runEnd).filter (eqvB cmp k) =
      ((listSeg slice pos runEnd).filter (eqvB cmp k)).reverse := by
    intro k
    rw [hseg1]
    exact binaryInsertionSortBy_desc_filter _ k
  have hD2gt : (listSeg slice1 runEnd e).Pairwise (fun x y => cmp x y = .gt) := by
    rw [List.pairwise_iff_getElem]
    intro n1 n2 hn1 hn2 hlt
    have hl2 : n2 < e - runEnd := by
      have := hn2
      simp only [listSeg, List.length_take, List.length_drop] at this
      omega
    have g1 : (listSeg slice1 runEnd e)[n1] = slice1.getD (runEnd + n1) default :=
      listSeg_getElem hn1
    have g2 : (listSeg slice1 runEnd e)[n2] = slice1.getD (runEnd + n2) default :=
      listSeg_getElem hn2
    rw [g1, g2]
    exact hgt2 (runEnd + n1) (runEnd + n2) (by omega) (by omega) (by omega)
  have hcross : ∀ x ∈ listSeg slice1 pos runEnd, ∀ y ∈ listSeg slice1 runEnd e,
      cmp x y = .gt := by
    intro x hx y hy
    have hlast : leB cmp (slice1.getD (runEnd - 1) default) x = true :=
      desc_seg_ge_last (by omega) hD1desc hx
    obtain ⟨n, hn, hye⟩ := List.getElem_of_mem hy
    have hns : runEnd + n < e := by
      have := hn
      simp only [listSeg, List.length_take, List.length_drop] at this
      omega
    have gy : (listSeg slice1 runEnd e)[n] = slice1.getD (runEnd + n) default :=
      listSeg_getElem hn
    have hgty : cmp (slice1.getD (runEnd - 1) default) y = .gt := by
      rw [← hye, gy]
      exact hgt2 (runEnd - 1) (runEnd + n) (Nat.le_refl _) (by omega) hns
    have hylt : cmp y (slice1.getD (runEnd - 1) default) = .lt :=
      Batteries.OrientedCmp.cmp_eq_gt.mp hgty
    exact Batteries.OrientedCmp.cmp_eq_gt.mpr (lt_leB_trans hylt hlast)
  have hDdesc : (listSeg slice1 pos runEnd ++ listSeg slice1 runEnd e).Pairwise
      (fun a b => (cmp b a).isLE = true) := by
    rw [List.pairwise_append]
    refine ⟨hD1desc, ?_, ?_⟩
    · refine hD2gt.imp ?_
      intro a b hab
      rw [Batteries.OrientedCmp.cmp_eq_gt.mp hab]
      rfl
    · intro x hx y hy
      rw [Batteries.OrientedCmp.cmp_eq_gt.mp (hcross x hx y hy)]
      rfl
  have hsplitD : listSeg slice1 pos e =
      listSeg slice1 pos runEnd ++ listSeg slice1 runEnd e :=
    (listSeg_append (Nat.le_of_lt hpr) hege).symm
  have hM2len : (listSeg slice1 pos e).reverse.length = e - pos := by
    rw [List.length_reverse, listSeg_length (by omega) (by omega)]
  have hlen2 : slice2.length = slice.length := by
    rw [hs2, show spliceSeg slice1 pos e List.reverse =
      slice1.take pos ++ (listSeg slice1 pos e).reverse ++ slice1.drop e from rfl,
      update_length (by omega) (by omega) hM2len, hlen1]
  have htake2 : slice2.take pos = slice.take pos := by
    rw [hs2, show spliceSeg slice1 pos e List.reverse =
      slice1.take pos ++ (listSeg slice1 pos e).reverse ++ slice1.drop e from rfl,
      update_take (by omega) (by omega), htake1]
  have hdrop2 : slice2.drop e = slice.drop e := by
    rw [hs2, show spliceSeg slice1 pos e List.reverse =
      slice1.take pos ++ (listSeg slice1 pos e).reverse ++ slice1.drop e from rfl,
      update_drop (by omega) (by omega) hM2len, hdrop1e]
  have hseg2 : listSeg slice2 pos e = (listSeg slice1 pos e).reverse := by
    rw [hs2, show spliceSeg slice1 pos e List.reverse =
      slice1.take pos ++ (listSeg slice1 pos e).reverse ++ slice1.drop e from rfl]
    exact update_seg (by omega) (by omega) hM2len
  have hsorted : SortedCmp cmp (listSeg slice2 pos e) := by
    rw [hseg2, hsplitD]
    exact List.pairwise_reverse.mpr hDdesc
  have hfilter : ∀ k, (listSeg slice2 pos e).filter (eqvB cmp k) =
      (listSeg slice pos e).filter (eqvB cmp k) := by
    intro k
    have hRHS : (listSeg slice pos e).filter (eqvB cmp k) =
        (listSeg slice pos runEnd).filter (eqvB cmp k) ++
        (listSeg slice runEnd e).filter (eqvB cmp k) := by
      rw [← List.filter_append, listSeg_append (Nat.le_of_lt hpr) hege]
    rw [hseg2, hsplitD, List.filter_reverse, List.filter_append, List.reverse_append,
      hD1filter k, List.reverse_reverse, hRHS, hsegext]
    have hdisj : (listSeg slice runEnd e).filter (eqvB cmp k) = [] ∨
        (listSeg slice pos runEnd).filter (eqvB cmp k) = [] := by
      by_contra hcon
      push_neg at hcon
      obtain ⟨y, hy⟩ := List.exists_mem_of_ne_nil _ hcon.1
      obtain ⟨x, hx⟩ := List.exists_mem_of_ne_nil _ hcon.2
      have hyc := List.mem_filter.mp hy
      have hxc := List.mem_filter.mp hx
      have hx1 : x ∈ listSeg slice1 pos runEnd := by
        have hxf : x ∈ (listSeg slice1 pos runEnd).filter (eqvB cmp k) := by
          rw [hD1filter k, List.mem_reverse]
          exact List.mem_filter.mpr ⟨hxc.1, hxc.2⟩
        exact (List.mem_filter.mp hxf).1
      have hy1 : y ∈ listSeg slice1 runEnd e := by
        rw [hsegext]
        exact hyc.1
      have hgt := hcross x hx1 y hy1
      rw [eqv_cmp_eq hxc.2 hyc.2] at hgt
      exact absurd hgt (by simp)
    rcases hdisj with hd | hd
    · rw [hsegext] at hD2gt
      rw [hd]
      simp
    · rw [hd]
      simp only [List.append_nil, List.nil_append]
      rw [hsegext] at hD2gt
      exact filter_eqv_reverse_of_pairwise_gt hD2gt k
  refine ⟨hege, hele, hlen2, htake2, hdrop2, ?_⟩
  refine eq_of_sorted_of_classes hsorted (refSort_sorted _) ?_
  intro k
  rw [hfilter k, filter_refSort]

theorem getSortedRunFromSlice_spec [Inhabited α] (cmp : α → α → Ordering) [TransCmp cmp]
    (slice : List α) (pos minRunSize : Nat) (hpos : pos < slice.length)
    (hmrs : 1 ≤ minRunSize) :
    ∃ s e, getSortedRunFromSlice cmp slice pos minRunSize = (s, e) ∧
      pos < e ∧ e ≤ slice.length ∧ s.length = slice.length ∧
      s.take pos = slice.take pos ∧ s.drop e = slice.drop e ∧
      listSeg s pos e = refSort cmp (listSeg slice pos e) := by
  by_cases hlast : pos = slice.length - 1
  · refine ⟨slice, slice.length, ?_, hpos, Nat.le_refl _, rfl, rfl, rfl, ?_⟩
    · unfold getSortedRunFromSlice
      rw [if_pos hlast]
    · rw [listSeg_cons hpos hpos, listSeg_nil (by omega)]
      rfl
  · have hprE : pos < min (pos + minRunSize) slice.length := by omega
    have hreE : min (pos + minRunSize) slice.length ≤ slice.length := by omega
    by_cases hinc : (cmp (slice.getD pos default) (slice.getD (pos + 1) default)).isLE
        = true
    · obtain ⟨h1, h2, h3, h4, h5, h6⟩ := getSortedRun_asc cmp slice pos
        (min (pos + minRunSize) slice.length) hprE hreE _ _ rfl rfl
      refine ⟨_, _, ?_, by omega, h2, h3, h4, h5, h6⟩
      unfold getSortedRunFromSlice
      rw [if_neg hlast]
      dsimp only
      rw [hinc, if_pos rfl]
    · have hfalse : (cmp (slice.getD pos default) (slice.getD (pos + 1) default)).isLE
          = false := Bool.eq_false_iff.mpr hinc
      obtain ⟨h1, h2, h3, h4, h5, h6⟩ := getSortedRun_desc cmp slice pos
        (min (pos + minRunSize) slice.length) hprE hreE _ _ _ rfl rfl rfl
      refine ⟨_, _, ?_, by omega, h2, h3, h4, h5, h6⟩
      unfold getSortedRunFromSlice
      rw [if_neg hlast]
      dsimp only
      rw [hfalse, if_neg Bool.false_ne_true]

theorem runsCover_mem_bounds : ∀ {l : List Run} {size pos : Nat}, RunsCover size pos l →
    ∀ r ∈ l, pos ≤ r.1 ∧ r.1 < r.2 ∧ r.2 ≤ size
  | [], _, _, _, r, hr => absurd hr (by simp)
  | q :: rest, size, pos, hc, r, hr => by
    obtain ⟨hq1, hq2, hq3, hrest⟩ := hc
    rcases List.mem_cons.mp hr with heq | hr2
    · subst heq
      exact ⟨Nat.le_of_eq hq1.symm, by omega, hq3⟩
    · obtain ⟨b1, b2, b3⟩ := runsCover_mem_bounds hrest r hr2
      exact ⟨by omega, b2, b3⟩

theorem collectRuns_spec [Inhabited α] (cmp : α → α → Ordering) [TransCmp cmp]
    (size minRunSize : Nat) (hmrs : 1 ≤ minRunSize) :
    ∀ (fuel : Nat) (slice : List α) (pos : Nat), size = slice.length →
      pos ≤ size → size ≤ pos + fuel →
      (collectRuns cmp size minRunSize fuel slice pos).1.length = size ∧
      (collectRuns cmp size minRunSize fuel slice pos).1.take pos = slice.take pos ∧
      RunsCover size pos (collectRuns cmp size minRunSize fuel slice pos).2 ∧
      ∀ r ∈ (collectRuns cmp size minRunSize fuel slice pos).2,
        listSeg (collectRuns cmp size minRunSize fuel slice pos).1 r.1 r.2 =
          refSort cmp (listSeg slice r.1 r.2) := by
  intro fuel
  induction fuel with
  | zero =>
    intro slice pos hsz h1 h2
    unfold collectRuns
    refine ⟨hsz.symm, rfl, ?_, ?_⟩
    · show pos = size
      omega
    · intro r hr
      exact absurd hr (by simp)
  | succ fuel ih =>
    intro slice pos hsz h1 h2
    by_cases hps : pos < size
    · obtain ⟨s, e, heq, hlt, hle, hlen, htk, hdp, hseg⟩ :=
        getSortedRunFromSlice_spec cmp slice pos minRunSize (by omega) hmrs
      have hstep : collectRuns cmp size minRunSize (fuel + 1) slice pos =
          ((collectRuns cmp size minRunSize fuel s e).1,
            (pos, e) :: (collectRuns cmp size minRunSize fuel s e).2) := by
        simp only [collectRuns]
        rw [if_pos hps, heq]
      have hsz2 : size = s.length := by
        rw [hlen]
        exact hsz
      have hle2 : e ≤ size := by omega
      obtain ⟨ih1, ih2, ih3, ih4⟩ := ih s e hsz2 hle2 (by omega)
      rw [hstep]
      refine ⟨ih1, ?_, ⟨rfl, hlt, hle2, ih3⟩, ?_⟩
      · have e1 : (collectRuns cmp size minRunSize fuel s e).1.take pos =
            ((collectRuns cmp size minRunSize fuel s e).1.take e).take pos := by
          rw [List.take_take, Nat.min_eq_left (by omega)]
        rw [e1, ih2, List.take_take, Nat.min_eq_left (by omega), htk]
      · intro r hr
        rcases List.mem_cons.mp hr with heq2 | hr2
        · subst heq2
          rw [listSeg_eq_of_take_eq ih2 (Nat.le_refl e)]
          exact hseg
        · obtain ⟨hb1, hb2, hb3⟩ := runsCover_mem_bounds ih3 r hr2
          rw [ih4 r hr2, listSeg_eq_of_drop_eq hdp hb1]
    · simp only [collectRuns]
      rw [if_neg hps]
      refine ⟨hsz.symm, rfl, ?_, ?_⟩
      · show pos = size
        omega
      · intro r hr
        exact absurd hr (by simp)

/-! ### The merge phase preserves the stack invariant -/

theorem mergeTwoRun_update [Inhabited α] (cmp : α → α → Ordering) [TransCmp cmp]
    (orig slice : List α) (a b c : Nat) (hab : a < b) (hbc : b < c)
    (hc : c ≤ slice.length)
    (hX : listSeg slice a b = refSort cmp (listSeg orig a b))
    (hY : listSeg slice b c = refSort cmp (listSeg orig b c)) :
    mergeTwoRun cmp slice (a, b) (b, c) =
      slice.take a ++ refSort cmp (listSeg orig a c) ++ slice.drop c := by
  rw [mergeTwoRun_spec cmp slice a b c hab hbc hc
      (by rw [hX]; exact refSort_sorted _) (by rw [hY]; exact refSort_sorted _),
    hX, hY, merge_refSort, listSeg_append (by omega) (by omega)]

theorem mergeTwoRun_perm_of_sorted [Inhabited α] (cmp : α → α → Ordering)
    [TransCmp cmp] (orig slice : List α) (a b c : Nat) (hab : a < b) (hbc : b < c)
    (hc : c ≤ slice.length)
    (hX : listSeg slice a b = refSort cmp (listSeg orig a b))
    (hY : listSeg slice b c = refSort cmp (listSeg orig b c)) :
    (mergeTwoRun cmp slice (a, b) (b, c)).Perm slice := by
  rw [mergeTwoRun_update cmp orig slice a b c hab hbc hc hX hY]
  refine update_perm (by omega) ?_
  have h2 : listSeg slice a c =
      refSort cmp (listSeg orig a b) ++ refSort cmp (listSeg orig b c) := by
    rw [← listSeg_append (l := slice) (a := a) (b := b) (c := c) (by omega) (by omega),
      hX, hY]
  rw [h2]
  refine (refSort_perm _).trans ?_
  rw [← listSeg_append (l := orig) (a := a) (b := b) (c := c) (by omega) (by omega)]
  exact ((refSort_perm _).append (refSort_perm _)).symm

theorem covers_bounds : ∀ {stack : List Run} {e : Nat}, Covers stack e →
    ∀ r ∈ stack, r.1 < r.2 ∧ r.2 ≤ e
  | [], _, _, r, hr => absurd hr (by simp)
  | q :: rest, e, hc, r, hr => by
    obtain ⟨hq2, hq12, hrest⟩ := hc
    rcases List.mem_cons.mp hr with heq | hr2
    · subst heq
      exact ⟨hq12, Nat.le_of_eq hq2⟩
    · obtain ⟨b1, b2⟩ := covers_bounds hrest r hr2
      exact ⟨b1, by omega⟩

theorem keepRunStackInvariant_inv [Inhabited α] (cmp : α → α → Ordering) [TransCmp cmp]
    (orig : List α) :
    ∀ (fuel : Nat) (slice : List α) (stack : List Run) (top : Nat),
      slice.length = orig.length → Covers stack top → top ≤ orig.length →
      SegsSorted cmp orig slice stack →
      (keepRunStackInvariant cmp fuel slice stack).1.length = orig.length ∧
      Covers (keepRunStackInvariant cmp fuel slice stack).2 top ∧
      SegsSorted cmp orig (keepRunStackInvariant cmp fuel slice stack).1
        (keepRunStackInvariant cmp fuel slice stack).2 ∧
      (keepRunStackInvariant cmp fuel slice stack).1.drop top = slice.drop top ∧
      (keepRunStackInvariant cmp fuel slice stack).1.Perm slice := by
  intro fuel
  induction fuel with
  | zero =>
    intro slice stack top h1 h2 h3 h4
    exact ⟨h1, h2, h4, rfl, List.Perm.refl _⟩
  | succ fuel ih =>
    intro slice stack top h1 h2 h3 h4
    by_cases hok : isRunStackOk stack = true
    · rw [keepRunStackInvariant_succ, if_pos hok]
      exact ⟨h1, h2, h4, rfl, List.Perm.refl _⟩
    · rcases stack with _ | ⟨f, _ | ⟨s, _ | ⟨t, rest⟩⟩⟩
      · exact absurd rfl hok
      · exact absurd rfl hok
      · exact absurd rfl hok
      · obtain ⟨hf2, hf12, hcv1⟩ := h2
        obtain ⟨hs2, hs12, hcv2⟩ := hcv1
        obtain ⟨ht2, ht12, hcv3⟩ := hcv2
        have hcv2 : Covers (t :: rest) s.1 := ⟨ht2, ht12, hcv3⟩
        rw [keepRunStackInvariant_cons3 cmp fuel slice f s t rest hok]
        have hXf : listSeg slice f.1 f.2 = refSort cmp (listSeg orig f.1 f.2) :=
          h4 f (by simp)
        have hXs : listSeg slice s.1 s.2 = refSort cmp (listSeg orig s.1 s.2) :=
          h4 s (by simp)
        have hXt : listSeg slice t.1 t.2 = refSort cmp (listSeg orig t.1 t.2) :=
          h4 t (by simp)
        by_cases hgt : isRunGt t f = true
        · rw [if_pos hgt]
          have hsf : f = (s.2, f.2) := by rw [hs2]
          have hs' : s = (s.1, s.2) := rfl
          have hm : mergeTwoRun cmp slice s f =
              slice.take s.1 ++ refSort cmp (listSeg orig s.1 f.2) ++
                slice.drop f.2 := by
            conv_lhs => rw [hs', hsf]
            exact mergeTwoRun_update cmp orig slice s.1 s.2 f.2 hs12 (by omega)
              (by omega) hXs (by rw [hs2]; exact hXf)
          rw [hm]
          have hMlen : (refSort cmp (listSeg orig s.1 f.2)).length = f.2 - s.1 := by
            rw [(refSort_perm _).length_eq, listSeg_length (by omega) (by omega)]
          have hdp0 : (slice.take s.1 ++ refSort cmp (listSeg orig s.1 f.2) ++
              slice.drop f.2).drop f.2 = slice.drop f.2 :=
            update_drop (by omega) (by omega) hMlen
          have hdp : (slice.take s.1 ++ refSort cmp (listSeg orig s.1 f.2) ++
              slice.drop f.2).drop top = slice.drop top :=
            drop_eq_of_drop_eq hdp0 (by omega)
          have gall := ih
            (slice.take s.1 ++ refSort cmp (listSeg orig s.1 f.2) ++ slice.drop f.2)
            ((s.1, f.2) :: t :: rest) top
            (by rw [update_length (by omega) (by omega) hMlen]; exact h1)
            ⟨hf2, by omega, hcv2⟩ h3
            (by
              intro r hr
              rcases List.mem_cons.mp hr with heq | hr2
              · subst heq
                show listSeg _ s.1 f.2 = refSort cmp (listSeg orig s.1 f.2)
                rw [update_seg (by omega) (by omega) hMlen]
              · have hb := covers_bounds hcv2 r hr2
                rw [update_seg_left (by omega) (by omega) hb.2]
                exact h4 r (List.mem_cons_of_mem f (List.mem_cons_of_mem s hr2)))
          obtain ⟨g1, g2, g3, g4, g5⟩ := gall
          have hpm : (slice.take s.1 ++ refSort cmp (listSeg orig s.1 f.2) ++
              slice.drop f.2).Perm slice := by
            rw [← hm]
            conv_lhs => rw [hs', hsf]
            exact mergeTwoRun_perm_of_sorted cmp orig slice s.1 s.2 f.2 hs12 (by omega)
              (by omega) hXs (by rw [hs2]; exact hXf)
          exact ⟨g1, g2, g3, g4.trans hdp, g5.trans hpm⟩
        · rw [if_neg hgt]
          have ht' : t = (t.1, t.2) := rfl
          have hts : s = (t.2, s.2) := by rw [ht2]
          have hm : mergeTwoRun cmp slice t s =
              slice.take t.1 ++ refSort cmp (listSeg orig t.1 s.2) ++
                slice.drop s.2 := by
            conv_lhs => rw [ht', hts]
            exact mergeTwoRun_update cmp orig slice t.1 t.2 s.2 ht12 (by omega)
              (by omega) hXt (by rw [ht2]; exact hXs)
          rw [hm]
          have hMlen : (refSort cmp (listSeg orig t.1 s.2)).length = s.2 - t.1 := by
            rw [(refSort_perm _).length_eq, listSeg_length (by omega) (by omega)]
          have hdp0 : (slice.take t.1 ++ refSort cmp (listSeg orig t.1 s.2) ++
              slice.drop s.2).drop s.2 = slice.drop s.2 :=
            update_drop (by omega) (by omega) hMlen
          have hdp : (slice.take t.1 ++ refSort cmp (listSeg orig t.1 s.2) ++
              slice.drop s.2).drop top = slice.drop top :=
            drop_eq_of_drop_eq hdp0 (by omega)
          have gall := ih
            (slice.take t.1 ++ refSort cmp (listSeg orig t.1 s.2) ++ slice.drop s.2)
            (f :: (t.1, s.2) :: rest) top
            (by rw [update_length (by omega) (by omega) hMlen]; exact h1)
            ⟨hf2, hf12, hs2, by omega, hcv3⟩ h3
            (by
              intro r hr
              rcases List.mem_cons.mp hr with heq | hr2
              · subst heq
                rw [update_seg_right (by omega) (by omega) hMlen (by omega)]
                exact hXf
              · rcases List.mem_cons.mp hr2 with heq2 | hr3
                · subst heq2
                  show listSeg _ t.1 s.2 = refSort cmp (listSeg orig t.1 s.2)
                  rw [update_seg (by omega) (by omega) hMlen]
                · have hb := covers_bounds hcv3 r hr3
                  rw [update_seg_left (by omega) (by omega) hb.2]
                  exact h4 r (List.mem_cons_of_mem f (List.mem_cons_of_mem s
                    (List.mem_cons_of_mem t hr3))))
          obtain ⟨g1, g2, g3, g4, g5⟩ := gall
          have hpm : (slice.take t.1 ++ refSort cmp (listSeg orig t.1 s.2) ++
              slice.drop s.2).Perm slice := by
            rw [← hm]
            conv_lhs => rw [ht', hts]
            exact mergeTwoRun_perm_of_sorted cmp orig slice t.1 t.2 s.2 ht12 (by omega)
              (by omega) hXt (by rw [ht2]; exact hXs)
          exact ⟨g1, g2, g3, g4.trans hdp, g5.trans hpm⟩

theorem getMinRunSize_pos {n : Nat} (hn : 1 ≤ n) : 1 ≤ (getMinRunSize n).1 := by
  unfold getMinRunSize
  by_cases h : n < 64
  · rw [if_pos h]
    exact hn
  · rw [if_neg h]
    show 1 ≤ max (halveTo64 (n - 1) (n - 1) + 1) 32
    omega

theorem listSeg_whole (l : List α) : listSeg l 0 l.length = l := by
  simp [listSeg]

theorem buildRunStack_inv [Inhabited α] (cmp : α → α → Ordering) [TransCmp cmp]
    (orig : List α) (size : Nat) (hsz : size ≤ orig.length) :
    ∀ (runs : List Run) (slice : List α) (stack : List Run) (pos : Nat),
      slice.length = orig.length → Covers stack pos → RunsCover size pos runs →
      SegsSorted cmp orig slice stack →
      (∀ r ∈ runs, listSeg slice r.1 r.2 = refSort cmp (listSeg orig r.1 r.2)) →
      (buildRunStack cmp (slice, stack) runs).1.length = orig.length ∧
      Covers (buildRunStack cmp (slice, stack) runs).2 size ∧
      SegsSorted cmp orig (buildRunStack cmp (slice, stack) runs).1
        (buildRunStack cmp (slice, stack) runs).2 ∧
      (buildRunStack cmp (slice, stack) runs).1.Perm slice
  | [], slice, stack, pos, h1, h2, h3, h4, _ => by
    have hps : pos = size := h3
    subst hps
    exact ⟨h1, h2, h4, List.Perm.refl _⟩
  | r :: runs, slice, stack, pos, h1, h2, h3, h4, h5 => by
    obtain ⟨hr1, hr2, hr3, hrest⟩ := h3
    have hstep : buildRunStack cmp (slice, stack) (r :: runs) =
        buildRunStack cmp
          (keepRunStackInvariant cmp (r :: stack).length slice (r :: stack)) runs := rfl
    rw [hstep]
    have hcov : Covers (r :: stack) r.2 := ⟨rfl, by omega, hr1.symm ▸ h2⟩
    have hsegs : SegsSorted cmp orig slice (r :: stack) := by
      intro q hq
      rcases List.mem_cons.mp hq with heq | hq2
      · subst heq
        exact h5 q (List.mem_cons_self q runs)
      · exact h4 q hq2
    obtain ⟨g1, g2, g3, g4, g5⟩ := keepRunStackInvariant_inv cmp orig
      ((r :: stack).length) slice (r :: stack) r.2 h1 hcov (by omega) hsegs
    have hpend : ∀ rn ∈ runs,
        listSeg (keepRunStackInvariant cmp (r :: stack).length slice (r :: stack)).1
          rn.1 rn.2 = refSort cmp (listSeg orig rn.1 rn.2) := by
      intro rn hrn
      obtain ⟨hb1, hb2, hb3⟩ := runsCover_mem_bounds hrest rn hrn
      rw [listSeg_eq_of_drop_eq g4 hb1]
      exact h5 rn (List.mem_cons_of_mem r hrn)
    obtain ⟨k1, k2, k3, k4⟩ := buildRunStack_inv cmp orig size hsz runs
      (keepRunStackInvariant cmp (r :: stack).length slice (r :: stack)).1
      (keepRunStackInvariant cmp (r :: stack).length slice (r :: stack)).2
      r.2 g1 g2 hrest g3 hpend
    exact ⟨k1, k2, k3, k4.trans g5⟩

theorem finalMergeGo_inv [Inhabited α] (cmp : α → α → Ordering) [TransCmp cmp]
    (orig : List α) :
    ∀ (rest : List Run) (slice : List α) (cur : Run) (top : Nat),
      slice.length = orig.length → Covers (cur :: rest) top → top ≤ orig.length →
      SegsSorted cmp orig slice (cur :: rest) →
      (finalMergeGo cmp slice cur rest).length = orig.length ∧
      listSeg (finalMergeGo cmp slice cur rest) 0 top =
        refSort cmp (listSeg orig 0 top)
  | [], slice, cur, top, h1, h2, h3, h4 => by
    obtain ⟨hc2, hc12, hc0⟩ := h2
    have hz : cur.1 = 0 := hc0
    refine ⟨h1, ?_⟩
    show listSeg slice 0 top = refSort cmp (listSeg orig 0 top)
    rw [← hc2, ← hz]
    exact h4 cur (List.mem_cons_self cur [])
  | lastRun :: rest, slice, cur, top, h1, h2, h3, h4 => by
    obtain ⟨hc2, hc12, hcv1⟩ := h2
    obtain ⟨hl2, hl12, hcv2⟩ := hcv1
    have hXc : listSeg slice cur.1 cur.2 = refSort cmp (listSeg orig cur.1 cur.2) :=
      h4 cur (by simp)
    have hXl : listSeg slice lastRun.1 lastRun.2 =
        refSort cmp (listSeg orig lastRun.1 lastRun.2) :=
      h4 lastRun (by simp)
    have hl' : lastRun = (lastRun.1, lastRun.2) := rfl
    have hcc : cur = (lastRun.2, cur.2) := by rw [hl2]
    have hm : mergeTwoRun cmp slice lastRun cur =
        slice.take lastRun.1 ++ refSort cmp (listSeg orig lastRun.1 cur.2) ++
          slice.drop cur.2 := by
      conv_lhs => rw [hl', hcc]
      exact mergeTwoRun_update cmp orig slice lastRun.1 lastRun.2 cur.2 hl12
        (by omega) (by omega) hXl (by rw [hl2]; exact hXc)
    have hMlen : (refSort cmp (listSeg orig lastRun.1 cur.2)).length
        = cur.2 - lastRun.1 := by
      rw [(refSort_perm _).length_eq, listSeg_length (by omega) (by omega)]
    have hstep : finalMergeGo cmp slice cur (lastRun :: rest) =
        finalMergeGo cmp (mergeTwoRun cmp slice lastRun cur)
          (lastRun.1, cur.2) rest := rfl
    rw [hstep, hm]
    refine finalMergeGo_inv cmp orig rest _ (lastRun.1, cur.2) top ?_ ?_ h3 ?_
    · rw [update_length (by omega) (by omega) hMlen]
      exact h1
    · exact ⟨hc2, by omega, hcv2⟩
    · intro q hq
      rcases List.mem_cons.mp hq with heq | hq2
      · subst heq
        show listSeg _ lastRun.1 cur.2 = refSort cmp (listSeg orig lastRun.1 cur.2)
        rw [update_seg (by omega) (by omega) hMlen]
      · have hb := covers_bounds hcv2 q hq2
        rw [update_seg_left (by omega) (by omega) hb.2]
        exact h4 q (List.mem_cons_of_mem cur (List.mem_cons_of_mem lastRun hq2))

theorem timSortBy_cases [Inhabited α] (cmp : α → α → Ordering) (l : List α) :
    timSortBy cmp l =
      if (collectRuns cmp l.length (getMinRunSize l.length).1 l.length l 0).2.length = 1
      then (collectRuns cmp l.length (getMinRunSize l.length).1 l.length l 0).1
      else
        finalMergeLoop cmp
          (buildRunStack cmp
            ((collectRuns cmp l.length (getMinRunSize l.length).1 l.length l 0).1, [])
            (collectRuns cmp l.length (getMinRunSize l.length).1 l.length l 0).2).1
          (buildRunStack cmp
            ((collectRuns cmp l.length (getMinRunSize l.length).1 l.length l 0).1, [])
            (collectRuns cmp l.length (getMinRunSize l.length).1 l.length l 0).2).2 :=
  rfl

/-- The central correctness theorem: under a strict-weak-ordering comparator,
`tim_sort_by` computes exactly the reference stable sort. -/
theorem timSortBy_eq_refSort [Inhabited α] (cmp : α → α → Ordering) [TransCmp cmp]
    (l : List α) : timSortBy cmp l = refSort cmp l := by
  by_cases hnil : l.length = 0
  · have hl : l = [] := List.length_eq_zero.mp hnil
    subst hl
    rfl
  · have hsz1 : 1 ≤ l.length := by omega
    have hmrs := getMinRunSize_pos hsz1
    rw [timSortBy_cases cmp l]
    obtain ⟨c1, c2, c3, c4⟩ := collectRuns_spec cmp l.length (getMinRunSize l.length).1
      hmrs l.length l 0 rfl (by omega) (by omega)
    set sr := collectRuns cmp l.length (getMinRunSize l.length).1 l.length l 0 with hsr
    by_cases hone : sr.2.length = 1
    · rw [if_pos hone]
      obtain ⟨r, hr⟩ := List.length_eq_one.mp hone
      rw [hr] at c3
      obtain ⟨hq1, hq2, hq3, hq4⟩ := c3
      have hq4' : r.2 = l.length := hq4
      have hseg := c4 r (by rw [hr]; exact List.mem_cons_self r [])
      rw [hq1, hq4'] at hseg
      rw [listSeg_whole l] at hseg
      rw [← c1] at hseg
      rw [listSeg_whole] at hseg
      exact hseg
    · rw [if_neg hone]
      obtain ⟨b1, b2, b3, b4⟩ := buildRunStack_inv cmp l l.length (Nat.le_refl _) sr.2 sr.1
        [] 0 c1 rfl c3 (fun r hr => absurd hr (by simp)) c4
      set st := buildRunStack cmp (sr.1, []) sr.2 with hst
      cases hst2 : st.2 with
      | nil =>
        rw [hst2] at b2
        have hz : l.length = 0 := b2
        omega
      | cons cur rest =>
        rw [hst2] at b2 b3
        obtain ⟨f1, f2⟩ := finalMergeGo_inv cmp l rest st.1 cur l.length b1 b2
          (Nat.le_refl _) b3
        rw [show finalMergeLoop cmp st.1 (cur :: rest) = finalMergeGo cmp st.1 cur rest
          from rfl]
        rw [listSeg_whole l] at f2
        rw [← f1] at f2
        rw [listSeg_whole] at f2
        exact f2

/-- C1: for every finite slice and every comparator behaving as a strict weak
ordering, after `tim_sort_by` the slice is non-decreasing with respect to the
comparator; with an element type's total order, so is `tim_sort`. -/
theorem timSortBy_sorted {β : Type _} [Inhabited α] [Inhabited β] [Ord β]
    (cmp : α → α → Ordering) [TransCmp cmp]
    [TransCmp (compare : β → β → Ordering)] (l : List α) (l' : List β) :
    SortedCmp cmp (timSortBy cmp l) ∧ SortedCmp compare (timSort l') := by
  constructor
  · rw [timSortBy_eq_refSort]
    exact refSort_sorted _
  · rw [show timSort l' = timSortBy compare l' from rfl, timSortBy_eq_refSort]
    exact refSort_sorted _

/-- C1 (witness): the claim applied to a concrete slice for `tim_sort_by`
with the `Nat` order and a concrete `Int` slice for `tim_sort`. -/
theorem timSortBy_sorted_witness :
    SortedCmp compare (timSortBy compare [3, 1, 2, 1]) ∧
    SortedCmp compare (timSort ([2, 2, 1, -5] : List Int)) :=
  timSortBy_sorted compare [3, 1, 2, 1] ([2, 2, 1, -5] : List Int)

/-- C2: `tim_sort_by` is stable: for every key `k`, the subsequence of
elements whose comparison with `k` is `Equal` (one comparator-equivalence
class) is exactly the same, in the same order, before and after the sort. -/
theorem timSortBy_stable [Inhabited α] (cmp : α → α → Ordering) [TransCmp cmp]
    (l : List α) (k : α) :
    (timSortBy cmp l).filter (eqvB cmp k) = l.filter (eqvB cmp k) := by
  rw [timSortBy_eq_refSort]
  exact filter_refSort k l

/-- C2 (witness): sorting key-value pairs by key keeps the two distinct
pairs with equal keys in input order. -/
theorem timSortBy_stable_witness :
    (timSortBy keyCmp [(2, 0), (1, 0), (1, 1), (2, 1)]).filter
        (eqvB keyCmp (1, 5)) =
      ([(2, 0), (1, 0), (1, 1), (2, 1)] : List (Nat × Nat)).filter
        (eqvB keyCmp (1, 5)) :=
  timSortBy_stable keyCmp [(2, 0), (1, 0), (1, 1), (2, 1)] (1, 5)

/-- C3 (counterexample): the claim quantifies over *every* comparator, but
with the pure yet inconsistent comparator `cmpBad` (not a strict weak
ordering) `tim_sort_by` on `List.range 66` duplicates one element and loses
another, so the output is not a permutation of the input.  The embedded
`partition_point` calls are evaluated on genuinely partitioned slices here,
so the counterexample transfers to the Rust code. -/
theorem timSortBy_perm_claim_cex :
    ¬ (timSortBy cmpBad (List.range 66)).Perm (List.range 66) := by
  decide

/-- C3 (amended): under a comparator that behaves as a strict weak ordering,
the slice after `tim_sort_by` is a permutation of the slice before — no
element lost or duplicated. -/
theorem timSortBy_perm [Inhabited α] (cmp : α → α → Ordering) [TransCmp cmp]
    (l : List α) : (timSortBy cmp l).Perm l := by
  rw [timSortBy_eq_refSort]
  exact refSort_perm l

/-- C3 (witness): the amended statement on a concrete slice. -/
theorem timSortBy_perm_witness : (timSortBy compare [5, 2, 2, 9, 1]).Perm [5, 2, 2, 9, 1] :=
  timSortBy_perm compare [5, 2, 2, 9, 1]

/-! ### C10: run 1 is never exhausted before run 2 in the merge loop -/

theorem mergeLoopRun1Ok_true [Inhabited α] (cmp : α → α → Ordering) [TransCmp cmp]
    (slice : List α) (r1e r2e : Nat) (hlen : r2e ≤ slice.length)
    (hcross : ∀ yi, r1e ≤ yi → yi < r2e →
      cmp (slice.getD yi default) (slice.getD (r1e - 1) default) = .lt) :
    ∀ (fuel i j k s1 s2 mg : Nat),
      i ≤ r1e → r1e ≤ j → j ≤ r2e → k + r1e = i + j → r2e - k ≤ fuel →
      (j < r2e → i < r1e) →
      SortedCmp cmp (listSeg slice i r1e) → SortedCmp cmp (listSeg slice j r2e) →
      mergeLoopRun1Ok cmp slice r1e r2e i j k s1 s2 mg fuel = true
  | 0, i, j, k, s1, s2, mg, hi, hj1, hj2, hk, hfuel, _, _, _ => by
    rw [mergeLoopRun1Ok]
  | fuel + 1, i, j, k, s1, s2, mg, hi, hj1, hj2, hk, hfuel, hc10, hX, hY => by
    rw [mergeLoopRun1Ok]
    by_cases hk2 : k < r2e
    swap
    · rw [if_neg hk2]
    rw [if_pos hk2]
    by_cases hj : j = r2e
    · rw [if_pos hj]
      exact mergeLoopRun1Ok_true cmp slice r1e r2e hlen hcross fuel
        (i + (r1e - i)) j (k + (r1e - i)) s1 0 mg (by omega) hj1 hj2 (by omega)
        (by omega) (by omega)
        (by rw [show i + (r1e - i) = r1e from by omega, listSeg_nil (Nat.le_refl r1e)]
            exact List.Pairwise.nil) hY
    · rw [if_neg hj]
      have hjlt : j < r2e := by omega
      have hi1 : i < r1e := hc10 hjlt
      rw [if_pos hi1]
      have hilen : i < slice.length := by omega
      have hjlen : j < slice.length := by omega
      have hr1pos : 1 ≤ r1e := by omega
      have hlast : cmp (slice.getD j default) (slice.getD (r1e - 1) default) = .lt :=
        hcross j hj1 hjlt
      by_cases hle : (cmp (slice.getD i default) (slice.getD j default)).isLE = true
      · rw [if_pos hle]
        have hq0 : (fun x => (cmp x (slice.getD j default)).isLE) (slice.getD i default)
            = true := hle
        have hchar := takeWhile_boundary_char slice i r1e (by omega) hX
          (fun x => (cmp x (slice.getD j default)).isLE)
          (fun x y hxy hqy => leB_trans hxy hqy)
        set L := ((listSeg slice i r1e).takeWhile
          (fun x => (cmp x (slice.getD j default)).isLE)).length with hL
        have hLlen : L ≤ r1e - i := by
          have := ((listSeg slice i r1e).takeWhile_sublist
            (fun x => (cmp x (slice.getD j default)).isLE)).length_le
          rw [listSeg_length (by omega) (by omega)] at this
          omega
        have hL1 : 1 ≤ L := by
          have := (hchar i (Nat.le_refl i) hi1).mp hq0
          omega
        have hLlt : i + L < r1e := by
          have hql : (cmp (slice.getD (r1e - 1) default) (slice.getD j default)).isLE
              = false := by
            have : cmp (slice.getD (r1e - 1) default) (slice.getD j default) = .gt :=
              Batteries.OrientedCmp.cmp_eq_gt.mpr hlast
            rw [this]
            rfl
          have hb : (cmp (slice.getD (r1e - 1) default) (slice.getD j default)).isLE
              = true ↔ r1e - 1 < i + L := hchar (r1e - 1) (by omega) (by omega)
          rw [hql] at hb
          have hge : ¬ (r1e - 1 < i + L) := fun hh => absurd (hb.mpr hh) (by simp)
          omega
        by_cases hgal : mg ≤ s1
        · rw [if_pos hgal]
          dsimp only
          have hcnt : gallopingCount slice j i r1e
              (fun r1 t => (cmp r1 t).isLE) = (i + L) - i :=
            gallopingCount_spec slice j i r1e _ (i + L) (by omega) (by omega) (by omega)
              (fun idx h1 h2 => hchar idx h1 h2)
          have hcnt' : gallopingCount slice j i r1e
              (fun r1 t => (cmp r1 t).isLE) = L := by omega
          rw [hcnt']
          exact mergeLoopRun1Ok_true cmp slice r1e r2e hlen hcross fuel
            (i + L) j (k + L) s1 0 (updateMinGallop mg L) (by omega) hj1 hj2 (by omega)
            (by omega) (fun _ => by omega) (sortedCmp_suffix L hX) hY
        · rw [if_neg hgal]
          have hi2 : i + 1 < r1e := by
            rcases Nat.lt_or_ge (i + 1) r1e with h | h
            · exact h
            · exfalso
              have : i = r1e - 1 := by omega
              subst this
              have : cmp (slice.getD (r1e - 1) default) (slice.getD j default) = .gt :=
                Batteries.OrientedCmp.cmp_eq_gt.mpr hlast
              rw [this] at hle
              exact absurd hle (by simp [Ordering.isLE])
          exact mergeLoopRun1Ok_true cmp slice r1e r2e hlen hcross fuel
            (i + 1) j (k + 1) (s1 + 1) 0 mg (by omega) hj1 hj2 (by omega)
            (by omega) (fun _ => hi2) (sortedCmp_suffix 1 hX) hY
      · rw [if_neg hle]
        have hlef : (cmp (slice.getD i default) (slice.getD j default)).isLE = false := by
          rw [← Bool.not_eq_true]
          exact hle
        have hylt : cmp (slice.getD j default) (slice.getD i default) = .lt :=
          leB_lt_of_not hlef
        have hq0 : (fun y => (cmp y (slice.getD i default)).isLT) (slice.getD j default)
            = true := by
          show (cmp (slice.getD j default) (slice.getD i default)).isLT = true
          rw [hylt]
          rfl
        have hchar := takeWhile_boundary_char slice j r2e hlen hY
          (fun y => (cmp y (slice.getD i default)).isLT)
          (fun x y hxy hqy => by
            show (cmp x (slice.getD i default)).isLT = true
            rw [isLT_iff] at hqy ⊢
            exact leB_lt_trans hxy hqy)
        set L := ((listSeg slice j r2e).takeWhile
          (fun y => (cmp y (slice.getD i default)).isLT)).length with hL
        have hLlen : L ≤ r2e - j := by
          have := ((listSeg slice j r2e).takeWhile_sublist
            (fun y => (cmp y (slice.getD i default)).isLT)).length_le
          rw [listSeg_length hlen (by omega)] at this
          omega
        have hL1 : 1 ≤ L := by
          have := (hchar j (Nat.le_refl j) hjlt).mp hq0
          omega
        by_cases hgal : mg ≤ s2
        · rw [if_pos hgal]
          dsimp only
          have hcnt : gallopingCount slice i j r2e
              (fun r2 t => (cmp r2 t).isLT) = (j + L) - j :=
            gallopingCount_spec slice i j r2e _ (j + L) (by omega) (by omega) hlen
              (fun idx h1 h2 => hchar idx h1 h2)
          have hcnt' : gallopingCount slice i j r2e
              (fun r2 t => (cmp r2 t).isLT) = L := by omega
          rw [hcnt']
          exact mergeLoopRun1Ok_true cmp slice r1e r2e hlen hcross fuel
            i (j + L) (k + L) 0 s2 (updateMinGallop mg L) hi (by omega) (by omega)
            (by omega) (by omega) (fun _ => hi1) hX (sortedCmp_suffix L hY)
        · rw [if_neg hgal]
          exact mergeLoopRun1Ok_true cmp slice r1e r2e hlen hcross fuel
            i (j + 1) (k + 1) 0 (s2 + 1) mg hi (by omega) (by omega)
            (by omega) (by omega) (fun _ => hi1) hX (sortedCmp_suffix 1 hY)

/-- C10: in `merge_two_run` on two adjacent sorted runs, after the
binary-search narrowing, run 1 is never exhausted before run 2 inside the main
merge loop: whenever an iteration starts with `k < run2.1` and `j ≠ run2.1`,
the left cursor satisfies `i < run1.1`, so every index the loop reads is in
its run and the `i == run1.1` remainder branch is unreachable (checked by the
instrumented mirror `mergeLoopRun1Ok` of the loop). -/
theorem mergeTwoRunSafe_true [Inhabited α] (cmp : α → α → Ordering) [TransCmp cmp]
    (slice : List α) (a b c : Nat) (hab : a < b) (hbc : b < c) (hc : c ≤ slice.length)
    (h1 : SortedCmp cmp (listSeg slice a b)) (h2 : SortedCmp cmp (listSeg slice b c)) :
    mergeTwoRunSafe cmp slice (a, b) (b, c) = true := by
  have hblen : b ≤ slice.length := by omega
  have hchar1 := takeWhile_boundary_char slice a b hblen h1
    (fun x => (cmp x (slice.getD b default)).isLE)
    (fun x y hxy hqy => leB_trans hxy hqy)
  have hchar2 := takeWhile_boundary_char slice b c hc h2
    (fun y => (cmp y (slice.getD (b - 1) default)).isLT)
    (fun x y hxy hqy => by
      show (cmp x (slice.getD (b - 1) default)).isLT = true
      rw [isLT_iff] at hqy ⊢
      exact leB_lt_trans hxy hqy)
  have hL1le : ((listSeg slice a b).takeWhile
      (fun x => (cmp x (slice.getD b default)).isLE)).length ≤ b - a := by
    have := ((listSeg slice a b).takeWhile_sublist
      (fun x => (cmp x (slice.getD b default)).isLE)).length_le
    rw [listSeg_length hblen (by omega)] at this
    omega
  have hL2le : ((listSeg slice b c).takeWhile
      (fun y => (cmp y (slice.getD (b - 1) default)).isLT)).length ≤ c - b := by
    have := ((listSeg slice b c).takeWhile_sublist
      (fun y => (cmp y (slice.getD (b - 1) default)).isLT)).length_le
    rw [listSeg_length hc (by omega)] at this
    omega
  have hm1 : (mergeShrink cmp slice (a, b) (b, c)).1 =
      a + ((listSeg slice a b).takeWhile
        (fun x => (cmp x (slice.getD b default)).isLE)).length := by
    show partitionPoint _ _ + a = _
    unfold partitionPoint
    dsimp only
    omega
  have hm2 : (mergeShrink cmp slice (a, b) (b, c)).2 =
      b + ((listSeg slice b c).takeWhile
        (fun y => (cmp y (slice.getD (b - 1) default)).isLT)).length := by
    show partitionPoint _ _ + b = _
    unfold partitionPoint
    dsimp only
    omega
  obtain ⟨m1, hm1v⟩ : ∃ m1, a + ((listSeg slice a b).takeWhile
      (fun x => (cmp x (slice.getD b default)).isLE)).length = m1 := ⟨_, rfl⟩
  obtain ⟨m2, hm2v⟩ : ∃ m2, b + ((listSeg slice b c).takeWhile
      (fun y => (cmp y (slice.getD (b - 1) default)).isLT)).length = m2 := ⟨_, rfl⟩
  rw [hm1v] at hm1
  rw [hm2v] at hm2
  rw [hm1v] at hchar1
  rw [hm2v] at hchar2
  have hcross : ∀ yi, b ≤ yi → yi < m2 →
      cmp (slice.getD yi default) (slice.getD (b - 1) default) = .lt := by
    intro yi hy1 hy2
    have := (hchar2 yi hy1 (by omega)).mpr (by omega)
    rw [isLT_iff] at this
    exact this
  have hC10 : b < m2 → m1 < b := by
    intro hm2lt
    by_contra hge
    have hq1 : (cmp (slice.getD (b - 1) default) (slice.getD b default)).isLE = true :=
      (hchar1 (b - 1) (by omega) (by omega)).mpr (by omega)
    have hq2 : cmp (slice.getD b default) (slice.getD (b - 1) default) = .lt :=
      hcross b (Nat.le_refl b) hm2lt
    have hgt : cmp (slice.getD (b - 1) default) (slice.getD b default) = .gt :=
      Batteries.OrientedCmp.cmp_eq_gt.mpr hq2
    rw [hgt] at hq1
    exact absurd hq1 (by simp [Ordering.isLE])
  have hsortX : SortedCmp cmp (listSeg slice m1 b) := by
    have := sortedCmp_suffix (m1 - a) h1
    rw [show a + (m1 - a) = m1 from by omega] at this
    exact this
  have hsortY : SortedCmp cmp (listSeg slice b m2) := sortedCmp_prefix m2 (by omega) h2
  show mergeLoopRun1Ok cmp slice b (mergeShrink cmp slice (a, b) (b, c)).2
      (mergeShrink cmp slice (a, b) (b, c)).1 b (mergeShrink cmp slice (a, b) (b, c)).1
      0 0 3 ((mergeShrink cmp slice (a, b) (b, c)).2 -
        (mergeShrink cmp slice (a, b) (b, c)).1) = true
  exact mergeLoopRun1Ok_true cmp slice b (mergeShrink cmp slice (a, b) (b, c)).2
    (by omega) (by rw [hm2]; exact fun yi hy1 hy2 => hcross yi hy1 (by omega))
    ((mergeShrink cmp slice (a, b) (b, c)).2 - (mergeShrink cmp slice (a, b) (b, c)).1)
    (mergeShrink cmp slice (a, b) (b, c)).1 b (mergeShrink cmp slice (a, b) (b, c)).1
    0 0 3 (by omega) (Nat.le_refl b) (by omega) (by omega) (by omega)
    (by rw [hm1, hm2]; exact hC10)
    (by rw [hm1]; exact hsortX) (by rw [hm2]; exact hsortY)

/-- C10 (witness): the instrumented merge loop reports no out-of-run access on
a concrete pair of adjacent sorted runs. -/
theorem mergeTwoRunSafe_true_witness :
    (0 : Nat) < 3 ∧ (3 : Nat) < 6 ∧ 6 ≤ ([5, 6, 7, 1, 2, 3] : List Nat).length ∧
    SortedCmp compare (listSeg ([5, 6, 7, 1, 2, 3] : List Nat) 0 3) ∧
    SortedCmp compare (listSeg ([5, 6, 7, 1, 2, 3] : List Nat) 3 6) ∧
    mergeTwoRunSafe compare ([5, 6, 7, 1, 2, 3] : List Nat) (0, 3) (3, 6) = true :=
  ⟨by decide, by decide, by decide, by unfold SortedCmp; decide,
    by unfold SortedCmp; decide,
    mergeTwoRunSafe_true compare [5, 6, 7, 1, 2, 3] 0 3 6 (by decide) (by decide)
      (by decide) (by unfold SortedCmp; decide) (by unfold SortedCmp; decide)⟩

/-! ### Simulation of the panic-modelling pipeline -/

theorem partitionPointE_sim {pred : α → Bool} {predE : α → Option Bool}
    (hag : ∀ x b, predE x = some b → pred x = b) :
    ∀ (l : List α) (n : Nat), partitionPointE predE l = .ok n →
      n = partitionPoint pred l
  | [], n, h => by
    simp only [partitionPointE] at h
    cases h
    rfl
  | x :: xs, n, h => by
    simp only [partitionPointE] at h
    cases hx : predE x with
    | none =>
      rw [hx] at h
      exact absurd h (by simp)
    | some b =>
      rw [hx] at h
      have hpx : pred x = b := hag x b hx
      cases b with
      | false =>
        cases h
        unfold partitionPoint
        simp [List.takeWhile_cons, hpx]
      | true =>
        cases hrec : partitionPointE predE xs with
        | error e =>
          rw [hrec] at h
          exact absurd h (by simp)
        | ok m =>
          rw [hrec] at h
          cases h
          have hm := partitionPointE_sim hag xs m hrec
          unfold partitionPoint at hm ⊢
          simp [List.takeWhile_cons, hpx, hm]

theorem binStepE_sim [Inhabited α] {pcmp : α → α → Option Ordering}
    {cmp : α → α → Ordering} (hA : Agree pcmp cmp) (isInc : Bool)
    (slice : List α) (curPos : Nat) (s2 : List α)
    (h : binStepE pcmp isInc slice curPos = .ok s2) :
    s2 = binStep cmp isInc slice curPos := by
  unfold binStepE at h
  dsimp only at h
  unfold binStep
  dsimp only
  cases isInc with
  | true =>
    rw [if_pos rfl] at h ⊢
    cases hpp : partitionPointE (fun x =>
        (pcmp x (slice.getD curPos default)).map Ordering.isLE) (slice.take curPos) with
    | error e =>
      rw [hpp] at h
      exact absurd h (by simp)
    | ok ip =>
      rw [hpp] at h
      cases h
      have hag : ∀ x b, (pcmp x (slice.getD curPos default)).map Ordering.isLE = some b →
          (cmp x (slice.getD curPos default)).isLE = b := by
        intro x b hb
        obtain ⟨o, ho, hob⟩ := Option.map_eq_some'.mp hb
        rw [hA x _ o ho]
        exact hob
      have hip := partitionPointE_sim hag _ ip hpp
      rw [← hip]
  | false =>
    rw [if_neg Bool.false_ne_true] at h ⊢
    cases hpp : partitionPointE (fun x =>
        (pcmp x (slice.getD curPos default)).map Ordering.isGT) (slice.take curPos) with
    | error e =>
      rw [hpp] at h
      exact absurd h (by simp)
    | ok ip =>
      rw [hpp] at h
      cases h
      have hag : ∀ x b, (pcmp x (slice.getD curPos default)).map Ordering.isGT = some b →
          (cmp x (slice.getD curPos default)).isGT = b := by
        intro x b hb
        obtain ⟨o, ho, hob⟩ := Option.map_eq_some'.mp hb
        rw [hA x _ o ho]
        exact hob
      have hip := partitionPointE_sim hag _ ip hpp
      rw [← hip]

theorem binSortGoE_cases [Inhabited α] {pcmp : α → α → Option Ordering}
    {cmp : α → α → Ordering} (hA : Agree pcmp cmp) (isInc : Bool) :
    ∀ (ps : List Nat) (slice : List α),
      binSortGoE pcmp isInc ps slice = .ok (ps.foldl (binStep cmp isInc) slice) ∨
      ∃ s, binSortGoE pcmp isInc ps slice = .error s ∧ s.Perm slice
  | [], slice => Or.inl rfl
  | p :: ps, slice => by
    simp only [binSortGoE]
    cases hb : binStepE pcmp isInc slice p with
    | error e => exact Or.inr ⟨slice, rfl, List.Perm.refl _⟩
    | ok s2 =>
      have hs2 : s2 = binStep cmp isInc slice p := binStepE_sim hA isInc slice p s2 hb
      rcases binSortGoE_cases hA isInc ps s2 with hok | ⟨s, hs, hperm⟩
      · left
        show binSortGoE pcmp isInc ps s2 = _
        rw [hok, hs2]
        rfl
      · right
        refine ⟨s, ?_, hperm.trans ?_⟩
        · show binSortGoE pcmp isInc ps s2 = _
          exact hs
        · rw [hs2]
          exact binStep_perm cmp isInc slice p

theorem extendRunE_sim [Inhabited α] {pcmp : α → α → Option Ordering}
    {cmp : α → α → Ordering} (hA : Agree pcmp cmp) (isInc : Bool) (slice : List α) :
    ∀ (fuel pos e : Nat), extendRunE pcmp isInc slice pos fuel = .ok e →
      e = extendRun cmp isInc slice pos fuel
  | 0, pos, e, h => by
    simp only [extendRunE] at h
    cases h
    rfl
  | fuel + 1, pos, e, h => by
    simp only [extendRunE] at h
    cases hp : pcmp (slice.getD (pos - 1) default) (slice.getD pos default) with
    | none =>
      rw [hp] at h
      exact absurd h (by simp)
    | some o =>
      rw [hp] at h
      dsimp only at h
      have ho := hA _ _ o hp
      unfold extendRun
      rw [ho]
      by_cases hc : (if isInc then o.isLE else o.isGT) = true
      · rw [if_pos hc] at h ⊢
        exact extendRunE_sim hA isInc slice fuel (pos + 1) e h
      · rw [if_neg hc] at h ⊢
        cases h
        rfl

theorem getSortedRunFromSliceE_cases [Inhabited α] {pcmp : α → α → Option Ordering}
    {cmp : α → α → Ordering} (hA : Agree pcmp cmp) (slice : List α)
    (pos minRunSize : Nat) (hpos : pos ≤ slice.length) :
    getSortedRunFromSliceE pcmp slice pos minRunSize =
      .ok (getSortedRunFromSlice cmp slice pos minRunSize) ∨
    ∃ s, getSortedRunFromSliceE pcmp slice pos minRunSize = .error s ∧ s.Perm slice := by
  unfold getSortedRunFromSliceE getSortedRunFromSlice
  dsimp only
  by_cases hlast : pos = slice.length - 1
  · rw [if_pos hlast, if_pos hlast]
    exact Or.inl rfl
  · rw [if_neg hlast, if_neg hlast]
    cases hp : pcmp (slice.getD pos default) (slice.getD (pos + 1) default) with
    | none => exact Or.inr ⟨slice, rfl, List.Perm.refl _⟩
    | some o =>
      have ho := hA _ _ o hp
      rw [ho]
      dsimp only
      have hbsE := binSortGoE_cases hA o.isLE
        (List.range' 1 ((listSeg slice pos (min (pos + minRunSize) slice.length)).length - 1))
        (listSeg slice pos (min (pos + minRunSize) slice.length))
      rcases hbsE with hok | ⟨es, hes, hesp⟩
      · have hok2 : binaryInsertionSortByE pcmp o.isLE
            (listSeg slice pos (min (pos + minRunSize) slice.length)) =
            .ok (binaryInsertionSortBy cmp o.isLE
              (listSeg slice pos (min (pos + minRunSize) slice.length))) := hok
        rw [hok2]
        dsimp only
        cases he : extendRunE pcmp o.isLE
            (slice.take pos ++ binaryInsertionSortBy cmp o.isLE
              (listSeg slice pos (min (pos + minRunSize) slice.length)) ++
              slice.drop (min (pos + minRunSize) slice.length))
            (min (pos + minRunSize) slice.length)
            (slice.length - min (pos + minRunSize) slice.length) with
        | error u =>
          refine Or.inr ⟨_, rfl, ?_⟩
          exact update_perm (by omega) (binaryInsertionSortBy_perm cmp o.isLE _)
        | ok e1 =>
          have he2 := extendRunE_sim hA o.isLE _ _ _ e1 he
          rw [he2]
          exact Or.inl rfl
      · have hes2 : binaryInsertionSortByE pcmp o.isLE
            (listSeg slice pos (min (pos + minRunSize) slice.length)) = .error es := hes
        rw [hes2]
        refine Or.inr ⟨_, rfl, ?_⟩
        exact update_perm (by omega) hesp

theorem collectRunsE_cases [Inhabited α] {pcmp : α → α → Option Ordering}
    {cmp : α → α → Ordering} (hA : Agree pcmp cmp) (size minRunSize : Nat) :
    ∀ (fuel : Nat) (slice : List α) (pos : Nat), slice.length = size →
      collectRunsE pcmp size minRunSize fuel slice pos =
        .ok (collectRuns cmp size minRunSize fuel slice pos) ∨
      ∃ s, collectRunsE pcmp size minRunSize fuel slice pos = .error s ∧ s.Perm slice
  | 0, slice, pos, _ => Or.inl rfl
  | fuel + 1, slice, pos, hsz => by
    simp only [collectRunsE, collectRuns]
    by_cases hps : pos < size
    · rw [if_pos hps, if_pos hps]
      rcases getSortedRunFromSliceE_cases hA slice pos minRunSize (by omega)
        with hok | ⟨s, hs, hperm⟩
      · rw [hok]
        dsimp only
        have hselen : (getSortedRunFromSlice cmp slice pos minRunSize).1.length = size := by
          rw [(getSortedRunFromSlice_perm cmp slice pos minRunSize (by omega)).length_eq]
          exact hsz
        rcases collectRunsE_cases hA size minRunSize fuel
            (getSortedRunFromSlice cmp slice pos minRunSize).1
            (getSortedRunFromSlice cmp slice pos minRunSize).2 hselen
          with hok2 | ⟨s, hs2, hperm2⟩
        · rw [hok2]
          exact Or.inl rfl
        · rw [hs2]
          refine Or.inr ⟨s, rfl, hperm2.trans ?_⟩
          exact getSortedRunFromSlice_perm cmp slice pos minRunSize (by omega)
      · rw [hs]
        exact Or.inr ⟨s, rfl, hperm⟩
    · rw [if_neg hps, if_neg hps]
      exact Or.inl rfl

theorem gallopLoopE_sim [Inhabited α] {p : α → Option Bool} {q : α → Bool}
    (hag : ∀ x b, p x = some b → q x = b) (slice : List α) (runLimit startIdx : Nat) :
    ∀ (fuel t prevIdx : Nat) (r : Nat × Nat),
      gallopLoopE p slice runLimit startIdx t prevIdx fuel = .ok r →
      r = gallopLoop q slice runLimit startIdx t prevIdx fuel
  | 0, t, prevIdx, r, h => by
    simp only [gallopLoopE] at h
    cases h
    rfl
  | fuel + 1, t, prevIdx, r, h => by
    simp only [gallopLoopE] at h
    rw [gallopLoop]
    by_cases hlt : startIdx + 2 ^ t < runLimit
    · rw [if_pos hlt] at h
      cases hp : p (slice.getD (startIdx + 2 ^ t) default) with
      | none =>
        rw [hp] at h
        exact absurd h (by simp)
      | some b =>
        rw [hp] at h
        have hq := hag _ _ hp
        cases b with
        | true =>
          dsimp only at h
          rw [if_pos ⟨hlt, hq⟩]
          exact gallopLoopE_sim hag slice runLimit startIdx fuel (t + 1)
            (startIdx + 2 ^ t) r h
        | false =>
          dsimp only at h
          cases h
          rw [if_neg (fun hc => absurd hc.2 (by rw [hq]; simp))]
    · rw [if_neg hlt] at h
      cases h
      rw [if_neg (fun hc => hlt hc.1)]

theorem gallopingCountE_sim [Inhabited α] {predE : α → α → Option Bool}
    {pred : α → α → Bool}
    (hag : ∀ x y b, predE x y = some b → pred x y = b)
    (slice : List α) (targetIdx startIdx runLimit : Nat) (c : Nat)
    (h : gallopingCountE slice targetIdx startIdx runLimit predE = .ok c) :
    c = gallopingCount slice targetIdx startIdx runLimit pred := by
  unfold gallopingCountE at h
  dsimp only at h
  unfold gallopingCount
  dsimp only
  have hag1 : ∀ x b, predE x (slice.getD targetIdx default) = some b →
      pred x (slice.getD targetIdx default) = b := fun x b hb => hag x _ b hb
  cases hg : gallopLoopE (fun x => predE x (slice.getD targetIdx default)) slice runLimit
      startIdx 0 startIdx runLimit with
  | error e =>
    rw [hg] at h
    exact absurd h (by simp)
  | ok pc =>
    rw [hg] at h
    dsimp only at h
    have hpc := gallopLoopE_sim hag1 slice runLimit startIdx runLimit 0 startIdx pc hg
    cases hpp : partitionPointE (fun x => predE x (slice.getD targetIdx default))
        (listSeg slice pc.1 (min pc.2 runLimit)) with
    | error e =>
      rw [hpp] at h
      exact absurd h (by simp)
    | ok pp =>
      rw [hpp] at h
      cases h
      have hppv := partitionPointE_sim hag1 _ pp hpp
      rw [hppv, hpc]

theorem mergeShrinkE_sim [Inhabited α] {pcmp : α → α → Option Ordering}
    {cmp : α → α → Ordering} (hA : Agree pcmp cmp)
    (slice : List α) (run1 run2 : Run) (s : Nat × Nat)
    (h : mergeShrinkE pcmp slice run1 run2 = .ok s) :
    s = mergeShrink cmp slice run1 run2 := by
  unfold mergeShrinkE at h
  cases hp1 : partitionPointE
      (fun x => (pcmp x (slice.getD run2.1 default)).map Ordering.isLE)
      (listSeg slice run1.1 run1.2) with
  | error e =>
    rw [hp1] at h
    exact absurd h (by simp)
  | ok p1 =>
    rw [hp1] at h
    dsimp only at h
    cases hp2 : partitionPointE
        (fun x => (pcmp x (slice.getD (run1.2 - 1) default)).map Ordering.isLT)
        (listSeg slice run2.1 run2.2) with
    | error e =>
      rw [hp2] at h
      exact absurd h (by simp)
    | ok p2 =>
      rw [hp2] at h
      cases h
      have hag1 : ∀ x b, (pcmp x (slice.getD run2.1 default)).map Ordering.isLE = some b →
          (cmp x (slice.getD run2.1 default)).isLE = b := by
        intro x b hb
        obtain ⟨o, ho, hob⟩ := Option.map_eq_some'.mp hb
        rw [hA x _ o ho]
        exact hob
      have hag2 : ∀ x b,
          (pcmp x (slice.getD (run1.2 - 1) default)).map Ordering.isLT = some b →
          (cmp x (slice.getD (run1.2 - 1) default)).isLT = b := by
        intro x b hb
        obtain ⟨o, ho, hob⟩ := Option.map_eq_some'.mp hb
        rw [hA x _ o ho]
        exact hob
      unfold mergeShrink
      rw [partitionPointE_sim hag1 _ p1 hp1, partitionPointE_sim hag2 _ p2 hp2]

theorem mergeLoopE_sim [Inhabited α] {pcmp : α → α → Option Ordering}
    {cmp : α → α → Ordering} (hA : Agree pcmp cmp) (slice : List α) (r1e r2e : Nat) :
    ∀ (fuel i j k s1 s2 mg : Nat) (m : List α),
      mergeLoopE pcmp slice r1e r2e i j k s1 s2 mg fuel = .ok m →
      m = mergeLoop cmp slice r1e r2e i j k s1 s2 mg fuel
  | 0, i, j, k, s1, s2, mg, m, h => by
    simp only [mergeLoopE] at h
    cases h
    rfl
  | fuel + 1, i, j, k, s1, s2, mg, m, h => by
    rw [mergeLoopE] at h
    rw [mergeLoop]
    by_cases hk : k < r2e
    swap
    · rw [if_neg hk] at h ⊢
      cases h
      rfl
    rw [if_pos hk] at h ⊢
    by_cases hj : j = r2e
    · rw [if_pos hj] at h ⊢
      cases hrec : mergeLoopE pcmp slice r1e r2e (i + (r1e - i)) j (k + (r1e - i))
          s1 0 mg fuel with
      | error e =>
        rw [hrec] at h
        exact absurd h (by simp)
      | ok rest =>
        rw [hrec] at h
        cases h
        rw [← mergeLoopE_sim hA slice r1e r2e fuel _ _ _ _ _ _ rest hrec]
    · rw [if_neg hj] at h ⊢
      cases hp : pcmp (slice.getD i default) (slice.getD j default) with
      | none =>
        rw [hp] at h
        exact absurd h (by simp)
      | some o =>
        rw [hp] at h
        dsimp only at h
        have ho := hA _ _ o hp
        rw [ho]
        by_cases hle : o.isLE = true
        · rw [if_pos hle] at h ⊢
          by_cases hgal : mg ≤ s1
          · rw [if_pos hgal] at h ⊢
            dsimp only
            cases hg : gallopingCountE slice j i r1e
                (fun r1 t => (pcmp r1 t).map Ordering.isLE) with
            | error e =>
              rw [hg] at h
              exact absurd h (by simp)
            | ok c =>
              rw [hg] at h
              dsimp only at h
              have hagp : ∀ x y b, (pcmp x y).map Ordering.isLE = some b →
                  (cmp x y).isLE = b := by
                intro x y b hb
                obtain ⟨o2, ho2, hob⟩ := Option.map_eq_some'.mp hb
                rw [hA x y o2 ho2]
                exact hob
              have hc := gallopingCountE_sim hagp slice j i r1e c hg
              rw [← hc]
              cases hrec : mergeLoopE pcmp slice r1e r2e (i + c) j (k + c) s1 0
                  (updateMinGallop mg c) fuel with
              | error e =>
                rw [hrec] at h
                exact absurd h (by simp)
              | ok rest =>
                rw [hrec] at h
                cases h
                rw [← mergeLoopE_sim hA slice r1e r2e fuel _ _ _ _ _ _ rest hrec]
          · rw [if_neg hgal] at h ⊢
            cases hrec : mergeLoopE pcmp slice r1e r2e (i + 1) j (k + 1) (s1 + 1) 0
                mg fuel with
            | error e =>
              rw [hrec] at h
              exact absurd h (by simp)
            | ok rest =>
              rw [hrec] at h
              cases h
              rw [← mergeLoopE_sim hA slice r1e r2e fuel _ _ _ _ _ _ rest hrec]
        · rw [if_neg hle] at h ⊢
          by_cases hi : i = r1e
          · rw [if_pos hi] at h ⊢
            cases hrec : mergeLoopE pcmp slice r1e r2e i (j + (r2e - j))
                (k + (r2e - j)) 0 s2 mg fuel with
            | error e =>
              rw [hrec] at h
              exact absurd h (by simp)
            | ok rest =>
              rw [hrec] at h
              cases h
              rw [← mergeLoopE_sim hA slice r1e r2e fuel _ _ _ _ _ _ rest hrec]
          · rw [if_neg hi] at h ⊢
            by_cases hgal : mg ≤ s2
            · rw [if_pos hgal] at h ⊢
              dsimp only
              cases hg : gallopingCountE slice i j r2e
                  (fun r2 t => (pcmp r2 t).map Ordering.isLT) with
              | error e =>
                rw [hg] at h
                exact absurd h (by simp)
              | ok c =>
                rw [hg] at h
                dsimp only at h
                have hagp : ∀ x y b, (pcmp x y).map Ordering.isLT = some b →
                    (cmp x y).isLT = b := by
                  intro x y b hb
                  obtain ⟨o2, ho2, hob⟩ := Option.map_eq_some'.mp hb
                  rw [hA x y o2 ho2]
                  exact hob
                have hc := gallopingCountE_sim hagp slice i j r2e c hg
                rw [← hc]
                cases hrec : mergeLoopE pcmp slice r1e r2e i (j + c) (k + c) 0 s2
                    (updateMinGallop mg c) fuel with
                | error e =>
                  rw [hrec] at h
                  exact absurd h (by simp)
                | ok rest =>
                  rw [hrec] at h
                  cases h
                  rw [← mergeLoopE_sim hA slice r1e r2e fuel _ _ _ _ _ _ rest hrec]
            · rw [if_neg hgal] at h ⊢
              cases hrec : mergeLoopE pcmp slice r1e r2e i (j + 1) (k + 1) 0 (s2 + 1)
                  mg fuel with
              | error e =>
                rw [hrec] at h
                exact absurd h (by simp)
              | ok rest =>
                rw [hrec] at h
                cases h
                rw [← mergeLoopE_sim hA slice r1e r2e fuel _ _ _ _ _ _ rest hrec]

theorem mergeTwoRunE_cases [Inhabited α] {pcmp : α → α → Option Ordering}
    {cmp : α → α → Ordering} (hA : Agree pcmp cmp)
    (slice : List α) (run1 run2 : Run) :
    mergeTwoRunE pcmp slice run1 run2 = .ok (mergeTwoRun cmp slice run1 run2) ∨
    mergeTwoRunE pcmp slice run1 run2 = .error slice := by
  unfold mergeTwoRunE
  cases hs : mergeShrinkE pcmp slice run1 run2 with
  | error e => exact Or.inr rfl
  | ok s =>
    dsimp only
    have hs2 := mergeShrinkE_sim hA slice run1 run2 s hs
    cases hm : mergeLoopE pcmp slice run1.2 s.2 s.1 run2.1 s.1 0 0 3 (s.2 - s.1) with
    | error e => exact Or.inr rfl
    | ok merged =>
      left
      have hm2 := mergeLoopE_sim hA slice run1.2 s.2 (s.2 - s.1) s.1 run2.1 s.1 0 0 3
        merged hm
      rw [hm2, hs2]
      rfl

theorem keepRunStackInvariantE_cases [Inhabited α] {pcmp : α → α → Option Ordering}
    {cmp : α → α → Ordering} [TransCmp cmp] (hA : Agree pcmp cmp) (orig : List α) :
    ∀ (fuel : Nat) (slice : List α) (stack : List Run) (top : Nat),
      slice.length = orig.length → Covers stack top → top ≤ orig.length →
      SegsSorted cmp orig slice stack → slice.Perm orig →
      keepRunStackInvariantE pcmp fuel slice stack =
        .ok (keepRunStackInvariant cmp fuel slice stack) ∨
      ∃ s, keepRunStackInvariantE pcmp fuel slice stack = .error s ∧ s.Perm orig := by
  intro fuel
  induction fuel with
  | zero =>
    intro slice stack top h1 h2 h3 h4 h5
    exact Or.inl rfl
  | succ fuel ih =>
    intro slice stack top h1 h2 h3 h4 h5
    by_cases hok : isRunStackOk stack = true
    · left
      rw [keepRunStackInvariant_succ, if_pos hok]
      simp only [keepRunStackInvariantE]
      rw [if_pos hok]
    · rcases stack with _ | ⟨f, _ | ⟨s, _ | ⟨t, rest⟩⟩⟩
      · exact absurd rfl hok
      · exact absurd rfl hok
      · exact absurd rfl hok
      · obtain ⟨hf2, hf12, hcv1⟩ := h2
        obtain ⟨hs2, hs12, hcv2⟩ := hcv1
        obtain ⟨ht2, ht12, hcv3⟩ := hcv2
        have hcv2 : Covers (t :: rest) s.1 := ⟨ht2, ht12, hcv3⟩
        have hXf := h4 f (by simp)
        have hXs := h4 s (by simp)
        have hXt := h4 t (by simp)
        rw [keepRunStackInvariant_cons3 cmp fuel slice f s t rest hok]
        simp only [keepRunStackInvariantE]
        rw [if_neg hok]
        by_cases hgt : isRunGt t f = true
        · rw [if_pos hgt, if_pos hgt]
          have hsf : f = (s.2, f.2) := by rw [hs2]
          have hs' : s = (s.1, s.2) := rfl
          rcases mergeTwoRunE_cases hA slice s f with hmok | hmerr
          · rw [hmok]
            dsimp only
            have hm : mergeTwoRun cmp slice s f =
                slice.take s.1 ++ refSort cmp (listSeg orig s.1 f.2) ++
                  slice.drop f.2 := by
              conv_lhs => rw [hs', hsf]
              exact mergeTwoRun_update cmp orig slice s.1 s.2 f.2 hs12 (by omega)
                (by omega) hXs (by rw [hs2]; exact hXf)
            have hMlen : (refSort cmp (listSeg orig s.1 f.2)).length = f.2 - s.1 := by
              rw [(refSort_perm _).length_eq, listSeg_length (by omega) (by omega)]
            have hperm : (mergeTwoRun cmp slice s f).Perm slice := by
              conv_lhs => rw [hs', hsf]
              exact mergeTwoRun_perm_of_sorted cmp orig slice s.1 s.2 f.2 hs12
                (by omega) (by omega) hXs (by rw [hs2]; exact hXf)
            rw [hm] at hperm ⊢
            exact ih (slice.take s.1 ++ refSort cmp (listSeg orig s.1 f.2) ++
                slice.drop f.2)
              ((s.1, f.2) :: t :: rest) top
              (by rw [update_length (by omega) (by omega) hMlen]; exact h1)
              ⟨hf2, by omega, hcv2⟩ h3
              (by
                intro r hr
                rcases List.mem_cons.mp hr with heq | hr2
                · subst heq
                  show listSeg _ s.1 f.2 = refSort cmp (listSeg orig s.1 f.2)
                  rw [update_seg (by omega) (by omega) hMlen]
                · have hb := covers_bounds hcv2 r hr2
                  rw [update_seg_left (by omega) (by omega) hb.2]
                  exact h4 r (List.mem_cons_of_mem f (List.mem_cons_of_mem s hr2)))
              (hperm.trans h5)
          · rw [hmerr]
            exact Or.inr ⟨slice, rfl, h5⟩
        · rw [if_neg hgt, if_neg hgt]
          have ht' : t = (t.1, t.2) := rfl
          have hts : s = (t.2, s.2) := by rw [ht2]
          rcases mergeTwoRunE_cases hA slice t s with hmok | hmerr
          · rw [hmok]
            dsimp only
            have hm : mergeTwoRun cmp slice t s =
                slice.take t.1 ++ refSort cmp (listSeg orig t.1 s.2) ++
                  slice.drop s.2 := by
              conv_lhs => rw [ht', hts]
              exact mergeTwoRun_update cmp orig slice t.1 t.2 s.2 ht12 (by omega)
                (by omega) hXt (by rw [ht2]; exact hXs)
            have hMlen : (refSort cmp (listSeg orig t.1 s.2)).length = s.2 - t.1 := by
              rw [(refSort_perm _).length_eq, listSeg_length (by omega) (by omega)]
            have hperm : (mergeTwoRun cmp slice t s).Perm slice := by
              conv_lhs => rw [ht', hts]
              exact mergeTwoRun_perm_of_sorted cmp orig slice t.1 t.2 s.2 ht12
                (by omega) (by omega) hXt (by rw [ht2]; exact hXs)
            rw [hm] at hperm ⊢
            exact ih (slice.take t.1 ++ refSort cmp (listSeg orig t.1 s.2) ++
                slice.drop s.2)
              (f :: (t.1, s.2) :: rest) top
              (by rw [update_length (by omega) (by omega) hMlen]; exact h1)
              ⟨hf2, hf12, hs2, by omega, hcv3⟩ h3
              (by
                intro r hr
                rcases List.mem_cons.mp hr with heq | hr2
                · subst heq
                  rw [update_seg_right (by omega) (by omega) hMlen (by omega)]
                  exact hXf
                · rcases List.mem_cons.mp hr2 with heq2 | hr3
                  · subst heq2
                    show listSeg _ t.1 s.2 = refSort cmp (listSeg orig t.1 s.2)
                    rw [update_seg (by omega) (by omega) hMlen]
                  · have hb := covers_bounds hcv3 r hr3
                    rw [update_seg_left (by omega) (by omega) hb.2]
                    exact h4 r (List.mem_cons_of_mem f (List.mem_cons_of_mem s
                      (List.mem_cons_of_mem t hr3))))
              (hperm.trans h5)
          · rw [hmerr]
            exact Or.inr ⟨slice, rfl, h5⟩

theorem buildRunStackE_cases [Inhabited α] {pcmp : α → α → Option Ordering}
    {cmp : α → α → Ordering} [TransCmp cmp] (hA : Agree pcmp cmp) (orig : List α)
    (size : Nat) (hsz : size ≤ orig.length) :
    ∀ (runs : List Run) (slice : List α) (stack : List Run) (pos : Nat),
      slice.length = orig.length → Covers stack pos → RunsCover size pos runs →
      SegsSorted cmp orig slice stack →
      (∀ r ∈ runs, listSeg slice r.1 r.2 = refSort cmp (listSeg orig r.1 r.2)) →
      slice.Perm orig →
      buildRunStackE pcmp runs (slice, stack) =
        .ok (buildRunStack cmp (slice, stack) runs) ∨
      ∃ s, buildRunStackE pcmp runs (slice, stack) = .error s ∧ s.Perm orig
  | [], slice, stack, pos, h1, h2, h3, h4, h5, h6 => Or.inl rfl
  | r :: runs, slice, stack, pos, h1, h2, h3, h4, h5, h6 => by
    obtain ⟨hr1, hr2, hr3, hrest⟩ := h3
    simp only [buildRunStackE]
    have hcov : Covers (r :: stack) r.2 := ⟨rfl, by omega, hr1.symm ▸ h2⟩
    have hsegs : SegsSorted cmp orig slice (r :: stack) := by
      intro q hq
      rcases List.mem_cons.mp hq with heq | hq2
      · subst heq
        exact h5 q (List.mem_cons_self q runs)
      · exact h4 q hq2
    rcases keepRunStackInvariantE_cases hA orig ((r :: stack).length) slice (r :: stack)
        r.2 h1 hcov (by omega) hsegs h6 with hok | ⟨s, hs, hperm⟩
    · rw [hok]
      dsimp only
      obtain ⟨g1, g2, g3, g4, g5⟩ := keepRunStackInvariant_inv cmp orig
        ((r :: stack).length) slice (r :: stack) r.2 h1 hcov (by omega) hsegs
      have hpend : ∀ rn ∈ runs,
          listSeg (keepRunStackInvariant cmp (r :: stack).length slice (r :: stack)).1
            rn.1 rn.2 = refSort cmp (listSeg orig rn.1 rn.2) := by
        intro rn hrn
        obtain ⟨hb1, hb2, hb3⟩ := runsCover_mem_bounds hrest rn hrn
        rw [listSeg_eq_of_drop_eq g4 hb1]
        exact h5 rn (List.mem_cons_of_mem r hrn)
      have hrec := buildRunStackE_cases hA orig size hsz runs
        (keepRunStackInvariant cmp (r :: stack).length slice (r :: stack)).1
        (keepRunStackInvariant cmp (r :: stack).length slice (r :: stack)).2
        r.2 g1 g2 hrest g3 hpend (g5.trans h6)
      exact hrec
    · rw [hs]
      exact Or.inr ⟨s, rfl, hperm⟩

theorem finalMergeGoE_cases [Inhabited α] {pcmp : α → α → Option Ordering}
    {cmp : α → α → Ordering} [TransCmp cmp] (hA : Agree pcmp cmp) (orig : List α) :
    ∀ (rest : List Run) (slice : List α) (cur : Run) (top : Nat),
      slice.length = orig.length → Covers (cur :: rest) top → top ≤ orig.length →
      SegsSorted cmp orig slice (cur :: rest) → slice.Perm orig →
      finalMergeGoE pcmp slice cur rest = .ok (finalMergeGo cmp slice cur rest) ∨
      ∃ s, finalMergeGoE pcmp slice cur rest = .error s ∧ s.Perm orig
  | [], slice, cur, top, h1, h2, h3, h4, h5 => Or.inl rfl
  | lastRun :: rest, slice, cur, top, h1, h2, h3, h4, h5 => by
    obtain ⟨hc2, hc12, hcv1⟩ := h2
    obtain ⟨hl2, hl12, hcv2⟩ := hcv1
    have hXc := h4 cur (by simp)
    have hXl := h4 lastRun (by simp)
    have hl' : lastRun = (lastRun.1, lastRun.2) := rfl
    have hcc : cur = (lastRun.2, cur.2) := by rw [hl2]
    simp only [finalMergeGoE]
    rcases mergeTwoRunE_cases hA slice lastRun cur with hmok | hmerr
    · rw [hmok]
      dsimp only
      have hm : mergeTwoRun cmp slice lastRun cur =
          slice.take lastRun.1 ++ refSort cmp (listSeg orig lastRun.1 cur.2) ++
            slice.drop cur.2 := by
        conv_lhs => rw [hl', hcc]
        exact mergeTwoRun_update cmp orig slice lastRun.1 lastRun.2 cur.2 hl12
          (by omega) (by omega) hXl (by rw [hl2]; exact hXc)
      have hMlen : (refSort cmp (listSeg orig lastRun.1 cur.2)).length
          = cur.2 - lastRun.1 := by
        rw [(refSort_perm _).length_eq, listSeg_length (by omega) (by omega)]
      have hperm : (mergeTwoRun cmp slice lastRun cur).Perm slice := by
        conv_lhs => rw [hl', hcc]
        exact mergeTwoRun_perm_of_sorted cmp orig slice lastRun.1 lastRun.2 cur.2 hl12
          (by omega) (by omega) hXl (by rw [hl2]; exact hXc)
      have hstep : finalMergeGo cmp slice cur (lastRun :: rest) =
          finalMergeGo cmp (mergeTwoRun cmp slice lastRun cur)
            (lastRun.1, cur.2) rest := rfl
      rw [hstep, hm]
      rw [hm] at hperm
      exact finalMergeGoE_cases hA orig rest _ (lastRun.1, cur.2) top
        (by rw [update_length (by omega) (by omega) hMlen]; exact h1)
        ⟨hc2, by omega, hcv2⟩ h3
        (by
          intro q hq
          rcases List.mem_cons.mp hq with heq | hq2
          · subst heq
            show listSeg _ lastRun.1 cur.2 = refSort cmp (listSeg orig lastRun.1 cur.2)
            rw [update_seg (by omega) (by omega) hMlen]
          · have hb := covers_bounds hcv2 q hq2
            rw [update_seg_left (by omega) (by omega) hb.2]
            exact h4 q (List.mem_cons_of_mem cur (List.mem_cons_of_mem lastRun hq2)))
        (hperm.trans h5)
    · rw [hmerr]
      exact Or.inr ⟨slice, rfl, h5⟩

theorem pcmpPanic7_agree : Agree pcmpPanic7 compare := by
  intro x y o h
  unfold pcmpPanic7 at h
  split at h
  · exact absurd h (by simp)
  · exact Option.some_inj.mp h

/-- C4: with a comparator that may panic at any call (modelled as an
`Option`-valued comparator) but answers as a strict weak ordering wherever it
does answer, a panic anywhere during `tim_sort_by` leaves the slice containing
exactly the original multiset of elements (a permutation: nothing leaked,
duplicated or lost); and `merge_two_run` in particular leaves the slice
completely unchanged on such a panic, since it writes the slice only in the
single final bulk copy-back after all comparisons. -/
theorem timSortByE_panic_safe [Inhabited α] (pcmp : α → α → Option Ordering)
    (cmp : α → α → Ordering) [TransCmp cmp] (hA : Agree pcmp cmp)
    (l slice : List α) (run1 run2 : Run) :
    (∀ s, timSortByE pcmp l = .error s → s.Perm l) ∧
    (∀ s, mergeTwoRunE pcmp slice run1 run2 = .error s → s = slice) := by
  constructor
  swap
  · intro s hs
    rcases mergeTwoRunE_cases hA slice run1 run2 with hok | herr
    · rw [hok] at hs
      exact absurd hs (by simp)
    · rw [herr] at hs
      injection hs with he
      exact he.symm
  · intro s hs
    unfold timSortByE at hs
    dsimp only at hs
    by_cases hnil : l.length = 0
    · rw [hnil] at hs
      simp [collectRunsE, buildRunStackE, finalMergeLoopE] at hs
    · have hsz1 : 1 ≤ l.length := by omega
      have hmrs := getMinRunSize_pos hsz1
      obtain ⟨c1, c2, c3, c4⟩ := collectRuns_spec cmp l.length
        (getMinRunSize l.length).1 hmrs l.length l 0 rfl (by omega) (by omega)
      rcases collectRunsE_cases hA l.length (getMinRunSize l.length).1 l.length l 0 rfl
        with hok | ⟨s2, hs2, hp2⟩
      · rw [hok] at hs
        dsimp only at hs
        have hsrperm : (collectRuns cmp l.length (getMinRunSize l.length).1
            l.length l 0).1.Perm l :=
          collectRuns_perm cmp l.length (getMinRunSize l.length).1 l.length l 0 rfl
        set sr := collectRuns cmp l.length (getMinRunSize l.length).1 l.length l 0
          with hsr
        by_cases hone : sr.2.length = 1
        · rw [if_pos hone] at hs
          exact absurd hs (by simp)
        · rw [if_neg hone] at hs
          obtain ⟨b1, b2, b3, b4⟩ := buildRunStack_inv cmp l l.length (Nat.le_refl _)
            sr.2 sr.1 [] 0 c1 rfl c3 (fun r hr => absurd hr (by simp)) c4
          rcases buildRunStackE_cases hA l l.length (Nat.le_refl _) sr.2 sr.1 [] 0 c1
              rfl c3 (fun r hr => absurd hr (by simp)) c4 hsrperm
            with hbok | ⟨s3, hs3, hp3⟩
          · rw [hbok] at hs
            dsimp only at hs
            set st := buildRunStack cmp (sr.1, []) sr.2 with hst
            have hbperm : st.1.Perm l := b4.trans hsrperm
            cases hst2 : st.2 with
            | nil =>
              rw [hst2] at hs
              simp [finalMergeLoopE] at hs
            | cons cur rest =>
              rw [hst2] at b2 b3 hs
              have hs9 : finalMergeGoE pcmp st.1 cur rest = .error s := hs
              rcases finalMergeGoE_cases hA l rest st.1 cur l.length b1 b2
                  (Nat.le_refl _) b3 hbperm with hfok | ⟨s4, hs4, hp4⟩
              · rw [hfok] at hs9
                exact absurd hs9 (by simp)
              · rw [hs4] at hs9
                injection hs9 with he
                rw [← he]
                exact hp4
          · rw [hs3] at hs
            injection hs with he
            rw [← he]
            exact hp3
      · rw [hs2] at hs
        injection hs with he
        rw [← he]
        exact hp2

/-- C4 (witness): the claim applied with the concrete comparator
`pcmpPanic7` (it panics on any comparison involving `7`, otherwise answers as
`compare`): the sort panics at the very first comparison of `[3, 7, 1, 0, 2]`
leaving the slice intact, and `merge_two_run` on `[5, 7, 2, 4]` panics inside
its narrowing and leaves the slice unchanged. -/
theorem timSortByE_panic_safe_witness :
    ([3, 7, 1, 0, 2] : List Nat).Perm [3, 7, 1, 0, 2] ∧
    ([5, 7, 2, 4] : List Nat) = [5, 7, 2, 4] :=
  ⟨(timSortByE_panic_safe pcmpPanic7 compare pcmpPanic7_agree [3, 7, 1, 0, 2]
      [5, 7, 2, 4] (0, 2) (2, 4)).1 [3, 7, 1, 0, 2] (by rfl),
    (timSortByE_panic_safe pcmpPanic7 compare pcmpPanic7_agree [3, 7, 1, 0, 2]
      [5, 7, 2, 4] (0, 2) (2, 4)).2 [5, 7, 2, 4] (by rfl)⟩

end TimSortVerif
